import Mathlib

/-!
# Metro map routing engine (`m.cpp`, class `Graph_M`)

Shallow embedding of the graph store and of its query algorithms.

* `std::unordered_map<string, V>` is an association list `List (String × V)` with
  pairwise distinct keys; the order of the list stands for the (unspecified) iteration
  order of the container.
* `int` is `Int` reduced into the 32-bit two's complement range by `wrapInt` after every
  arithmetic operation.
* `std::make_heap` / `std::pop_heap` are library code: they are a parameter (`StlHeap`)
  constrained by the contract the C++ standard gives them.
-/

namespace MetroMap

/-! ## 32-bit `int` arithmetic -/

/-- The constant `INT_MAX` of `<climits>`. -/
def INT_MAX : Int := 2147483647

/-- Reduction of a mathematical integer to the value a 32-bit two's complement `int` holds. -/
def wrapInt (x : Int) : Int := (x + 2147483648) % 4294967296 - 2147483648

/-- The `int` addition `a + b`. -/
def addInt (a b : Int) : Int := wrapInt (a + b)

/-- The `int` multiplication `a * b`. -/
def mulInt (a b : Int) : Int := wrapInt (a * b)

/-! ## `std::unordered_map<string, V>` -/

/-- The `m.find(k)` lookup: the value stored under `k`, if any. -/
def mfind {V : Type} : List (String × V) → String → Option V
  | [], _ => none
  | (k', v) :: m, k => if k' = k then some v else mfind m k

/-- The test `m.find(k) != m.end()`. -/
def mcontains {V : Type} (m : List (String × V)) (k : String) : Bool :=
  (mfind m k).isSome

/-- The assignment `m[k] = v`: overwrites the entry of `k`, or adds a new entry. -/
def mset {V : Type} : List (String × V) → String → V → List (String × V)
  | [], k, v => [(k, v)]
  | (k', v') :: m, k, v => if k' = k then (k, v) :: m else (k', v') :: mset m k v

/-- The call `m.erase(k)`. -/
def merase {V : Type} : List (String × V) → String → List (String × V)
  | [], _ => []
  | (k', v') :: m, k => if k' = k then m else (k', v') :: merase m k

/-! ## The graph store -/

/-- The `struct Vertex`: the adjacency map of a node (neighbour name to weight). -/
structure Vertex where
  nbrs : List (String × Int)
deriving DecidableEq

/-- The class `Graph_M`; its only data member is `vtces`. -/
structure Graph_M where
  vtces : List (String × Vertex)
deriving DecidableEq

/-- The `struct DijkstraPair`. -/
structure DijkstraPair where
  vname : String
  psf : String
  cost : Int
deriving DecidableEq

/-- The default constructor `Graph_M()`. -/
def Graph_M.empty : Graph_M := ⟨[]⟩

/-- The value `vtces[vname]` read through `operator[]`, which default-constructs a missing
entry: the adjacency map of `vname`, empty when `vname` is not a key. -/
def Graph_M.nbrsOf (g : Graph_M) (vname : String) : List (String × Int) :=
  match mfind g.vtces vname with
  | some vtx => vtx.nbrs
  | none => []

/-- The effect of `operator[]` on `vtces`: a missing key is inserted with an empty vertex. -/
def Graph_M.touch (g : Graph_M) (vname : String) : Graph_M :=
  if mcontains g.vtces vname then g else ⟨mset g.vtces vname ⟨[]⟩⟩

def Graph_M.numVertex (g : Graph_M) : Nat := g.vtces.length

def Graph_M.containsVertex (g : Graph_M) (vname : String) : Bool :=
  mcontains g.vtces vname

def Graph_M.addVertex (g : Graph_M) (vname : String) : Graph_M :=
  ⟨mset g.vtces vname ⟨[]⟩⟩

def Graph_M.containsEdge (g : Graph_M) (vname1 vname2 : String) : Bool :=
  if !mcontains g.vtces vname1 || !mcontains g.vtces vname2 then false
  else mcontains (g.nbrsOf vname1) vname2

def Graph_M.addEdge (g : Graph_M) (vname1 vname2 : String) (value : Int) : Graph_M :=
  if !mcontains g.vtces vname1 || !mcontains g.vtces vname2
      || mcontains (g.nbrsOf vname1) vname2 then g
  else
    let g1 : Graph_M := ⟨mset g.vtces vname1 ⟨mset (g.nbrsOf vname1) vname2 value⟩⟩
    ⟨mset g1.vtces vname2 ⟨mset (g1.nbrsOf vname2) vname1 value⟩⟩

def Graph_M.removeEdge (g : Graph_M) (vname1 vname2 : String) : Graph_M :=
  if !mcontains g.vtces vname1 || !mcontains g.vtces vname2
      || !mcontains (g.nbrsOf vname1) vname2 then g
  else
    let g1 : Graph_M := ⟨mset g.vtces vname1 ⟨merase (g.nbrsOf vname1) vname2⟩⟩
    ⟨mset g1.vtces vname2 ⟨merase (g1.nbrsOf vname2) vname1⟩⟩

/-- The statement `vtces[key].nbrs.erase(vname)` of `removeVertex` (`operator[]` inserts
a missing `key` first). -/
def Graph_M.eraseNbr (g : Graph_M) (vname key : String) : Graph_M :=
  let g1 := g.touch key
  ⟨mset g1.vtces key ⟨merase (g1.nbrsOf key) vname⟩⟩

/-- The method `removeVertex`: the keys of the adjacency map of `vname` are collected
first, then `vname` is erased from the map of each of them, then `vname` is erased from
`vtces` (`vtces[vname]` inserts a missing `vname` at the start). -/
def Graph_M.removeVertex (g : Graph_M) (vname : String) : Graph_M :=
  let g1 := g.touch vname
  let keys := (g1.nbrsOf vname).map Prod.fst
  let g2 := keys.foldl (fun acc key => acc.eraseNbr vname key) g1
  ⟨merase g2.vtces vname⟩

/-- The method `numEdges`: the `int` sum of the sizes of the adjacency maps, halved. -/
def Graph_M.numEdges (g : Graph_M) : Int :=
  Int.tdiv (g.vtces.foldl (fun count pair => wrapInt (count + pair.2.nbrs.length)) 0) 2

/-! ## `Graph_M::hasPath` -/

/-- The value read by `processed[k]`: the stored flag, `false` for a missing key. -/
def pget (processed : List (String × Bool)) (k : String) : Bool :=
  (mfind processed k).getD false

/-- The effect of reading `processed[k]`: a missing key is inserted with `false`. -/
def ptouch (processed : List (String × Bool)) (k : String) : List (String × Bool) :=
  if mcontains processed k then processed else mset processed k false

/-- The loop `for (const auto& nbr : vtx.nbrs)` of `hasPath`; `call` is the recursive
call `hasPath(nbr.first, vname2, processed)`, which returns the answer together with the
graph and the `processed` map it leaves behind. -/
def hasPathLoop
    (call : Graph_M → String → List (String × Bool) →
      Option (Bool × Graph_M × List (String × Bool))) :
    List (String × Int) → Graph_M → List (String × Bool) →
    Option (Bool × Graph_M × List (String × Bool))
  | [], g, processed => some (false, g, processed)
  | (nbr, _) :: rest, g, processed =>
    if pget processed nbr = false then
      match call g nbr (ptouch processed nbr) with
      | none => none
      | some (true, g1, processed1) => some (true, g1, processed1)
      | some (false, g1, processed1) => hasPathLoop call rest g1 processed1
    else hasPathLoop call rest g (ptouch processed nbr)

/-- The method `hasPath(vname1, vname2, processed)` with recursion depth at most `fuel`
(`none` when the depth does not suffice). The result carries the returned flag, the graph
(`vtces[vname1]` inserts a missing key) and the final `processed` map. -/
def hasPathAux (vname2 : String) :
    Nat → Graph_M → String → List (String × Bool) →
    Option (Bool × Graph_M × List (String × Bool))
  | 0, _, _, _ => none
  | fuel + 1, g, vname1, processed =>
    if g.containsEdge vname1 vname2 then some (true, g, processed)
    else
      let processed1 := mset processed vname1 true
      let g1 := g.touch vname1
      hasPathLoop (hasPathAux vname2 fuel) (g1.nbrsOf vname1) g1 processed1

/-- The number of adjacency entries of the graph. -/
def Graph_M.numEntries (g : Graph_M) : Nat :=
  (g.vtces.map (fun p => p.2.nbrs.length)).sum

/-- The method `hasPath`. Every nested call marks a name that was unmarked and that is a
key of `vtces` or of an adjacency map, so their number bounds the recursion depth. -/
def Graph_M.hasPath (g : Graph_M) (vname1 vname2 : String)
    (processed : List (String × Bool)) : Option (Bool × Graph_M × List (String × Bool)) :=
  hasPathAux vname2 (g.numVertex + g.numEntries + 2) g vname1 processed

/-! ## The binary heap of the standard library -/

/-- The `operator<` of `DijkstraPair` (reversed, so that the STL max-heap is a min-heap). -/
def DijkstraPair.lt (a other : DijkstraPair) : Bool := decide (a.cost > other.cost)

/-- The predicate `std::is_heap` for `DijkstraPair::operator<`: no element is less than
one of its children, the parent of position `i > 0` being position `(i - 1) / 2`; in
terms of costs, a parent costs at most what its child costs. -/
def IsHeap (l : List DijkstraPair) : Prop :=
  ∀ i p c, 0 < i → l[(i - 1) / 2]? = some p → l[i]? = some c → p.lt c = false

/-- The two heap primitives of `<algorithm>` that `dijkstra` calls, with the contract of
the C++ standard: `make_heap` rearranges a range into a heap; `pop_heap`, on a heap, swaps
the first element to the last position and makes the rest into a heap. Which of several
entries of equal cost comes first is left to the implementation. -/
structure StlHeap where
  make_heap : List DijkstraPair → List DijkstraPair
  pop_heap : List DijkstraPair → List DijkstraPair
  make_heap_perm : ∀ l, (make_heap l).Perm l
  make_heap_isHeap : ∀ l, IsHeap (make_heap l)
  pop_heap_spec : ∀ x xs, IsHeap (x :: xs) →
    ∃ r, pop_heap (x :: xs) = r ++ [x] ∧ r.Perm xs ∧ IsHeap r

/-! ## `Graph_M::dijkstra` -/

/-- The record `np` built for the key `vname` by the first loop of `dijkstra`. -/
def initPair (src vname : String) : DijkstraPair :=
  if vname = src then ⟨vname, vname, 0⟩ else ⟨vname, "", INT_MAX⟩

/-- The first loop of `dijkstra`: one record per vertex, pushed on `heap` and stored in
`map`. -/
def dijkstraInit (src : String) :
    List (String × Vertex) → List DijkstraPair → List (String × DijkstraPair) →
    List DijkstraPair × List (String × DijkstraPair)
  | [], heap, map => (heap, map)
  | (k, _) :: rest, heap, map =>
    dijkstraInit src rest (heap ++ [initPair src k]) (mset map k (initPair src k))

/-- The loop `for (auto& item : heap)` of the decrease-key step: the first item named
`vname` gets the new path and cost. -/
def heapUpdate : List DijkstraPair → String → String → Int → List DijkstraPair
  | [], _, _, _ => []
  | item :: heap, vname, psf, nc =>
    if item.vname = vname then { item with psf := psf, cost := nc } :: heap
    else item :: heapUpdate heap vname psf nc

/-- The candidate cost `nc` of a neighbour at weight `w` reached from a record of cost
`c`: `c + 120 + 40 * w` in time mode (`nan`), `c + w` in distance mode. -/
def newCost (nan : Bool) (c w : Int) : Int :=
  if nan then addInt (addInt c 120) (mulInt 40 w) else addInt c w

/-- The loop `for (const auto& nbr : v.nbrs)` of `dijkstra` for the popped record `rp`. -/
def relax (H : StlHeap) (nan : Bool) (rp : DijkstraPair) :
    List (String × Int) → List DijkstraPair → List (String × DijkstraPair) →
    List DijkstraPair × List (String × DijkstraPair)
  | [], heap, map => (heap, map)
  | (nbr, w) :: rest, heap, map =>
    match mfind map nbr with
    | none => relax H nan rp rest heap map
    | some gp =>
      let oc := gp.cost
      let nc := newCost nan rp.cost w
      if nc < oc then
        relax H nan rp rest (H.make_heap (heapUpdate heap nbr (rp.psf ++ nbr) nc))
          (mset map nbr { gp with psf := rp.psf ++ nbr, cost := nc })
      else relax H nan rp rest heap map

/-- The loop `while (!heap.empty())` of `dijkstra`, unrolled at most `fuel` times; the
result is the final `val` (`0` when the loop ends without meeting `des`), and `none` when
the fuel does not suffice. The records of the heap are named after keys of `vtces`, so
`vtces[rp.vname]` finds its key and inserts nothing. -/
def dijkstraLoop (H : StlHeap) (g : Graph_M) (des : String) (nan : Bool) :
    Nat → List DijkstraPair → List (String × DijkstraPair) → Option Int
  | 0, _, _ => none
  | fuel + 1, heap, map =>
    if heap.isEmpty then some 0
    else
      let heap1 := H.pop_heap heap
      match heap1.getLast? with
      | none => none
      | some rp =>
        if rp.vname = des then some rp.cost
        else
          let st := relax H nan rp (g.nbrsOf rp.vname) heap1.dropLast (merase map rp.vname)
          dijkstraLoop H g des nan fuel st.1 st.2

/-- The method `dijkstra(src, des, nan)`. Every pass of the loop removes one record from
the heap, so one pass more than there are vertices is enough fuel. -/
def Graph_M.dijkstra (H : StlHeap) (g : Graph_M) (src des : String) (nan : Bool) :
    Option Int :=
  let st := dijkstraInit src g.vtces [] []
  dijkstraLoop H g des nan (st.1.length + 1) (H.make_heap st.1) st.2

/-! ## `Graph_M::getMinimumDistance` and `Graph_M::getMinimumTime` -/

/-- The `struct Pair`. -/
structure Pair where
  vname : String
  psf : String
  min_dis : Int
  min_time : Int
deriving DecidableEq

/-- The running total a search compares: `min_time` in `getMinimumTime` (`nan`),
`min_dis` in `getMinimumDistance`. -/
def Pair.total (nan : Bool) (p : Pair) : Int := if nan then p.min_time else p.min_dis

/-- The frame `np` pushed for the adjacency entry `nbr : w` of the popped frame `rp`.
`getMinimumDistance` sets `min_dis = rp.min_dis + w` and `getMinimumTime` sets
`min_time = rp.min_time + 120 + 40 * w`; the other total is left uninitialised by the
source and never read (`0` here). -/
def pushFrame (nan : Bool) (rp : Pair) (nbr : String) (w : Int) : Pair :=
  if nan then ⟨nbr, rp.psf ++ nbr ++ "  ", 0, addInt (addInt rp.min_time 120) (mulInt 40 w)⟩
  else ⟨nbr, rp.psf ++ nbr ++ "  ", addInt rp.min_dis w, 0⟩

/-- The loop `for (const auto& nbr : rpvtx.nbrs)` of the two searches: a frame is pushed
for every neighbour that `processed` does not mark. The `vector` that serves as stack is
held top first. -/
def pushNbrs (nan : Bool) (rp : Pair) :
    List (String × Int) → List Pair → List (String × Bool) →
    List Pair × List (String × Bool)
  | [], stack, processed => (stack, processed)
  | (nbr, w) :: rest, stack, processed =>
    if pget processed nbr = false then
      pushNbrs nan rp rest (pushFrame nan rp nbr w :: stack) (ptouch processed nbr)
    else pushNbrs nan rp rest stack (ptouch processed nbr)

/-- The loop `while (!stack.empty())` of `getMinimumDistance` (`nan = false`) and of
`getMinimumTime` (`nan = true`), which differ in the total they extend and compare only;
at most `fuel` passes. The result is the final `ans`, the final `min` and the graph
(`vtces[rp.vname]` inserts a missing key). -/
def searchLoop (nan : Bool) (dst : String) :
    Nat → List Pair → List (String × Bool) → String → Int → Graph_M →
    Option (String × Int × Graph_M)
  | 0, _, _, _, _, _ => none
  | _ + 1, [], _, ans, min, g => some (ans, min, g)
  | fuel + 1, rp :: stack, processed, ans, min, g =>
    if pget processed rp.vname = true then searchLoop nan dst fuel stack processed ans min g
    else
      let processed1 := mset processed rp.vname true
      if rp.vname = dst then
        if rp.total nan < min then
          searchLoop nan dst fuel stack processed1 rp.psf (rp.total nan) g
        else searchLoop nan dst fuel stack processed1 ans min g
      else
        let g1 := g.touch rp.vname
        let st := pushNbrs nan rp (g1.nbrsOf rp.vname) stack processed1
        searchLoop nan dst fuel st.1 st.2 ans min g1

/-- The two searches up to their `return`: the final `ans` and `min` (and the graph).
Every pass pops a frame, and frames are pushed for adjacency entries of a node that is
marked in the same pass, so there are at most `1 + numEntries` pops. -/
def Graph_M.stackSearch (g : Graph_M) (nan : Bool) (src dst : String) :
    Option (String × Int × Graph_M) :=
  searchLoop nan dst (g.numEntries + 2) [⟨src, src ++ "  ", 0, 0⟩] [] "" INT_MAX g

/-- The method `getMinimumDistance`: the recorded route followed by `to_string(min)`. -/
def Graph_M.getMinimumDistance (g : Graph_M) (src dst : String) :
    Option (String × Graph_M) :=
  (g.stackSearch false src dst).map (fun r => (r.1 ++ toString r.2.1, r.2.2))

/-- The values of `ans` and `min` with which `getMinimumTime` leaves its loop (its
`return` converts `min` to a `double` number of minutes). -/
def Graph_M.getMinimumTimeRecord (g : Graph_M) (src dst : String) :
    Option (String × Int × Graph_M) :=
  g.stackSearch true src dst

/-! ## `Graph_M::getInterchanges` -/

/-- The tokens read by `getline(ss, token, ' ')` from the characters that follow, `cur`
being the token under way; empty tokens are dropped. -/
def tokensFrom : List Char → List Char → List String
  | [], cur => if cur = [] then [] else [String.mk cur]
  | c :: cs, cur =>
    if c = ' ' then
      if cur = [] then tokensFrom cs [] else String.mk cur :: tokensFrom cs []
    else tokensFrom cs (cur ++ [c])

/-- The vector `res` of `getInterchanges`: the non-empty tokens of `str`. -/
def tokens (str : String) : List String := tokensFrom str.data []

/-- The characters after the first `~`, if there is one. -/
def afterTilde : List Char → Option (List Char)
  | [] => none
  | c :: cs => if c = '~' then some cs else afterTilde cs

/-- The expression `t.substr(t.find('~') + 1)`: the part of `t` after its first `~`. For
a token without `~`, `find` returns `npos`, `npos + 1` is `0` in `size_t`, and the
expression is the whole token. -/
def suffixOf (t : String) : String :=
  match afterTilde t.data with
  | some cs => String.mk cs
  | none => t

/-- The `for` loop of `getInterchanges` from index `i`, at most `fuel` passes; `none`
stands for an index out of the bounds of `res`. The test `s.length() == 2` counts the
`char`s of a `std::string`, which are the bytes of the token. -/
def interLoop (res : List String) : Nat → Nat → List String → Int → Option (List String × Int)
  | 0, _, _, _ => none
  | fuel + 1, i, arr, count =>
    if i < res.length - 1 then
      match res[i]? with
      | none => none
      | some t =>
        if (suffixOf t).utf8ByteSize = 2 then
          match res[i - 1]?, res[i + 1]? with
          | some a, some c =>
            if suffixOf a = suffixOf c then interLoop res fuel (i + 1) (arr ++ [t]) count
            else interLoop res fuel (i + 1 + 1) (arr ++ [t ++ " ==> " ++ c]) (addInt count 1)
          | _, _ => none
        else interLoop res fuel (i + 1) (arr ++ [t]) count
    else some (arr, count)

/-- The method `getInterchanges`; `none` when `res` is empty (`res[0]` is out of
bounds). The index grows in every pass, so `res.size()` passes are enough. -/
def getInterchanges (str : String) : Option (List String) :=
  let res := tokens str
  match res[0]?, res.getLast? with
  | some first, some last =>
    match interLoop res (res.length + 1) 1 [first] 0 with
    | some (arr, count) => some (arr ++ [toString count, last])
    | none => none
  | _, _ => none

/-! ## The menu of `main` -/

/-- The choice 4 of the menu: `none` when `THE INPUTS ARE INVALID` is printed (or a call
does not return), and otherwise the number of minutes printed, the `int` quotient
`g.dijkstra(sat1, sat2, true) / 60`. -/
def menuShortestTime (H : StlHeap) (g : Graph_M) (sat1 sat2 : String) : Option Int :=
  if !g.containsVertex sat1 || !g.containsVertex sat2 then none
  else
    match g.hasPath sat1 sat2 [] with
    | some (true, g1, _) => (g1.dijkstra H sat1 sat2 true).map (fun t => Int.tdiv t 60)
    | _ => none

/-- The choice 5 of the menu: `none` when `THE INPUTS ARE INVALID` is printed (or a call
does not return), and otherwise the vector `str`,
`getInterchanges(getMinimumDistance(s1, s2))`. -/
def menuShortestPath (g : Graph_M) (s1 s2 : String) : Option (List String) :=
  if !g.containsVertex s1 || !g.containsVertex s2 then none
  else
    match g.hasPath s1 s2 [] with
    | some (true, g1, _) =>
      match g1.getMinimumDistance s1 s2 with
      | some (path, _) => getInterchanges path
      | none => none
    | _ => none

/-! ## `Graph_M::createMetroMap` -/

/-- The reference network: the calls of `createMetroMap` on an empty graph. -/
def createMetroMap (g : Graph_M) : Graph_M :=
  let g := g.addVertex "Noida Sector 62~B"
  let g := g.addVertex "Botanical Garden~B"
  let g := g.addVertex "Yamuna Bank~B"
  let g := g.addVertex "Rajiv Chowk~BY"
  let g := g.addVertex "Vaishali~B"
  let g := g.addVertex "Moti Nagar~B"
  let g := g.addVertex "Janak Puri West~BO"
  let g := g.addVertex "Dwarka Sector 21~B"
  let g := g.addVertex "Huda City Center~Y"
  let g := g.addVertex "Saket~Y"
  let g := g.addVertex "Vishwavidyalaya~Y"
  let g := g.addVertex "Chandni Chowk~Y"
  let g := g.addVertex "New Delhi~YO"
  let g := g.addVertex "AIIMS~Y"
  let g := g.addVertex "Shivaji Stadium~O"
  let g := g.addVertex "DDS Campus~O"
  let g := g.addVertex "IGI Airport~O"
  let g := g.addVertex "Rajouri Garden~BP"
  let g := g.addVertex "Netaji Subhash Place~PR"
  let g := g.addVertex "Punjabi Bagh West~P"
  let g := g.addEdge "Noida Sector 62~B" "Botanical Garden~B" 8
  let g := g.addEdge "Botanical Garden~B" "Yamuna Bank~B" 10
  let g := g.addEdge "Yamuna Bank~B" "Vaishali~B" 8
  let g := g.addEdge "Yamuna Bank~B" "Rajiv Chowk~BY" 6
  let g := g.addEdge "Rajiv Chowk~BY" "Moti Nagar~B" 9
  let g := g.addEdge "Moti Nagar~B" "Janak Puri West~BO" 7
  let g := g.addEdge "Janak Puri West~BO" "Dwarka Sector 21~B" 6
  let g := g.addEdge "Huda City Center~Y" "Saket~Y" 15
  let g := g.addEdge "Saket~Y" "AIIMS~Y" 6
  let g := g.addEdge "AIIMS~Y" "Rajiv Chowk~BY" 7
  let g := g.addEdge "Rajiv Chowk~BY" "New Delhi~YO" 1
  let g := g.addEdge "New Delhi~YO" "Chandni Chowk~Y" 2
  let g := g.addEdge "Chandni Chowk~Y" "Vishwavidyalaya~Y" 5
  let g := g.addEdge "New Delhi~YO" "Shivaji Stadium~O" 2
  let g := g.addEdge "Shivaji Stadium~O" "DDS Campus~O" 7
  let g := g.addEdge "DDS Campus~O" "IGI Airport~O" 8
  let g := g.addEdge "Moti Nagar~B" "Rajouri Garden~BP" 2
  let g := g.addEdge "Punjabi Bagh West~P" "Rajouri Garden~BP" 2
  let g := g.addEdge "Punjabi Bagh West~P" "Netaji Subhash Place~PR" 3
  g

/-- The graph `main` works on: `createMetroMap` applied to a fresh `Graph_M`. -/
def metroMap : Graph_M := createMetroMap Graph_M.empty

/-! ## Small graphs used as test inputs -/

/-- Three vertices `S`, `X`, `Y` and one edge `X - Y` of weight `1`: `S` is isolated. -/
def isolatedGraph : Graph_M :=
  (((Graph_M.empty.addVertex "S").addVertex "X").addVertex "Y").addEdge "X" "Y" 1

/-- A triangle `A - B` (1), `B - C` (1), `A - C` (5) and an isolated vertex `D`. -/
def triangleGraph : Graph_M :=
  ((((((Graph_M.empty.addVertex "A").addVertex "B").addVertex "C").addVertex "D").addEdge
    "A" "B" 1).addEdge "B" "C" 1).addEdge "A" "C" 5

/-- A path `A - B - C` whose two edges have weight `2^30`. -/
def heavyGraph : Graph_M :=
  ((((Graph_M.empty.addVertex "A").addVertex "B").addVertex "C").addEdge
    "A" "B" 1073741824).addEdge "B" "C" 1073741824

/-- The vertex `A` with an edge to itself, and the isolated vertex `N`. -/
def loopGraph : Graph_M :=
  ((Graph_M.empty.addVertex "A").addVertex "N").addEdge "A" "A" 1

/-- The chain `A – B – C` with the weights `3` and `4`. -/
def chainGraph : Graph_M :=
  ((((Graph_M.empty.addVertex "A").addVertex "B").addVertex "C").addEdge "A" "B" 3).addEdge
    "B" "C" 4

/-- The chain of three stations with two category codes each, `A~BY – M~BY – C~BY`, with
the weights `3` and `4`. -/
def codesGraph : Graph_M :=
  ((((Graph_M.empty.addVertex "A~BY").addVertex "M~BY").addVertex "C~BY").addEdge
    "A~BY" "M~BY" 3).addEdge "M~BY" "C~BY" 4

/-- The cycle `A – B – C – A` with the weights `1`, `1` and `5`. -/
def cycleGraph : Graph_M :=
  (((((Graph_M.empty.addVertex "A").addVertex "B").addVertex "C").addEdge "A" "B" 1).addEdge
    "B" "C" 1).addEdge "A" "C" 5

/-- Two vertices joined by an edge of weight `10`. -/
def pairGraph : Graph_M :=
  ((Graph_M.empty.addVertex "A").addVertex "B").addEdge "A" "B" 10

/-- The vertex `B` whose adjacency still names `A`, which is no vertex: the pair graph
after `addVertex("A")` and `removeVertex("A")`. -/
def danglingGraph : Graph_M := (pairGraph.addVertex "A").removeVertex "A"

/-! ## A reference implementation of the heap contract -/

/-- Sorting by ascending cost. -/
def sortByCost (l : List DijkstraPair) : List DijkstraPair :=
  l.insertionSort (fun a b => a.cost ≤ b.cost)

/-- The `pop_heap` of the reference heap. -/
def refPop : List DijkstraPair → List DijkstraPair
  | [] => []
  | x :: xs => sortByCost xs ++ [x]

instance costLeTotal : IsTotal DijkstraPair (fun a b => a.cost ≤ b.cost) :=
  ⟨fun a b => le_total a.cost b.cost⟩

instance costLeTrans : IsTrans DijkstraPair (fun a b => a.cost ≤ b.cost) :=
  ⟨fun _ _ _ h1 h2 => le_trans h1 h2⟩

/-- A conforming implementation of the heap primitives: the range is kept sorted by
ascending cost (a sorted range is a heap, the parent of a position never lies after it). -/
def refHeap : StlHeap :=
  have key : ∀ l : List DijkstraPair, l.Sorted (fun a b => a.cost ≤ b.cost) → IsHeap l := by
    intro l h i p c hi hp hc
    have hlt : (i - 1) / 2 < i := by omega
    simp only [DijkstraPair.lt, decide_eq_false_iff_not, gt_iff_lt, not_lt]
    rw [List.getElem?_eq_some] at hp hc
    obtain ⟨h1, rfl⟩ := hp
    obtain ⟨h2, rfl⟩ := hc
    exact List.pairwise_iff_getElem.mp h _ _ h1 h2 hlt
  { make_heap := sortByCost
    pop_heap := refPop
    make_heap_perm := fun l => List.perm_insertionSort _ l
    make_heap_isHeap := fun l => key _ (List.sorted_insertionSort _ l)
    pop_heap_spec := fun _ xs _ =>
      ⟨sortByCost xs, rfl, List.perm_insertionSort _ xs,
        key _ (List.sorted_insertionSort _ xs)⟩ }

/-! ## Vocabulary of the specification -/

/-- The representation invariant of the containers: an `unordered_map` holds every key
once, in `vtces` and in every adjacency map. -/
def Graph_M.WF (g : Graph_M) : Prop :=
  (g.vtces.map Prod.fst).Nodup ∧ ∀ p ∈ g.vtces, (p.2.nbrs.map Prod.fst).Nodup

instance Graph_M.decWF (g : Graph_M) : Decidable g.WF := by
  unfold Graph_M.WF; infer_instance

/-- Symmetric adjacency: every adjacency entry `u → v : w` has its mirror `v → u : w`. -/
def Graph_M.Symmetric (g : Graph_M) : Prop :=
  ∀ p ∈ g.vtces, ∀ q ∈ p.2.nbrs, mfind (g.nbrsOf q.1) p.1 = some q.2

instance Graph_M.decSymmetric (g : Graph_M) : Decidable g.Symmetric := by
  unfold Graph_M.Symmetric; infer_instance

/-- Non-negative weights. -/
def Graph_M.NonNeg (g : Graph_M) : Prop :=
  ∀ p ∈ g.vtces, ∀ q ∈ p.2.nbrs, 0 ≤ q.2

instance Graph_M.decNonNeg (g : Graph_M) : Decidable g.NonNeg := by
  unfold Graph_M.NonNeg; infer_instance

/-- The cost of an edge of weight `w`: `120 + 40 * w` in time mode, `w` in distance
mode (as mathematical integers). -/
def edgeCost (nan : Bool) (w : Int) : Int := if nan then 120 + 40 * w else w

/-- The routes of the graph that start at `src`: `Route g nan src y p c` says that `p` is
the sequence of nodes of a walk from the vertex `src` to `y` along adjacency entries, and
`c` the sum of the costs of its edges. -/
inductive Route (g : Graph_M) (nan : Bool) (src : String) : String → List String → Int → Prop
  | start : g.containsVertex src = true → Route g nan src src [src] 0
  | step {x y : String} {p : List String} {c w : Int} :
      Route g nan src x p c → mfind (g.nbrsOf x) y = some w →
      Route g nan src y (p ++ [y]) (c + edgeCost nan w)

/-- All path costs are below `INT_MAX`: every route that repeats no node costs less than
`INT_MAX`. -/
def Graph_M.CostsBelowMax (g : Graph_M) (nan : Bool) : Prop :=
  ∀ s y p c, Route g nan s y p c → p.Nodup → c < INT_MAX

/-- The sum of the costs of all adjacency entries. -/
def Graph_M.totalCost (g : Graph_M) (nan : Bool) : Int :=
  (g.vtces.map (fun p => (p.2.nbrs.map (fun q => edgeCost nan q.2)).sum)).sum

/-- The number `c` is the minimum over all routes from `src` to `des` of the sum of the
edge costs: a route without repeated node costs `c`, and no route costs less. -/
def IsMinCost (g : Graph_M) (nan : Bool) (src des : String) (c : Int) : Prop :=
  (∃ p, Route g nan src des p c ∧ p.Nodup) ∧ ∀ p c1, Route g nan src des p c1 → c ≤ c1

/-- The two graphs hold the same map: the same vertices with the same adjacency entries,
whatever the order in which the containers enumerate them. -/
def Graph_M.SameMap (g g1 : Graph_M) : Prop :=
  (∀ k, g.containsVertex k = g1.containsVertex k) ∧
  ∀ k k1, mfind (g.nbrsOf k) k1 = mfind (g1.nbrsOf k) k1

/-- The number of true category transitions on a route, in the words of the
specification: the stations strictly between the first and the last that have exactly two
category codes and whose preceding and following stations have different category
suffixes. -/
def trueTransitions : List String → Nat
  | a :: m :: c :: rest =>
    (if (suffixOf m).length = 2 ∧ suffixOf a ≠ suffixOf c then 1 else 0)
      + trueTransitions (m :: c :: rest)
  | _ => 0

/-- Adjacency symmetry in terms of lookups: when the adjacency of `u` maps `v` to `w`,
the adjacency of `v` maps `u` to `w`. -/
def Graph_M.SymFind (g : Graph_M) : Prop :=
  ∀ u v w, mfind (g.nbrsOf u) v = some w → mfind (g.nbrsOf v) u = some w

/-- No adjacency map holds its own vertex. -/
def Graph_M.NoLoop (g : Graph_M) : Prop := ∀ u, mfind (g.nbrsOf u) u = none

/-- No adjacency map holds the name of its own vertex: no edge joins a node to itself. -/
def Graph_M.LoopFree (g : Graph_M) : Prop :=
  ∀ p ∈ g.vtces, ∀ q ∈ p.2.nbrs, q.1 ≠ p.1

instance Graph_M.decLoopFree (g : Graph_M) : Decidable g.LoopFree := by
  unfold Graph_M.LoopFree; infer_instance

/-- The graphs reachable from the empty graph by `addVertex` on names that are not
vertices yet, `removeVertex`, `addEdge` and `removeEdge` (with arbitrary arguments). -/
inductive Built : Graph_M → Prop
  | empty : Built Graph_M.empty
  | addVertex (g : Graph_M) (n : String) :
      Built g → g.containsVertex n = false → Built (g.addVertex n)
  | removeVertex (g : Graph_M) (n : String) : Built g → Built (g.removeVertex n)
  | addEdge (g : Graph_M) (u v : String) (w : Int) : Built g → Built (g.addEdge u v w)
  | removeEdge (g : Graph_M) (u v : String) : Built g → Built (g.removeEdge u v)

/-- The graphs reachable as in `Built`, `addEdge` being called on two distinct names
only. -/
inductive BuiltSimple : Graph_M → Prop
  | empty : BuiltSimple Graph_M.empty
  | addVertex (g : Graph_M) (n : String) :
      BuiltSimple g → g.containsVertex n = false → BuiltSimple (g.addVertex n)
  | removeVertex (g : Graph_M) (n : String) : BuiltSimple g → BuiltSimple (g.removeVertex n)
  | addEdge (g : Graph_M) (u v : String) (w : Int) :
      BuiltSimple g → u ≠ v → BuiltSimple (g.addEdge u v w)
  | removeEdge (g : Graph_M) (u v : String) : BuiltSimple g → BuiltSimple (g.removeEdge u v)

/-- The adjacency entries of the graph as pairs (vertex, neighbour). -/
def Graph_M.entries (g : Graph_M) : List (String × String) :=
  g.vtces.flatMap (fun p => p.2.nbrs.map (fun q => (p.1, q.1)))

/-- The set of unordered pairs `{u, v}` that are stored as an adjacency entry; in a well
formed graph whose adjacency keys are vertices these are the pairs with
`containsEdge(u, v)`. -/
def Graph_M.edgeSet (g : Graph_M) : Finset (Sym2 String) :=
  (g.entries.map (fun e => s(e.1, e.2))).toFinset

/-- One edge leads from `u` to `v`. -/
def Graph_M.Adj (g : Graph_M) (u v : String) : Prop := g.containsEdge u v = true

/-- The node `v` is reachable from `u` by a path of one or more edges. -/
def Graph_M.Reach (g : Graph_M) (u v : String) : Prop := Relation.TransGen g.Adj u v

/-! ## Vocabulary of the loop invariants -/

/-- The cost recorded in `map` under the key `k` (`INT_MAX` for a missing key). -/
def mcost (map : List (String × DijkstraPair)) (k : String) : Int :=
  match mfind map k with
  | some dp => dp.cost
  | none => INT_MAX

/-- The heap and the map of `dijkstra` hold the same names, each once, with the same
costs. -/
structure Sync (heap : List DijkstraPair) (map : List (String × DijkstraPair)) : Prop where
  nodup : (map.map Prod.fst).Nodup
  perm : (heap.map (fun d => d.vname)).Perm (map.map Prod.fst)
  cost : ∀ item ∈ heap, mcost map item.vname = item.cost

/-- The best cost known for the vertex `k`: the cost recorded in `map` while `k` is
there, and the cost `fin k` with which `k` left the heap afterwards. -/
def dcost (map : List (String × DijkstraPair)) (fin : String → Int) (k : String) : Int :=
  if mcontains map k = true then mcost map k else fin k

/-- The invariant of the `while` loop of `dijkstra` (`fin` records the cost with which
each finished vertex left the heap): heap and map are in step; the source has cost `0`;
a finished vertex costs no more than an unfinished one; every edge out of a finished
vertex is relaxed; every cost other than `INT_MAX` is the cost of a route without
repeated node that runs through finished vertices. -/
structure DInv (g : Graph_M) (nan : Bool) (src : String) (heap : List DijkstraPair)
    (map : List (String × DijkstraPair)) (fin : String → Int) : Prop where
  sync : Sync heap map
  heap_ok : IsHeap heap
  sub : ∀ k, mcontains map k = true → g.containsVertex k = true
  src0 : dcost map fin src = 0
  mono : ∀ y z, g.containsVertex y = true → mcontains map y = false →
    mcontains map z = true → fin y ≤ mcost map z
  rel : ∀ x y w, g.containsVertex x = true → mcontains map x = false →
    mfind (g.nbrsOf x) y = some w → g.containsVertex y = true →
    dcost map fin y ≤ fin x + edgeCost nan w
  ach : ∀ y, g.containsVertex y = true → dcost map fin y ≠ INT_MAX →
    ∃ p, Route g nan src y p (dcost map fin y) ∧ p.Nodup ∧
      ∀ v ∈ p, v ≠ y → mcontains map v = false
  done : ∀ y, g.containsVertex y = true → mcontains map y = false → fin y ≠ INT_MAX

/-- The number of vertices that `processed` does not mark. -/
def unproc (g : Graph_M) (processed : List (String × Bool)) : Nat :=
  (g.vtces.map Prod.fst).countP (fun k => !pget processed k)

/-- Every key of an adjacency map is a vertex. -/
def Graph_M.Closed (g : Graph_M) : Prop :=
  ∀ x, ∀ q ∈ g.nbrsOf x, g.containsVertex q.1 = true

/-- What a call of `hasPath` towards `v` that returns `false` has done between the maps
`P` and `P1`: every node it marked has no edge to `v`, and all its neighbours are marked. -/
def Explored (g : Graph_M) (v : String) (P P1 : List (String × Bool)) : Prop :=
  ∀ x, pget P1 x = true → pget P x = false →
    g.containsEdge x v = false ∧ ∀ q ∈ g.nbrsOf x, pget P1 q.1 = true

/-- Connected: every two vertices are joined by a route. -/
def Graph_M.Connected (g : Graph_M) : Prop :=
  ∀ u v, g.containsVertex u = true → g.containsVertex v = true →
    ∃ p c, Route g false u v p c

/-- Acyclic: no edge joins a node to itself, and no route over three or more distinct
nodes ends at a neighbour of its first node. -/
def Graph_M.Acyclic (g : Graph_M) : Prop :=
  g.LoopFree ∧ ∀ u v p c, Route g false u v p c → p.Nodup → 3 ≤ p.length →
    mfind (g.nbrsOf v) u = none

/-- A tree: symmetric adjacency, connected and acyclic. -/
structure Graph_M.IsTree (g : Graph_M) : Prop where
  symmetric : g.Symmetric
  connected : g.Connected
  acyclic : g.Acyclic

/-- A rank test for small acyclic graphs: adjacent nodes have different ranks, and a node
has at most one neighbour of lower rank. -/
def Graph_M.Ranked (g : Graph_M) (d : String → Nat) : Prop :=
  ∀ p ∈ g.vtces, ∀ a ∈ p.2.nbrs, d a.1 ≠ d p.1 ∧
    ∀ b ∈ p.2.nbrs, d a.1 < d p.1 → d b.1 < d p.1 → a.1 = b.1

instance Graph_M.decRanked (g : Graph_M) (d : String → Nat) : Decidable (g.Ranked d) := by
  unfold Graph_M.Ranked; infer_instance

/-- The number of edges between a station of the reference network and
`Rajiv Chowk~BY`. -/
def metroDepth : List (String × Nat) :=
  [("Rajiv Chowk~BY", 0),
   ("Yamuna Bank~B", 1), ("Moti Nagar~B", 1), ("AIIMS~Y", 1), ("New Delhi~YO", 1),
   ("Botanical Garden~B", 2), ("Vaishali~B", 2), ("Janak Puri West~BO", 2),
   ("Rajouri Garden~BP", 2), ("Saket~Y", 2), ("Chandni Chowk~Y", 2),
   ("Shivaji Stadium~O", 2),
   ("Noida Sector 62~B", 3), ("Dwarka Sector 21~B", 3), ("Punjabi Bagh West~P", 3),
   ("Huda City Center~Y", 3), ("Vishwavidyalaya~Y", 3), ("DDS Campus~O", 3),
   ("Netaji Subhash Place~PR", 4), ("IGI Airport~O", 4)]

/-- The rank of a station: its entry in `metroDepth`. -/
def metroRank (x : String) : Nat := (mfind metroDepth x).getD 0

/-- The sum of the edge weights along a sequence of nodes: the weight stored for every
two consecutive nodes (`0` where none is stored). -/
def pathWeight (g : Graph_M) : List String → Int
  | a :: b :: rest => (mfind (g.nbrsOf a) b).getD 0 + pathWeight g (b :: rest)
  | _ => 0

/-! ## Ghost state of the stack searches -/

/-- The string `psf` of a frame that has walked the nodes `p`: every node name followed by
two spaces. -/
def renderPath : List String → String
  | [] => ""
  | v :: p => p.foldl (fun acc x => acc ++ x ++ "  ") (v ++ "  ")

/-- The adjacency entries of the vertices that `processed` does not mark: a bound on the
frames still to be pushed. -/
def undeg (g : Graph_M) (processed : List (String × Bool)) : Nat :=
  ((g.vtces.filter (fun p => !pget processed p.1)).map (fun p => p.2.nbrs.length)).sum

/-- A frame of the stack stands for a route from `src` to its node that repeats no node,
whose nodes are spelled by `psf`, whose cost is the total of the frame, and whose nodes
before the last are marked. -/
def FrameOk (g : Graph_M) (nan : Bool) (src : String) (P : List (String × Bool))
    (f : Pair) : Prop :=
  ∃ p c, Route g nan src f.vname p c ∧ p.Nodup ∧ f.psf = renderPath p ∧ f.total nan = c ∧
    ∀ x ∈ p, x ≠ f.vname → pget P x = true

/-- The variables `ans` and `min`: untouched while `dst` is unmarked, the record of a
route from `src` to `dst` that repeats no node afterwards. -/
def AnsOk (g : Graph_M) (nan : Bool) (src dst : String) (P : List (String × Bool))
    (ans : String) (min : Int) : Prop :=
  (pget P dst = false ∧ ans = "" ∧ min = INT_MAX) ∨
  (pget P dst = true ∧
    ∃ p c, Route g nan src dst p c ∧ p.Nodup ∧ ans = renderPath p ∧ min = c)

/-- The loop invariant of the stack searches. -/
structure SInv (g : Graph_M) (nan : Bool) (src dst : String) (stack : List Pair)
    (P : List (String × Bool)) (ans : String) (min : Int) : Prop where
  frames : ∀ f ∈ stack, FrameOk g nan src P f
  answer : AnsOk g nan src dst P ans min
  complete : ∀ u, pget P u = true → u ≠ dst → ∀ q ∈ g.nbrsOf u,
    pget P q.1 = true ∨ ∃ f ∈ stack, f.vname = q.1
  source : pget P src = true ∨ ∃ f ∈ stack, f.vname = src

/-! ## Instrumented runs

The loops of the queries once more, with a ghost list of the nodes they finalize; erasing
the list gives back the loops above. -/

/-- The loop of `dijkstra` together with the names of the records it extracts from the
heap, in the order of extraction, and with the graph (`vtces[rp.vname]` would insert a
missing key). -/
def dijkstraTrace (H : StlHeap) (des : String) (nan : Bool) :
    Nat → Graph_M → List DijkstraPair → List (String × DijkstraPair) → List String →
    Option (Int × List String × Graph_M)
  | 0, _, _, _, _ => none
  | fuel + 1, g, heap, map, tr =>
    if heap.isEmpty then some (0, tr, g)
    else
      let heap1 := H.pop_heap heap
      match heap1.getLast? with
      | none => none
      | some rp =>
        if rp.vname = des then some (rp.cost, tr ++ [rp.vname], g)
        else
          let g1 := g.touch rp.vname
          let st := relax H nan rp (g1.nbrsOf rp.vname) heap1.dropLast (merase map rp.vname)
          dijkstraTrace H des nan fuel g1 st.1 st.2 (tr ++ [rp.vname])

/-- The method `dijkstra` together with the names it extracts from the heap and the graph
it leaves. -/
def Graph_M.dijkstraRun (H : StlHeap) (g : Graph_M) (src des : String) (nan : Bool) :
    Option (Int × List String × Graph_M) :=
  let st := dijkstraInit src g.vtces [] []
  dijkstraTrace H des nan (st.1.length + 1) g (H.make_heap st.1) st.2 []

/-- The loop of the stack searches together with the nodes it expands (the names it
marks, in order) and the number of frames it pops. -/
def searchTrace (nan : Bool) (dst : String) :
    Nat → List Pair → List (String × Bool) → String → Int → Graph_M → List String → Nat →
    Option (String × Int × Graph_M × List String × Nat)
  | 0, _, _, _, _, _, _, _ => none
  | _ + 1, [], _, ans, min, g, tr, pops => some (ans, min, g, tr, pops)
  | fuel + 1, rp :: stack, processed, ans, min, g, tr, pops =>
    if pget processed rp.vname = true then
      searchTrace nan dst fuel stack processed ans min g tr (pops + 1)
    else
      let processed1 := mset processed rp.vname true
      if rp.vname = dst then
        if rp.total nan < min then
          searchTrace nan dst fuel stack processed1 rp.psf (rp.total nan) g
            (tr ++ [rp.vname]) (pops + 1)
        else searchTrace nan dst fuel stack processed1 ans min g (tr ++ [rp.vname]) (pops + 1)
      else
        let g1 := g.touch rp.vname
        let st := pushNbrs nan rp (g1.nbrsOf rp.vname) stack processed1
        searchTrace nan dst fuel st.1 st.2 ans min g1 (tr ++ [rp.vname]) (pops + 1)

/-- The two stack searches together with the nodes they expand and the number of pops. -/
def Graph_M.stackSearchRun (g : Graph_M) (nan : Bool) (src dst : String) :
    Option (String × Int × Graph_M × List String × Nat) :=
  searchTrace nan dst (g.numEntries + 2) [⟨src, src ++ "  ", 0, 0⟩] [] "" INT_MAX g [] 0

/-- The loop of `hasPath` together with the names on which `hasPath` has been entered. -/
def hasPathLoopT
    (call : Graph_M → String → List (String × Bool) → List String →
      Option (Bool × Graph_M × List (String × Bool) × List String)) :
    List (String × Int) → Graph_M → List (String × Bool) → List String →
    Option (Bool × Graph_M × List (String × Bool) × List String)
  | [], g, processed, tr => some (false, g, processed, tr)
  | (nbr, _) :: rest, g, processed, tr =>
    if pget processed nbr = false then
      match call g nbr (ptouch processed nbr) tr with
      | none => none
      | some (true, g1, processed1, tr1) => some (true, g1, processed1, tr1)
      | some (false, g1, processed1, tr1) => hasPathLoopT call rest g1 processed1 tr1
    else hasPathLoopT call rest g (ptouch processed nbr) tr

/-- The method `hasPath` together with the names on which it has been entered, in the
order of the calls. -/
def hasPathTrace (vname2 : String) :
    Nat → Graph_M → String → List (String × Bool) → List String →
    Option (Bool × Graph_M × List (String × Bool) × List String)
  | 0, _, _, _, _ => none
  | fuel + 1, g, vname1, processed, tr =>
    if g.containsEdge vname1 vname2 then some (true, g, processed, tr ++ [vname1])
    else
      let processed1 := mset processed vname1 true
      let g1 := g.touch vname1
      hasPathLoopT (hasPathTrace vname2 fuel) (g1.nbrsOf vname1) g1 processed1
        (tr ++ [vname1])

/-- The method `hasPath` with its fuel, together with the names entered. -/
def Graph_M.hasPathRun (g : Graph_M) (vname1 vname2 : String)
    (processed : List (String × Bool)) :
    Option (Bool × Graph_M × List (String × Bool) × List String) :=
  hasPathTrace vname2 (g.numVertex + g.numEntries + 2) g vname1 processed []

/-- The adjacency keys that `processed` does not mark, counted with multiplicity: a bound
on the depth of the nested calls of `hasPath`. -/
def unkeys (g : Graph_M) (processed : List (String × Bool)) : Nat :=
  (g.entries.map Prod.snd).countP (fun k => !pget processed k)

end MetroMap

namespace MetroMap

/-! ## Association lists -/

theorem mfind_eq_none_iff {V : Type} (m : List (String × V)) (k : String) :
    mfind m k = none ↔ k ∉ m.map Prod.fst := by
  induction m with
  | nil => simp [mfind]
  | cons a m ih =>
    obtain ⟨k1, v1⟩ := a
    by_cases h : k1 = k
    · simp [mfind, h]
    · simp [mfind, h, ih, Ne.symm h]

theorem mfind_isSome_iff {V : Type} (m : List (String × V)) (k : String) :
    mcontains m k = true ↔ k ∈ m.map Prod.fst := by
  unfold mcontains
  rcases h : mfind m k with _ | v
  · simpa using (mfind_eq_none_iff m k).mp h
  · simp only [Option.isSome_some, true_iff]
    by_contra hc
    rw [(mfind_eq_none_iff m k).mpr hc] at h
    cases h

theorem mem_of_mfind {V : Type} (m : List (String × V)) (k : String) (v : V)
    (h : mfind m k = some v) : (k, v) ∈ m := by
  induction m with
  | nil => simp [mfind] at h
  | cons a m ih =>
    obtain ⟨k1, v1⟩ := a
    by_cases hk : k1 = k
    · simp [mfind, hk] at h
      simp [hk, h]
    · simp [mfind, hk] at h
      exact List.mem_cons_of_mem _ (ih h)

theorem mfind_of_mem {V : Type} (m : List (String × V)) (k : String) (v : V)
    (hn : (m.map Prod.fst).Nodup) (h : (k, v) ∈ m) : mfind m k = some v := by
  induction m with
  | nil => simp at h
  | cons a m ih =>
    obtain ⟨k1, v1⟩ := a
    simp only [List.map_cons, List.nodup_cons] at hn
    rcases List.mem_cons.mp h with h1 | h1
    · cases h1
      simp [mfind]
    · have hne : k1 ≠ k := by
        intro e
        apply hn.1
        rw [e]
        exact List.mem_map_of_mem Prod.fst h1
      simp [mfind, hne, ih hn.2 h1]

theorem mfind_mset_self {V : Type} (m : List (String × V)) (k : String) (v : V) :
    mfind (mset m k v) k = some v := by
  induction m with
  | nil => simp [mset, mfind]
  | cons a m ih =>
    obtain ⟨k1, v1⟩ := a
    by_cases hk : k1 = k
    · simp [mset, mfind, hk]
    · simp [mset, mfind, hk, ih]

theorem mfind_mset_ne {V : Type} (m : List (String × V)) (k k1 : String) (v : V)
    (h : k1 ≠ k) : mfind (mset m k v) k1 = mfind m k1 := by
  induction m with
  | nil => simp [mset, mfind, Ne.symm h]
  | cons a m ih =>
    obtain ⟨k2, v2⟩ := a
    by_cases hk : k2 = k
    · subst hk
      simp [mset, mfind, Ne.symm h]
    · by_cases hk1 : k2 = k1
      · subst hk1
        simp [mset, mfind, hk]
      · simp [mset, mfind, hk, hk1, ih]

theorem keys_mset_of_mem {V : Type} (m : List (String × V)) (k : String) (v : V)
    (h : k ∈ m.map Prod.fst) : (mset m k v).map Prod.fst = m.map Prod.fst := by
  induction m with
  | nil => simp at h
  | cons a m ih =>
    obtain ⟨k1, v1⟩ := a
    by_cases hk : k1 = k
    · simp [mset, hk]
    · have : k ∈ m.map Prod.fst := by
        simpa [Ne.symm hk] using h
      simp [mset, hk, ih this]

theorem keys_mset_of_not_mem {V : Type} (m : List (String × V)) (k : String) (v : V)
    (h : k ∉ m.map Prod.fst) : (mset m k v).map Prod.fst = m.map Prod.fst ++ [k] := by
  induction m with
  | nil => simp [mset]
  | cons a m ih =>
    obtain ⟨k1, v1⟩ := a
    have hk : k1 ≠ k := by
      intro e
      apply h
      simp [e]
    have : k ∉ m.map Prod.fst := by
      intro e
      apply h
      simp [e]
    simp [mset, hk, ih this]

theorem keys_merase {V : Type} (m : List (String × V)) (k : String) :
    (merase m k).map Prod.fst = (m.map Prod.fst).erase k := by
  induction m with
  | nil => simp [merase]
  | cons a m ih =>
    obtain ⟨k1, v1⟩ := a
    by_cases hk : k1 = k
    · simp [merase, hk]
    · simp [merase, hk, ih, List.erase_cons_tail]

theorem mfind_merase_ne {V : Type} (m : List (String × V)) (k k1 : String)
    (h : k1 ≠ k) : mfind (merase m k) k1 = mfind m k1 := by
  induction m with
  | nil => simp [merase, mfind]
  | cons a m ih =>
    obtain ⟨k2, v2⟩ := a
    by_cases hk : k2 = k
    · subst hk
      simp [merase, mfind, Ne.symm h]
    · by_cases hk1 : k2 = k1
      · subst hk1
        simp [merase, mfind, hk]
      · simp [merase, mfind, hk, hk1, ih]

theorem mfind_merase_self {V : Type} (m : List (String × V)) (k : String)
    (hn : (m.map Prod.fst).Nodup) : mfind (merase m k) k = none := by
  rw [mfind_eq_none_iff, keys_merase]
  exact fun h => (List.Nodup.mem_erase_iff hn).mp h |>.1 rfl

/-! ## The heap contract -/

theorem isHeap_head_le (x : DijkstraPair) (xs : List DijkstraPair) (h : IsHeap (x :: xs)) :
    ∀ y ∈ x :: xs, x.cost ≤ y.cost := by
  have key : ∀ (n i : Nat), i ≤ n → ∀ c : DijkstraPair, (x :: xs)[i]? = some c → x.cost ≤ c.cost := by
    intro n
    induction n with
    | zero =>
      intro i hi c hc
      have : i = 0 := by omega
      subst this
      simp at hc
      subst hc
      exact le_refl _
    | succ n ih =>
      intro i hi c hc
      by_cases h0 : i = 0
      · subst h0
        simp at hc
        subst hc
        exact le_refl _
      · have hlen : i < (x :: xs).length := by
          rw [List.getElem?_eq_some] at hc
          exact hc.1
        have hj : (i - 1) / 2 < (x :: xs).length := by omega
        have hp : (x :: xs)[(i - 1) / 2]? = some ((x :: xs)[(i - 1) / 2]) :=
          List.getElem?_eq_getElem hj
        have h1 := ih ((i - 1) / 2) (by omega) _ hp
        have h2 := h i _ c (by omega) hp hc
        simp only [DijkstraPair.lt, decide_eq_false_iff_not, gt_iff_lt, not_lt] at h2
        exact le_trans h1 h2
  intro y hy
  obtain ⟨i, hi, rfl⟩ := List.getElem_of_mem hy
  exact key i i (le_refl _) _ (List.getElem?_eq_getElem hi)

/-- One pass of the `while` loop on a non-empty heap: the record taken from the heap is
its first element, of least cost, and the rest is again a heap. -/
theorem pop_heap_cons (H : StlHeap) (x : DijkstraPair) (xs : List DijkstraPair)
    (h : IsHeap (x :: xs)) :
    ∃ r, (H.pop_heap (x :: xs)).getLast? = some x ∧ (H.pop_heap (x :: xs)).dropLast = r ∧
      r.Perm xs ∧ IsHeap r := by
  obtain ⟨r, h1, h2, h3⟩ := H.pop_heap_spec x xs h
  exact ⟨r, by simp [h1], by simp [h1], h2, h3⟩

theorem heapUpdate_vname (heap : List DijkstraPair) (k psf : String) (nc : Int) :
    (heapUpdate heap k psf nc).map (fun d => d.vname) = heap.map (fun d => d.vname) := by
  induction heap with
  | nil => simp [heapUpdate]
  | cons a heap ih =>
    by_cases h : a.vname = k
    · simp [heapUpdate, h]
    · simp [heapUpdate, h, ih]

theorem heapUpdate_length (heap : List DijkstraPair) (k psf : String) (nc : Int) :
    (heapUpdate heap k psf nc).length = heap.length := by
  have := congrArg List.length (heapUpdate_vname heap k psf nc)
  simpa using this

/-- The records of the updated heap: the one named `k` has the new cost, the others are
unchanged (when names are unique). -/
theorem heapUpdate_mem (heap : List DijkstraPair) (k psf : String) (nc : Int)
    (hn : (heap.map (fun d => d.vname)).Nodup)
    (item : DijkstraPair) (h : item ∈ heapUpdate heap k psf nc) :
    (item.vname = k ∧ item.cost = nc) ∨ (item.vname ≠ k ∧ item ∈ heap) := by
  induction heap with
  | nil => simp [heapUpdate] at h
  | cons a heap ih =>
    simp only [List.map_cons, List.nodup_cons] at hn
    by_cases ha : a.vname = k
    · simp only [heapUpdate, ha, if_true, List.mem_cons] at h
      rcases h with h | h
      · left
        subst h
        exact ⟨rfl, rfl⟩
      · right
        refine ⟨?_, List.mem_cons_of_mem _ h⟩
        intro hi
        apply hn.1
        rw [ha, ← hi]
        exact List.mem_map_of_mem (fun d => d.vname) h
    · simp only [heapUpdate, ha, if_false, List.mem_cons] at h
      rcases h with h | h
      · right
        subst h
        exact ⟨ha, List.mem_cons_self _ _⟩
      · rcases ih hn.2 h with h1 | h1
        · exact Or.inl h1
        · exact Or.inr ⟨h1.1, List.mem_cons_of_mem _ h1.2⟩

/-! ## The relaxation loop -/

theorem mcost_mset_self (map : List (String × DijkstraPair)) (k : String) (dp : DijkstraPair) :
    mcost (mset map k dp) k = dp.cost := by
  simp [mcost, mfind_mset_self]

theorem mcost_mset_ne (map : List (String × DijkstraPair)) (k k1 : String) (dp : DijkstraPair)
    (h : k1 ≠ k) : mcost (mset map k dp) k1 = mcost map k1 := by
  simp [mcost, mfind_mset_ne _ _ _ _ h]

theorem Sync.names_nodup {heap : List DijkstraPair} {map : List (String × DijkstraPair)}
    (h : Sync heap map) : (heap.map (fun d => d.vname)).Nodup :=
  h.perm.nodup_iff.mpr h.nodup

theorem Sync.length_eq {heap : List DijkstraPair} {map : List (String × DijkstraPair)}
    (h : Sync heap map) : heap.length = map.length := by
  have := h.perm.length_eq
  simpa using this

/-- The decrease-key step keeps heap and map in step. -/
theorem Sync.update (H : StlHeap) {heap : List DijkstraPair}
    {map : List (String × DijkstraPair)} (h : Sync heap map) (k psf : String) (nc : Int)
    (gp : DijkstraPair) (hk : mfind map k = some gp) :
    Sync (H.make_heap (heapUpdate heap k psf nc)) (mset map k { gp with psf := psf, cost := nc }) := by
  have hmem : k ∈ map.map Prod.fst := by
    by_contra hc
    rw [(mfind_eq_none_iff map k).mpr hc] at hk
    cases hk
  refine ⟨?_, ?_, ?_⟩
  · rw [keys_mset_of_mem _ _ _ hmem]
    exact h.nodup
  · rw [keys_mset_of_mem _ _ _ hmem]
    refine List.Perm.trans ((H.make_heap_perm _).map _) ?_
    rw [heapUpdate_vname]
    exact h.perm
  · intro item hitem
    have h1 : item ∈ heapUpdate heap k psf nc := (H.make_heap_perm _).mem_iff.mp hitem
    rcases heapUpdate_mem heap k psf nc h.names_nodup item h1 with ⟨e1, e2⟩ | ⟨e1, e2⟩
    · rw [e1, mcost_mset_self, e2]
    · rw [mcost_mset_ne _ _ _ _ e1]
      exact h.cost item e2

/-- What the relaxation loop leaves behind: heap and map stay in step, the heap is a heap
of the same length, the map has the same keys, and the cost of a key is the smaller of its
old cost and of the candidate through the neighbour entry, if there is one. -/
theorem relax_spec (H : StlHeap) (nan : Bool) (rp : DijkstraPair) :
    ∀ (L : List (String × Int)) (heap : List DijkstraPair)
      (map : List (String × DijkstraPair)),
      (L.map Prod.fst).Nodup → Sync heap map → IsHeap heap →
      Sync (relax H nan rp L heap map).1 (relax H nan rp L heap map).2 ∧
      IsHeap (relax H nan rp L heap map).1 ∧
      (relax H nan rp L heap map).2.map Prod.fst = map.map Prod.fst ∧
      (relax H nan rp L heap map).1.length = heap.length ∧
      ∀ k, mcontains map k = true →
        mcost (relax H nan rp L heap map).2 k =
          match mfind L k with
          | some w => min (mcost map k) (newCost nan rp.cost w)
          | none => mcost map k := by
  intro L
  induction L with
  | nil =>
    intro heap map _ hs hh
    simp [relax, mfind, hs, hh]
  | cons a L ih =>
    intro heap map hn hs hh
    obtain ⟨nbr, w⟩ := a
    simp only [List.map_cons, List.nodup_cons] at hn
    have hnone : mfind L nbr = none := (mfind_eq_none_iff L nbr).mpr hn.1
    rcases hf : mfind map nbr with _ | gp
    · -- the neighbour is not in the map
      have e : relax H nan rp ((nbr, w) :: L) heap map = relax H nan rp L heap map := by
        simp [relax, hf]
      rw [e]
      obtain ⟨i1, i2, i3, i4, i5⟩ := ih heap map hn.2 hs hh
      refine ⟨i1, i2, i3, i4, ?_⟩
      intro k hk
      rw [i5 k hk]
      have hne : nbr ≠ k := by
        intro e1
        subst e1
        simp [mcontains, hf] at hk
      simp [mfind, hne]
    · by_cases hlt : newCost nan rp.cost w < gp.cost
      · have e : relax H nan rp ((nbr, w) :: L) heap map =
            relax H nan rp L
              (H.make_heap (heapUpdate heap nbr (rp.psf ++ nbr) (newCost nan rp.cost w)))
              (mset map nbr { gp with psf := rp.psf ++ nbr, cost := newCost nan rp.cost w }) := by
          simp [relax, hf, hlt]
        rw [e]
        have hmem : nbr ∈ map.map Prod.fst := by
          by_contra hc
          rw [(mfind_eq_none_iff map nbr).mpr hc] at hf
          cases hf
        obtain ⟨i1, i2, i3, i4, i5⟩ := ih _ _ hn.2
          (hs.update H nbr (rp.psf ++ nbr) (newCost nan rp.cost w) gp hf) (H.make_heap_isHeap _)
        refine ⟨i1, i2, ?_, ?_, ?_⟩
        · rw [i3, keys_mset_of_mem _ _ _ hmem]
        · rw [i4, (H.make_heap_perm _).length_eq, heapUpdate_length]
        · intro k hk
          have hk1 : mcontains (mset map nbr
              { gp with psf := rp.psf ++ nbr, cost := newCost nan rp.cost w }) k = true := by
            rw [mfind_isSome_iff, keys_mset_of_mem _ _ _ hmem, ← mfind_isSome_iff]
            exact hk
          rw [i5 k hk1]
          by_cases hne : nbr = k
          · subst hne
            have hc : mcost map nbr = gp.cost := by simp [mcost, hf]
            simp only [mfind, if_true, hnone, mcost_mset_self, hc]
            exact (min_eq_right (le_of_lt hlt)).symm
          · simp only [mfind, hne, if_false, mcost_mset_ne _ _ _ _ (Ne.symm hne)]
      · have e : relax H nan rp ((nbr, w) :: L) heap map = relax H nan rp L heap map := by
          simp [relax, hf, hlt]
        rw [e]
        obtain ⟨i1, i2, i3, i4, i5⟩ := ih heap map hn.2 hs hh
        refine ⟨i1, i2, i3, i4, ?_⟩
        intro k hk
        rw [i5 k hk]
        by_cases hne : nbr = k
        · subst hne
          have hc : mcost map nbr = gp.cost := by simp [mcost, hf]
          simp only [mfind, if_true, hnone, hc]
          exact (min_eq_left (not_lt.mp hlt)).symm
        · simp only [mfind, hne, if_false]

/-- Without any assumption on the map: the relaxation loop permutes the names of the heap
and leaves a heap. -/
theorem relax_basic (H : StlHeap) (nan : Bool) (rp : DijkstraPair) :
    ∀ (L : List (String × Int)) (heap : List DijkstraPair)
      (map : List (String × DijkstraPair)), IsHeap heap →
      ((relax H nan rp L heap map).1.map (fun d => d.vname)).Perm
          (heap.map (fun d => d.vname)) ∧
      IsHeap (relax H nan rp L heap map).1 := by
  intro L
  induction L with
  | nil =>
    intro heap map hh
    exact ⟨List.Perm.refl _, hh⟩
  | cons a L ih =>
    intro heap map hh
    obtain ⟨nbr, w⟩ := a
    rcases hf : mfind map nbr with _ | gp
    · have e : relax H nan rp ((nbr, w) :: L) heap map = relax H nan rp L heap map := by
        simp [relax, hf]
      rw [e]
      exact ih heap map hh
    · by_cases hlt : newCost nan rp.cost w < gp.cost
      · have e : relax H nan rp ((nbr, w) :: L) heap map =
            relax H nan rp L
              (H.make_heap (heapUpdate heap nbr (rp.psf ++ nbr) (newCost nan rp.cost w)))
              (mset map nbr { gp with psf := rp.psf ++ nbr, cost := newCost nan rp.cost w }) := by
          simp [relax, hf, hlt]
        rw [e]
        obtain ⟨i1, i2⟩ := ih (H.make_heap (heapUpdate heap nbr (rp.psf ++ nbr)
          (newCost nan rp.cost w))) (mset map nbr
            { gp with psf := rp.psf ++ nbr, cost := newCost nan rp.cost w })
          (H.make_heap_isHeap _)
        refine ⟨?_, i2⟩
        refine i1.trans (((H.make_heap_perm _).map _).trans ?_)
        rw [heapUpdate_vname]
      · have e : relax H nan rp ((nbr, w) :: L) heap map = relax H nan rp L heap map := by
          simp [relax, hf, hlt]
        rw [e]
        exact ih heap map hh

/-! ## The initialisation loop -/

theorem dijkstraInit_heap (src : String) :
    ∀ (L : List (String × Vertex)) (heap : List DijkstraPair)
      (map : List (String × DijkstraPair)),
      (dijkstraInit src L heap map).1 = heap ++ L.map (fun p => initPair src p.1) := by
  intro L
  induction L with
  | nil => intro heap map; simp [dijkstraInit]
  | cons a L ih =>
    intro heap map
    obtain ⟨k, v⟩ := a
    simp [dijkstraInit, ih]

theorem dijkstraInit_map (src : String) :
    ∀ (L : List (String × Vertex)) (heap : List DijkstraPair)
      (map : List (String × DijkstraPair)),
      (L.map Prod.fst).Nodup → (∀ k ∈ L.map Prod.fst, k ∉ map.map Prod.fst) →
      (dijkstraInit src L heap map).2 = map ++ L.map (fun p => (p.1, initPair src p.1)) := by
  intro L
  induction L with
  | nil => intro heap map _ _; simp [dijkstraInit]
  | cons a L ih =>
    intro heap map hn hd
    obtain ⟨k, v⟩ := a
    simp only [List.map_cons, List.nodup_cons] at hn
    have hk : k ∉ map.map Prod.fst := hd k (by simp)
    have hset : mset map k (initPair src k) = map ++ [(k, initPair src k)] := by
      clear ih hd hn
      induction map with
      | nil => simp [mset]
      | cons b map ihm =>
        obtain ⟨k1, v1⟩ := b
        have hne : k1 ≠ k := by
          intro e
          apply hk
          simp [e]
        have hk1 : k ∉ map.map Prod.fst := by
          intro e
          apply hk
          simp [e]
        simp [mset, hne, ihm hk1]
    simp only [dijkstraInit]
    rw [ih _ _ hn.2, hset]
    · simp
    · intro k1 hk1
      rw [hset]
      simp only [List.map_append, List.map_cons, List.map_nil, List.mem_append,
        List.mem_singleton, not_or]
      refine ⟨hd k1 (by simp [hk1]), ?_⟩
      intro e
      subst e
      exact hn.1 hk1

theorem initPair_vname (src k : String) : (initPair src k).vname = k := by
  unfold initPair
  split <;> rfl

theorem initPair_cost (src k : String) :
    (initPair src k).cost = if k = src then 0 else INT_MAX := by
  unfold initPair
  split <;> rfl

/-- The state after the first loop of `dijkstra`: heap and map in step, with cost `0`
for `src` and `INT_MAX` for the other vertices. -/
theorem dijkstraInit_sync (g : Graph_M) (src : String) (hwf : g.WF) :
    Sync (dijkstraInit src g.vtces [] []).1 (dijkstraInit src g.vtces [] []).2 ∧
    (dijkstraInit src g.vtces [] []).2.map Prod.fst = g.vtces.map Prod.fst ∧
    ∀ k, mcontains g.vtces k = true →
      mcost (dijkstraInit src g.vtces [] []).2 k = if k = src then 0 else INT_MAX := by
  have e1 := dijkstraInit_heap src g.vtces [] []
  have e2 := dijkstraInit_map src g.vtces [] [] hwf.1 (by simp)
  simp only [List.nil_append] at e1 e2
  rw [e1, e2]
  have hkeys : (g.vtces.map (fun p => (p.1, initPair src p.1))).map Prod.fst
      = g.vtces.map Prod.fst := by
    simp [List.map_map, Function.comp_def]
  have hcost : ∀ k, k ∈ g.vtces.map Prod.fst →
      mcost (g.vtces.map (fun p => (p.1, initPair src p.1))) k = (initPair src k).cost := by
    intro k hk
    obtain ⟨p, hp, rfl⟩ := List.mem_map.mp hk
    have : mfind (g.vtces.map (fun p => (p.1, initPair src p.1))) p.1
        = some (initPair src p.1) := by
      apply mfind_of_mem
      · rw [hkeys]; exact hwf.1
      · exact List.mem_map.mpr ⟨p, hp, rfl⟩
    simp [mcost, this]
  refine ⟨⟨?_, ?_, ?_⟩, hkeys, ?_⟩
  · rw [hkeys]; exact hwf.1
  · rw [hkeys]
    simp [List.map_map, Function.comp_def, initPair_vname]
  · intro item hitem
    obtain ⟨p, hp, rfl⟩ := List.mem_map.mp hitem
    rw [initPair_vname]
    exact hcost p.1 (List.mem_map_of_mem Prod.fst hp)
  · intro k hk
    rw [hcost k ((mfind_isSome_iff _ _).mp hk), initPair_cost]

/-! ## The main loop -/

/-- One pass of the `while` loop on a non-empty heap. -/
theorem dijkstraLoop_step (H : StlHeap) (g : Graph_M) (des : String) (nan : Bool)
    (fuel : Nat) (x : DijkstraPair) (xs : List DijkstraPair)
    (map : List (String × DijkstraPair)) (hh : IsHeap (x :: xs)) :
    ∃ r, r.Perm xs ∧ IsHeap r ∧
      dijkstraLoop H g des nan (fuel + 1) (x :: xs) map =
        if x.vname = des then some x.cost
        else dijkstraLoop H g des nan fuel
          (relax H nan x (g.nbrsOf x.vname) r (merase map x.vname)).1
          (relax H nan x (g.nbrsOf x.vname) r (merase map x.vname)).2 := by
  obtain ⟨r, h1, h2, h3, h4⟩ := pop_heap_cons H x xs hh
  refine ⟨r, h3, h4, ?_⟩
  simp only [dijkstraLoop, List.isEmpty_cons, Bool.false_eq_true, if_false, h1, h2]

/-- The first record taken from the heap is the one of `src`, with cost `0`. -/
theorem make_heap_init (H : StlHeap) (g : Graph_M) (src : String)
    (hsrc : g.containsVertex src = true) :
    ∃ x xs, H.make_heap (dijkstraInit src g.vtces [] []).1 = x :: xs ∧
      x.vname = src ∧ x.cost = 0 := by
  have e1 := dijkstraInit_heap src g.vtces [] []
  simp only [List.nil_append] at e1
  rw [e1]
  have hmem : initPair src src ∈ g.vtces.map (fun p => initPair src p.1) := by
    have := (mfind_isSome_iff g.vtces src).mp hsrc
    obtain ⟨p, hp, hp1⟩ := List.mem_map.mp this
    exact List.mem_map.mpr ⟨p, hp, by rw [hp1]⟩
  have hmem1 : initPair src src ∈ H.make_heap (g.vtces.map (fun p => initPair src p.1)) :=
    (H.make_heap_perm _).mem_iff.mpr hmem
  rcases hl : H.make_heap (g.vtces.map (fun p => initPair src p.1)) with _ | ⟨x, xs⟩
  · rw [hl] at hmem1
    cases hmem1
  · refine ⟨x, xs, hl, ?_⟩
    have hh : IsHeap (x :: xs) := hl ▸ H.make_heap_isHeap _
    rw [hl] at hmem1
    have hle := isHeap_head_le x xs hh _ hmem1
    have hx : x ∈ g.vtces.map (fun p => initPair src p.1) :=
      (H.make_heap_perm _).mem_iff.mp (hl ▸ List.mem_cons_self x xs)
    obtain ⟨p, _, hpx⟩ := List.mem_map.mp hx
    subst hpx
    rw [initPair_cost, initPair_cost] at hle
    rw [initPair_vname, initPair_cost]
    by_cases hp : p.1 = src
    · simp [hp]
    · simp only [hp, if_false, if_true] at hle
      simp [INT_MAX] at hle

theorem dijkstra_self_eq (H : StlHeap) (g : Graph_M) (n : String) (nan : Bool)
    (hn : g.containsVertex n = true) : g.dijkstra H n n nan = some 0 := by
  obtain ⟨x, xs, h1, h2, h3⟩ := make_heap_init H g n hn
  have hh : IsHeap (x :: xs) := h1 ▸ H.make_heap_isHeap _
  obtain ⟨r, _, _, hstep⟩ := dijkstraLoop_step H g n nan
    (dijkstraInit n g.vtces [] []).1.length x xs (dijkstraInit n g.vtces [] []).2 hh
  unfold Graph_M.dijkstra
  simp only [h1, hstep, h2, if_true, h3]

/-- When no record of the heap is named `des`, the loop empties the heap and `val`
keeps its initial value `0`. -/
theorem dijkstraLoop_absent (H : StlHeap) (g : Graph_M) (des : String) (nan : Bool) :
    ∀ (fuel : Nat) (heap : List DijkstraPair) (map : List (String × DijkstraPair)),
      IsHeap heap → des ∉ heap.map (fun d => d.vname) → heap.length < fuel →
      dijkstraLoop H g des nan fuel heap map = some 0 := by
  intro fuel
  induction fuel with
  | zero => intro heap map _ _ hl; omega
  | succ fuel ih =>
    intro heap map hh hd hl
    rcases heap with _ | ⟨x, xs⟩
    · simp [dijkstraLoop]
    · obtain ⟨r, h1, h2, hstep⟩ := dijkstraLoop_step H g des nan fuel x xs map hh
      rw [hstep]
      have hx : x.vname ≠ des := by
        intro e
        apply hd
        simp [e.symm]
      simp only [hx, if_false]
      obtain ⟨b1, b2⟩ := relax_basic H nan x (g.nbrsOf x.vname) r (merase map x.vname) h2
      apply ih _ _ b2
      · intro hc
        have := b1.mem_iff.mp hc
        have := (h1.map (fun d => d.vname)).mem_iff.mp this
        apply hd
        simp [this]
      · have := b1.length_eq
        simp only [List.length_map] at this
        rw [this, h1.length_eq]
        simpa using hl

theorem dijkstra_absent (H : StlHeap) (g : Graph_M) (src des : String) (nan : Bool)
    (hd : g.containsVertex des = false) : g.dijkstra H src des nan = some 0 := by
  unfold Graph_M.dijkstra
  apply dijkstraLoop_absent
  · exact H.make_heap_isHeap _
  · intro hc
    have h1 := ((H.make_heap_perm _).map (fun d => d.vname)).mem_iff.mp hc
    rw [dijkstraInit_heap] at h1
    simp only [List.nil_append, List.map_map, Function.comp_def, initPair_vname] at h1
    have : g.containsVertex des = true := (mfind_isSome_iff _ _).mpr h1
    rw [hd] at this
    cases this
  · rw [(H.make_heap_perm _).length_eq]
    omega

/-! ## Arithmetic without overflow, routes -/

theorem newCost_eq (nan : Bool) (c w : Int) (hc : 0 ≤ c) (hw : 0 ≤ w)
    (h : c + edgeCost nan w ≤ INT_MAX) : newCost nan c w = c + edgeCost nan w := by
  unfold newCost edgeCost addInt mulInt wrapInt
  unfold edgeCost INT_MAX at h
  cases nan
  · simp only [Bool.false_eq_true, if_false] at h ⊢
    omega
  · simp only [if_true] at h ⊢
    omega

theorem edgeCost_nonneg (nan : Bool) (w : Int) (hw : 0 ≤ w) : 0 ≤ edgeCost nan w := by
  unfold edgeCost
  cases nan
  · simpa using hw
  · simp only [if_true]
    omega

theorem nbrsOf_mem (g : Graph_M) (x : String) (q : String × Int) (h : q ∈ g.nbrsOf x) :
    ∃ vtx, (x, vtx) ∈ g.vtces ∧ q ∈ vtx.nbrs := by
  unfold Graph_M.nbrsOf at h
  rcases hf : mfind g.vtces x with _ | vtx
  · rw [hf] at h
    cases h
  · rw [hf] at h
    exact ⟨vtx, mem_of_mfind _ _ _ hf, h⟩

theorem vertex_of_edge (g : Graph_M) (x y : String) (w : Int)
    (h : mfind (g.nbrsOf x) y = some w) : g.containsVertex x = true := by
  obtain ⟨vtx, h1, _⟩ := nbrsOf_mem g x (y, w) (mem_of_mfind _ _ _ h)
  exact (mfind_isSome_iff _ _).mpr (List.mem_map_of_mem Prod.fst h1)

theorem weight_nonneg (g : Graph_M) (hnn : g.NonNeg) (x y : String) (w : Int)
    (h : mfind (g.nbrsOf x) y = some w) : 0 ≤ w := by
  obtain ⟨vtx, h1, h2⟩ := nbrsOf_mem g x (y, w) (mem_of_mfind _ _ _ h)
  exact hnn (x, vtx) h1 (y, w) h2

theorem nbrsOf_nodup (g : Graph_M) (hwf : g.WF) (x : String) :
    ((g.nbrsOf x).map Prod.fst).Nodup := by
  unfold Graph_M.nbrsOf
  rcases hf : mfind g.vtces x with _ | vtx
  · simp
  · exact hwf.2 (x, vtx) (mem_of_mfind _ _ _ hf)

theorem route_cost_nonneg (g : Graph_M) (hnn : g.NonNeg) (nan : Bool) (src y : String)
    (p : List String) (c : Int) (h : Route g nan src y p c) : 0 ≤ c := by
  induction h with
  | start _ => exact le_refl _
  | step _ he ih =>
    have := edgeCost_nonneg nan _ (weight_nonneg g hnn _ _ _ he)
    omega

theorem route_last_mem (g : Graph_M) (nan : Bool) (src y : String)
    (p : List String) (c : Int) (h : Route g nan src y p c) : y ∈ p := by
  cases h with
  | start _ => simp
  | step _ _ => simp

theorem dcost_of_mem (map : List (String × DijkstraPair)) (fin : String → Int) (k : String)
    (h : mcontains map k = true) : dcost map fin k = mcost map k := by
  simp [dcost, h]

theorem dcost_of_not_mem (map : List (String × DijkstraPair)) (fin : String → Int)
    (k : String) (h : mcontains map k = false) : dcost map fin k = fin k := by
  simp [dcost, h]

/-- Under the loop invariant no route beats the recorded costs: a route to a finished
vertex costs at least its final cost, and a route to an unfinished vertex at least the
cost of some unfinished vertex. -/
theorem DInv.lower {g : Graph_M} {nan : Bool} {src : String} {heap : List DijkstraPair}
    {map : List (String × DijkstraPair)} {fin : String → Int}
    (inv : DInv g nan src heap map fin) (hnn : g.NonNeg)
    (y : String) (p : List String) (c : Int) (h : Route g nan src y p c) :
    g.containsVertex y = true →
    (mcontains map y = false → fin y ≤ c) ∧
    (mcontains map y = true → ∃ z, mcontains map z = true ∧ mcost map z ≤ c) := by
  induction h with
  | start hs =>
    intro _
    have h0 := inv.src0
    constructor
    · intro hm
      rw [dcost_of_not_mem _ _ _ hm] at h0
      omega
    · intro hm
      rw [dcost_of_mem _ _ _ hm] at h0
      exact ⟨src, hm, by omega⟩
  | @step x y p c w hr he ih =>
    intro hy
    have hx := vertex_of_edge g x y w he
    have hec := edgeCost_nonneg nan w (weight_nonneg g hnn _ _ _ he)
    obtain ⟨ih1, ih2⟩ := ih hx
    rcases hxm : mcontains map x with _ | _
    · have hfx := ih1 hxm
      have hrel := inv.rel x y w hx hxm he hy
      constructor
      · intro hm
        rw [dcost_of_not_mem _ _ _ hm] at hrel
        omega
      · intro hm
        rw [dcost_of_mem _ _ _ hm] at hrel
        exact ⟨y, hm, by omega⟩
    · obtain ⟨z, hz, hzc⟩ := ih2 hxm
      constructor
      · intro hm
        have := inv.mono y z hy hm hz
        omega
      · intro _
        exact ⟨z, hz, by omega⟩

/-- Under the loop invariant, as long as a vertex joined to `src` by a route is
unfinished, some unfinished vertex has a cost below `INT_MAX`. -/
theorem DInv.finite {g : Graph_M} {nan : Bool} {src : String} {heap : List DijkstraPair}
    {map : List (String × DijkstraPair)} {fin : String → Int}
    (inv : DInv g nan src heap map fin)
    (hb : ∀ y p c, Route g nan src y p c → p.Nodup → c < INT_MAX)
    (y : String) (p : List String) (c : Int) (h : Route g nan src y p c) :
    g.containsVertex y = true → mcontains map y = true →
    ∃ z, mcontains map z = true ∧ mcost map z < INT_MAX := by
  induction h with
  | start hs =>
    intro _ hm
    have h0 := inv.src0
    rw [dcost_of_mem _ _ _ hm] at h0
    exact ⟨src, hm, by rw [h0]; decide⟩
  | @step x y p c w hr he ih =>
    intro hy hm
    have hx := vertex_of_edge g x y w he
    rcases hxm : mcontains map x with _ | _
    · have hrel := inv.rel x y w hx hxm he hy
      rw [dcost_of_mem _ _ _ hm] at hrel
      have hd := inv.done x hx hxm
      have ha := inv.ach x hx (by rw [dcost_of_not_mem _ _ _ hxm]; exact hd)
      rw [dcost_of_not_mem _ _ _ hxm] at ha
      obtain ⟨px, hpx, hnd, hF⟩ := ha
      have hyp : y ∉ px := by
        intro hin
        by_cases e : y = x
        · rw [e] at hm
          rw [hm] at hxm
          cases hxm
        · have := hF y hin e
          rw [this] at hm
          cases hm
      have hnd1 : (px ++ [y]).Nodup := by
        rw [List.nodup_append]
        refine ⟨hnd, List.nodup_singleton y, ?_⟩
        intro a ha1 ha2
        simp only [List.mem_singleton] at ha2
        subst ha2
        exact hyp ha1
      have := hb y _ _ (Route.step hpx he) hnd1
      exact ⟨y, hm, by omega⟩
    · exact ih hx hxm

theorem mcontains_merase {V : Type} (m : List (String × V)) (u k : String)
    (hn : (m.map Prod.fst).Nodup) :
    mcontains (merase m u) k = true ↔ (mcontains m k = true ∧ k ≠ u) := by
  rw [mfind_isSome_iff, mfind_isSome_iff, keys_merase, List.Nodup.mem_erase_iff hn]
  exact And.comm

theorem mcost_merase_ne (map : List (String × DijkstraPair)) (u k : String) (h : k ≠ u) :
    mcost (merase map u) k = mcost map k := by
  simp [mcost, mfind_merase_ne _ _ _ h]

theorem mcontains_congr {V W : Type} (m : List (String × V)) (m1 : List (String × W))
    (h : m1.map Prod.fst = m.map Prod.fst) (k : String) : mcontains m1 k = mcontains m k := by
  rw [Bool.eq_iff_iff, mfind_isSome_iff, mfind_isSome_iff, h]

/-- Taking the first record off the heap and erasing its name from the map keeps heap
and map in step. -/
theorem Sync.pop {x : DijkstraPair} {xs r : List DijkstraPair}
    {map : List (String × DijkstraPair)} (h : Sync (x :: xs) map) (hr : r.Perm xs) :
    Sync r (merase map x.vname) := by
  have hnd := h.names_nodup
  simp only [List.map_cons, List.nodup_cons] at hnd
  refine ⟨?_, ?_, ?_⟩
  · rw [keys_merase]
    exact h.nodup.erase _
  · rw [keys_merase]
    have h1 := h.perm.erase x.vname
    simp only [List.map_cons, List.erase_cons_head] at h1
    exact (hr.map _).trans h1
  · intro item hitem
    have hi : item ∈ xs := hr.mem_iff.mp hitem
    have hne : item.vname ≠ x.vname := by
      intro e
      apply hnd.1
      rw [← e]
      exact List.mem_map_of_mem (fun d => d.vname) hi
    rw [mcost_merase_ne _ _ _ hne]
    exact h.cost item (List.mem_cons_of_mem _ hi)

/-- The first record of the heap has the least cost of the map. -/
theorem Sync.head_min {x : DijkstraPair} {xs : List DijkstraPair}
    {map : List (String × DijkstraPair)} (h : Sync (x :: xs) map) (hh : IsHeap (x :: xs))
    (z : String) (hz : mcontains map z = true) : x.cost ≤ mcost map z := by
  have h1 : z ∈ (x :: xs).map (fun d => d.vname) :=
    h.perm.mem_iff.mpr ((mfind_isSome_iff _ _).mp hz)
  obtain ⟨item, hi, rfl⟩ := List.mem_map.mp h1
  rw [h.cost item hi]
  exact isHeap_head_le x xs hh item hi

theorem Sync.head_mem {x : DijkstraPair} {xs : List DijkstraPair}
    {map : List (String × DijkstraPair)} (h : Sync (x :: xs) map) :
    mcontains map x.vname = true :=
  (mfind_isSome_iff _ _).mpr (h.perm.mem_iff.mp (by simp))

/-- The loop invariant survives a pass of the `while` loop that takes a record other than
the one of `des` off the heap. -/
theorem DInv.step (H : StlHeap) {g : Graph_M} {nan : Bool} {src des : String}
    {x : DijkstraPair} {xs r : List DijkstraPair}
    {map : List (String × DijkstraPair)} {fin : String → Int}
    (inv : DInv g nan src (x :: xs) map fin) (hwf : g.WF) (hnn : g.NonNeg)
    (hb : ∀ y p c, Route g nan src y p c → p.Nodup → c < INT_MAX)
    (hreach : ∃ p c, Route g nan src des p c)
    (hdes : mcontains map des = true) (hx : x.vname ≠ des)
    (hr : r.Perm xs) (hrh : IsHeap r) :
    DInv g nan src
      (relax H nan x (g.nbrsOf x.vname) r (merase map x.vname)).1
      (relax H nan x (g.nbrsOf x.vname) r (merase map x.vname)).2
      (Function.update fin x.vname x.cost) ∧
    mcontains (relax H nan x (g.nbrsOf x.vname) r (merase map x.vname)).2 des = true ∧
    (relax H nan x (g.nbrsOf x.vname) r (merase map x.vname)).1.length = xs.length := by
  have hxcost : mcost map x.vname = x.cost := inv.sync.cost x (List.mem_cons_self _ _)
  have hum : mcontains map x.vname = true := inv.sync.head_mem
  have hmin : ∀ z, mcontains map z = true → x.cost ≤ mcost map z :=
    fun z hz => inv.sync.head_min inv.heap_ok z hz
  have hdv : g.containsVertex des = true := inv.sub des hdes
  obtain ⟨pd, cd, hrd⟩ := hreach
  obtain ⟨z0, hz0, hz0c⟩ := inv.finite hb des pd cd hrd hdv hdes
  have hcu_lt : x.cost < INT_MAX := lt_of_le_of_lt (hmin z0 hz0) hz0c
  have huv : g.containsVertex x.vname = true := inv.sub _ hum
  have hdu : dcost map fin x.vname = x.cost := by rw [dcost_of_mem _ _ _ hum, hxcost]
  obtain ⟨pu, hpu, hndu, hFu⟩ := inv.ach x.vname huv (by rw [hdu]; omega)
  rw [hdu] at hpu
  have hcu0 : 0 ≤ x.cost := route_cost_nonneg g hnn nan src _ _ _ hpu
  have hk1 := mcontains_merase map x.vname
  have hs1 : Sync r (merase map x.vname) := inv.sync.pop hr
  obtain ⟨i1, i2, i3, i4, i5⟩ := relax_spec H nan x (g.nbrsOf x.vname) r (merase map x.vname)
    (nbrsOf_nodup g hwf _) hs1 hrh
  generalize relax H nan x (g.nbrsOf x.vname) r (merase map x.vname) = st at i1 i2 i3 i4 i5 ⊢
  have hk2 : ∀ k, mcontains st.2 k = true ↔ (mcontains map k = true ∧ k ≠ x.vname) := by
    intro k
    rw [mcontains_congr _ _ i3 k]
    exact hk1 k inv.sync.nodup
  have hk2f : ∀ k, k ≠ x.vname → mcontains st.2 k = false → mcontains map k = false := by
    intro k hk hf
    rcases hm : mcontains map k with _ | _
    · rfl
    · rw [(hk2 k).mpr ⟨hm, hk⟩] at hf
      cases hf
  have hu2 : mcontains st.2 x.vname = false := by
    rcases hm : mcontains st.2 x.vname with _ | _
    · rfl
    · exact absurd rfl ((hk2 _).mp hm).2
  -- the candidate through an edge out of the popped vertex
  have hnc : ∀ k w, mcontains st.2 k = true → mfind (g.nbrsOf x.vname) k = some w →
      newCost nan x.cost w = x.cost + edgeCost nan w ∧
      Route g nan src k (pu ++ [k]) (x.cost + edgeCost nan w) ∧ (pu ++ [k]).Nodup := by
    intro k w hk hw
    have hkk := (hk2 k).mp hk
    have hkp : k ∉ pu := by
      intro hin
      have := hFu k hin hkk.2
      rw [this] at hkk
      exact absurd hkk.1 (by simp)
    have hnd1 : (pu ++ [k]).Nodup := by
      rw [List.nodup_append]
      refine ⟨hndu, List.nodup_singleton k, ?_⟩
      intro a ha1 ha2
      simp only [List.mem_singleton] at ha2
      subst ha2
      exact hkp ha1
    have hroute : Route g nan src k (pu ++ [k]) (x.cost + edgeCost nan w) := Route.step hpu hw
    have hlt := hb k _ _ hroute hnd1
    exact ⟨newCost_eq nan _ _ hcu0 (weight_nonneg g hnn _ _ _ hw) (le_of_lt hlt), hroute, hnd1⟩
  have hcost2 : ∀ k, mcontains st.2 k = true →
      (mcost st.2 k = mcost map k ∨
        ∃ w, mfind (g.nbrsOf x.vname) k = some w ∧ mcost st.2 k = x.cost + edgeCost nan w ∧
          x.cost + edgeCost nan w < mcost map k) ∧
      (∀ w, mfind (g.nbrsOf x.vname) k = some w → mcost st.2 k ≤ x.cost + edgeCost nan w) ∧
      mcost st.2 k ≤ mcost map k := by
    intro k hk
    have hkk := (hk2 k).mp hk
    have h5 := i5 k ((hk1 k inv.sync.nodup).mpr hkk)
    rw [mcost_merase_ne _ _ _ hkk.2] at h5
    rcases hw : mfind (g.nbrsOf x.vname) k with _ | w
    · rw [hw] at h5
      simp only at h5
      refine ⟨Or.inl h5, ?_, le_of_eq h5⟩
      intro w hw1
      cases hw1
    · rw [hw] at h5
      simp only at h5
      rw [(hnc k w hk hw).1] at h5
      refine ⟨?_, ?_, ?_⟩
      · by_cases hlt : x.cost + edgeCost nan w < mcost map k
        · right
          exact ⟨w, rfl, by rw [h5, min_eq_right (le_of_lt hlt)], hlt⟩
        · left
          rw [h5, min_eq_left (not_lt.mp hlt)]
      · intro w1 hw1
        cases hw1
        rw [h5]
        exact min_le_right _ _
      · rw [h5]
        exact min_le_left _ _
  have hfin_u : Function.update fin x.vname x.cost x.vname = x.cost := Function.update_same _ _ _
  have hfin_ne : ∀ k, k ≠ x.vname → Function.update fin x.vname x.cost k = fin k :=
    fun k hk => Function.update_noteq hk _ _
  have hD_le : ∀ y, dcost st.2 (Function.update fin x.vname x.cost) y ≤ dcost map fin y := by
    intro y
    rcases hy : mcontains st.2 y with _ | _
    · rw [dcost_of_not_mem _ _ _ hy]
      by_cases e : y = x.vname
      · rw [e, hfin_u, hdu]
      · rw [hfin_ne y e, dcost_of_not_mem _ _ _ (hk2f y e hy)]
    · rw [dcost_of_mem _ _ _ hy, dcost_of_mem _ _ _ ((hk2 y).mp hy).1]
      exact (hcost2 y hy).2.2
  refine ⟨⟨i1, i2, ?_, ?_, ?_, ?_, ?_, ?_⟩, (hk2 des).mpr ⟨hdes, Ne.symm hx⟩, ?_⟩
  · -- sub
    intro k hk
    exact inv.sub k ((hk2 k).mp hk).1
  · -- src0
    have h0 := inv.src0
    have hle := hD_le src
    rw [h0] at hle
    rcases hs : mcontains st.2 src with _ | _
    · rw [dcost_of_not_mem _ _ _ hs]
      by_cases e : src = x.vname
      · rw [e, hfin_u, ← hdu, ← e, h0]
      · rw [hfin_ne src e, ← dcost_of_not_mem map fin src (hk2f src e hs), h0]
    · rw [dcost_of_mem _ _ _ hs] at hle ⊢
      have hs0 : mcost map src = 0 := by
        rw [← dcost_of_mem map fin src ((hk2 src).mp hs).1, h0]
      rcases (hcost2 src hs).1 with h1 | ⟨w, hw, h1, _⟩
      · rw [h1, hs0]
      · have := edgeCost_nonneg nan w (weight_nonneg g hnn _ _ _ hw)
        omega
  · -- mono
    intro y z hy hym hzm
    have hz := (hk2 z).mp hzm
    have hbase : Function.update fin x.vname x.cost y ≤ x.cost := by
      by_cases e : y = x.vname
      · rw [e, hfin_u]
      · rw [hfin_ne y e, ← hxcost]
        exact inv.mono y x.vname hy (hk2f y e hym) hum
    rcases (hcost2 z hzm).1 with h1 | ⟨w, hw, h1, _⟩
    · rw [h1]
      exact le_trans hbase (hmin z hz.1)
    · rw [h1]
      have := edgeCost_nonneg nan w (weight_nonneg g hnn _ _ _ hw)
      omega
  · -- rel
    intro x1 y w hx1 hx1m he hy
    by_cases e : x1 = x.vname
    · rw [e, hfin_u]
      rw [e] at he
      rcases hym : mcontains st.2 y with _ | _
      · rw [dcost_of_not_mem _ _ _ hym]
        have := edgeCost_nonneg nan w (weight_nonneg g hnn _ _ _ he)
        by_cases e1 : y = x.vname
        · rw [e1, hfin_u]
          omega
        · rw [hfin_ne y e1]
          have := inv.mono y x.vname hy (hk2f y e1 hym) hum
          rw [hxcost] at this
          omega
      · rw [dcost_of_mem _ _ _ hym]
        exact (hcost2 y hym).2.1 w he
    · rw [hfin_ne x1 e]
      exact le_trans (hD_le y) (inv.rel x1 y w hx1 (hk2f x1 e hx1m) he hy)
  · -- ach
    intro y hy hyc
    have hold : ∀ p : List String, (∀ v ∈ p, v ≠ y → mcontains map v = false) →
        ∀ v ∈ p, v ≠ y → mcontains st.2 v = false := by
      intro p hp v hv hvy
      rcases hm : mcontains st.2 v with _ | _
      · rfl
      · have h1 := ((hk2 v).mp hm).1
        rw [hp v hv hvy] at h1
        cases h1
    rcases hym : mcontains st.2 y with _ | _
    · have hDy : dcost st.2 (Function.update fin x.vname x.cost) y = dcost map fin y := by
        rw [dcost_of_not_mem _ _ _ hym]
        by_cases e : y = x.vname
        · rw [e, hfin_u, hdu]
        · rw [hfin_ne y e, dcost_of_not_mem _ _ _ (hk2f y e hym)]
      rw [hDy] at hyc ⊢
      obtain ⟨p, hp1, hp2, hp3⟩ := inv.ach y hy hyc
      exact ⟨p, hp1, hp2, hold p hp3⟩
    · rw [dcost_of_mem _ _ _ hym] at hyc ⊢
      rcases (hcost2 y hym).1 with h1 | ⟨w, hw, h1, _⟩
      · rw [h1] at hyc ⊢
        have hyc1 : dcost map fin y ≠ INT_MAX := by
          rw [dcost_of_mem _ _ _ ((hk2 y).mp hym).1]
          exact hyc
        obtain ⟨p, hp1, hp2, hp3⟩ := inv.ach y hy hyc1
        rw [dcost_of_mem _ _ _ ((hk2 y).mp hym).1] at hp1
        exact ⟨p, hp1, hp2, hold p hp3⟩
      · rw [h1]
        obtain ⟨_, hroute, hnd⟩ := hnc y w hym hw
        refine ⟨pu ++ [y], hroute, hnd, ?_⟩
        intro v hv hvy
        rcases List.mem_append.mp hv with hv1 | hv1
        · by_cases e : v = x.vname
          · rw [e]
            exact hu2
          · rcases hm : mcontains st.2 v with _ | _
            · rfl
            · have h1 := ((hk2 v).mp hm).1
              rw [hFu v hv1 e] at h1
              cases h1
        · simp only [List.mem_singleton] at hv1
          exact absurd hv1 hvy
  · -- done
    intro y hy hym
    by_cases e : y = x.vname
    · rw [e, hfin_u]
      omega
    · rw [hfin_ne y e]
      exact inv.done y hy (hk2f y e hym)
  · rw [i4, hr.length_eq]

/-! ## Correctness of `dijkstra` -/

/-- From a state that satisfies the loop invariant and still has `des` on the heap, the
loop returns, and what it returns is the least cost of a route from `src` to `des`. -/
theorem dijkstraLoop_correct (H : StlHeap) (g : Graph_M) (nan : Bool) (src des : String)
    (hwf : g.WF) (hnn : g.NonNeg)
    (hb : ∀ y p c, Route g nan src y p c → p.Nodup → c < INT_MAX)
    (hreach : ∃ p c, Route g nan src des p c) :
    ∀ (fuel : Nat) (heap : List DijkstraPair) (map : List (String × DijkstraPair))
      (fin : String → Int), DInv g nan src heap map fin → mcontains map des = true →
      heap.length < fuel →
      ∃ c, dijkstraLoop H g des nan fuel heap map = some c ∧ IsMinCost g nan src des c := by
  intro fuel
  induction fuel with
  | zero => intro heap map fin _ _ hl; omega
  | succ fuel ih =>
    intro heap map fin inv hdes hl
    rcases heap with _ | ⟨x, xs⟩
    · have h1 := inv.sync.perm
      have h2 := (mfind_isSome_iff _ _).mp hdes
      simp only [List.map_nil] at h1
      rw [← h1.mem_iff] at h2
      cases h2
    · obtain ⟨r, hr, hrh, hstep⟩ := dijkstraLoop_step H g des nan fuel x xs map inv.heap_ok
      rw [hstep]
      by_cases hx : x.vname = des
      · simp only [hx, if_true]
        refine ⟨x.cost, rfl, ?_⟩
        have hxcost : mcost map des = x.cost := hx ▸ inv.sync.cost x (List.mem_cons_self _ _)
        have hdv : g.containsVertex des = true := inv.sub des hdes
        have hmin : ∀ z, mcontains map z = true → x.cost ≤ mcost map z :=
          fun z hz => inv.sync.head_min inv.heap_ok z hz
        obtain ⟨pd, cd, hrd⟩ := hreach
        obtain ⟨z0, hz0, hz0c⟩ := inv.finite hb des pd cd hrd hdv hdes
        have hlt : x.cost < INT_MAX := lt_of_le_of_lt (hmin z0 hz0) hz0c
        have hdc : dcost map fin des = x.cost := by rw [dcost_of_mem _ _ _ hdes, hxcost]
        obtain ⟨p, hp1, hp2, _⟩ := inv.ach des hdv (by rw [hdc]; omega)
        rw [hdc] at hp1
        refine ⟨⟨p, hp1, hp2⟩, ?_⟩
        intro p1 c1 hr1
        obtain ⟨z, hz, hzc⟩ := (inv.lower hnn des p1 c1 hr1 hdv).2 hdes
        exact le_trans (hmin z hz) hzc
      · simp only [hx, if_false]
        obtain ⟨j1, j2, j3⟩ := DInv.step H inv hwf hnn hb hreach hdes hx hr hrh
        exact ih _ _ _ j1 j2 (by rw [j3]; simpa using hl)

/-- The loop invariant holds when the `while` loop is entered. -/
theorem dijkstraInit_inv (H : StlHeap) (g : Graph_M) (nan : Bool) (src : String)
    (hwf : g.WF) (hsrc : g.containsVertex src = true) :
    DInv g nan src (H.make_heap (dijkstraInit src g.vtces [] []).1)
      (dijkstraInit src g.vtces [] []).2 (fun _ => 0) := by
  obtain ⟨hs, hkeys, hcost⟩ := dijkstraInit_sync g src hwf
  have hall : ∀ k, g.containsVertex k = true →
      mcontains (dijkstraInit src g.vtces [] []).2 k = true := by
    intro k hk
    rw [mcontains_congr _ _ hkeys k]
    exact hk
  have hno : ∀ k, g.containsVertex k = true →
      mcontains (dijkstraInit src g.vtces [] []).2 k = false → False := by
    intro k hk hf
    rw [hall k hk] at hf
    cases hf
  refine ⟨⟨hs.nodup, ((H.make_heap_perm _).map _).trans hs.perm, ?_⟩, H.make_heap_isHeap _,
    ?_, ?_, ?_, ?_, ?_, ?_⟩
  · intro item hitem
    exact hs.cost item ((H.make_heap_perm _).mem_iff.mp hitem)
  · intro k hk
    rw [mcontains_congr _ _ hkeys k] at hk
    exact hk
  · rw [dcost_of_mem _ _ _ (hall src hsrc), hcost src hsrc]
    simp
  · intro y z hy hym _
    exact (hno y hy hym).elim
  · intro x y w hx hxm _ _
    exact (hno x hx hxm).elim
  · intro y hy hyc
    rw [dcost_of_mem _ _ _ (hall y hy), hcost y hy] at hyc ⊢
    by_cases e : y = src
    · subst e
      simp only [if_true]
      exact ⟨[y], Route.start hy, List.nodup_singleton y, by
        intro v hv hvy
        simp only [List.mem_singleton] at hv
        exact absurd hv hvy⟩
    · simp [e] at hyc
  · intro y hy hym
    exact (hno y hy hym).elim

theorem route_src_vertex (g : Graph_M) (nan : Bool) (src y : String) (p : List String)
    (c : Int) (h : Route g nan src y p c) : g.containsVertex src = true := by
  induction h with
  | start hs => exact hs
  | step _ _ ih => exact ih

/-- The call `dijkstra(src, des, nan)` returns the least cost of a route from `src` to
`des`, whenever there is one and no cost overflows. -/
theorem dijkstra_correct (H : StlHeap) (g : Graph_M) (nan : Bool) (src des : String)
    (hwf : g.WF) (hnn : g.NonNeg)
    (hb : ∀ y p c, Route g nan src y p c → p.Nodup → c < INT_MAX)
    (hreach : ∃ p c, Route g nan src des p c) (hdes : g.containsVertex des = true) :
    ∃ c, g.dijkstra H src des nan = some c ∧ IsMinCost g nan src des c := by
  obtain ⟨p, c, hr⟩ := hreach
  have hsrc := route_src_vertex g nan src des p c hr
  unfold Graph_M.dijkstra
  apply dijkstraLoop_correct H g nan src des hwf hnn hb ⟨p, c, hr⟩ _ _ _ (fun _ => 0)
    (dijkstraInit_inv H g nan src hwf hsrc)
  · rw [mcontains_congr _ _ (dijkstraInit_sync g src hwf).2.1 des]
    exact hdes
  · rw [(H.make_heap_perm _).length_eq]
    omega

/-! ## A sufficient bound for the path costs -/

theorem nbrsOf_of_mem (g : Graph_M) (hwf : g.WF) (p : String × Vertex) (hp : p ∈ g.vtces) :
    g.nbrsOf p.1 = p.2.nbrs := by
  unfold Graph_M.nbrsOf
  rw [mfind_of_mem g.vtces p.1 p.2 hwf.1 hp]

theorem totalCost_eq (g : Graph_M) (hwf : g.WF) (nan : Bool) :
    g.totalCost nan = ((g.vtces.map Prod.fst).map
      (fun x => ((g.nbrsOf x).map (fun q => edgeCost nan q.2)).sum)).sum := by
  unfold Graph_M.totalCost
  rw [List.map_map]
  congr 1
  apply List.map_congr_left
  intro p hp
  simp only [Function.comp_apply]
  rw [nbrsOf_of_mem g hwf p hp]

theorem rowsum_nonneg (g : Graph_M) (hnn : g.NonNeg) (nan : Bool) (x : String) :
    0 ≤ ((g.nbrsOf x).map (fun q => edgeCost nan q.2)).sum := by
  apply List.sum_nonneg
  intro a ha
  obtain ⟨q, hq, rfl⟩ := List.mem_map.mp ha
  obtain ⟨vtx, h1, h2⟩ := nbrsOf_mem g x q hq
  exact edgeCost_nonneg nan _ (hnn (x, vtx) h1 q h2)

/-- The cost of a route is at most the sum of the costs of the adjacency entries of the
nodes it leaves. -/
theorem route_cost_le (g : Graph_M) (hnn : g.NonNeg) (nan : Bool) (s y : String)
    (p : List String) (c : Int) (h : Route g nan s y p c) :
    ∃ q, p = q ++ [y] ∧ (∀ v ∈ q, g.containsVertex v = true) ∧
      c ≤ (q.map (fun x => ((g.nbrsOf x).map (fun q => edgeCost nan q.2)).sum)).sum := by
  induction h with
  | start _ => exact ⟨[], by simp, by simp, by simp⟩
  | @step x y p c w hr he ih =>
    obtain ⟨q, hq, hv, hc⟩ := ih
    refine ⟨p, rfl, ?_, ?_⟩
    · intro v hv1
      rw [hq] at hv1
      rcases List.mem_append.mp hv1 with h1 | h1
      · exact hv v h1
      · simp only [List.mem_singleton] at h1
        rw [h1]
        exact vertex_of_edge g x y w he
    · rw [hq]
      simp only [List.map_append, List.map_cons, List.map_nil, List.sum_append,
        List.sum_cons, List.sum_nil, add_zero]
      have h1 : edgeCost nan w ≤ ((g.nbrsOf x).map (fun q => edgeCost nan q.2)).sum := by
        apply List.single_le_sum
        · intro a ha
          obtain ⟨q1, hq1, rfl⟩ := List.mem_map.mp ha
          obtain ⟨vtx, h1, h2⟩ := nbrsOf_mem g x q1 hq1
          exact edgeCost_nonneg nan _ (hnn (x, vtx) h1 q1 h2)
        · exact List.mem_map.mpr ⟨(y, w), mem_of_mfind _ _ _ he, rfl⟩
      omega

/-- When the costs of all adjacency entries sum to less than `INT_MAX`, all path costs are
below `INT_MAX`. -/
theorem costsBelowMax_of_total (g : Graph_M) (hwf : g.WF) (hnn : g.NonNeg) (nan : Bool)
    (h : g.totalCost nan < INT_MAX) : g.CostsBelowMax nan := by
  intro s y p c hr hnd
  obtain ⟨q, hq, hv, hc⟩ := route_cost_le g hnn nan s y p c hr
  have hqn : q.Nodup := by
    rw [hq] at hnd
    exact (List.nodup_append.mp hnd).1
  have hsub : q ⊆ g.vtces.map Prod.fst := fun v hv1 => (mfind_isSome_iff _ _).mp (hv v hv1)
  obtain ⟨l, hl1, hl2⟩ := List.subperm_of_subset hqn hsub
  have h1 := (hl1.map (fun x => ((g.nbrsOf x).map (fun q => edgeCost nan q.2)).sum)).sum_eq
  have h2 := (hl2.map (fun x => ((g.nbrsOf x).map (fun q => edgeCost nan q.2)).sum)).sum_le_sum
    (by
      intro a ha
      obtain ⟨x, _, rfl⟩ := List.mem_map.mp ha
      exact rowsum_nonneg g hnn nan x)
  rw [← totalCost_eq g hwf nan] at h2
  omega

/-- A route in one mode is a route in the other mode (with another cost). -/
theorem Route.mode {g : Graph_M} {nan : Bool} {src y : String} {p : List String} {c : Int}
    (h : Route g nan src y p c) (nan1 : Bool) : ∃ c1, Route g nan1 src y p c1 := by
  induction h with
  | start hs => exact ⟨0, Route.start hs⟩
  | step _ he ih =>
    obtain ⟨c1, h1⟩ := ih
    exact ⟨_, Route.step h1 he⟩

/-! ## `hasPath` -/

theorem pget_mset_self (P : List (String × Bool)) (u : String) :
    pget (mset P u true) u = true := by
  simp [pget, mfind_mset_self]

theorem pget_mset_ne (P : List (String × Bool)) (u k : String) (b : Bool) (h : k ≠ u) :
    pget (mset P u b) k = pget P k := by
  simp [pget, mfind_mset_ne _ _ _ _ h]

theorem pget_ptouch (P : List (String × Bool)) (n k : String) :
    pget (ptouch P n) k = pget P k := by
  unfold ptouch
  by_cases h : mcontains P n = true
  · simp [h]
  · simp only [h, if_false]
    by_cases e : k = n
    · subst e
      have hn : mfind P k = none := by
        rcases hf : mfind P k with _ | b
        · rfl
        · simp [mcontains, hf] at h
      simp [pget, mfind_mset_self, hn]
    · exact pget_mset_ne P n k false e

theorem containsEdge_iff (g : Graph_M) (x y : String) :
    g.containsEdge x y = true ↔
      g.containsVertex x = true ∧ g.containsVertex y = true ∧
        mcontains (g.nbrsOf x) y = true := by
  unfold Graph_M.containsEdge Graph_M.containsVertex
  rcases mcontains g.vtces x with _ | _ <;> rcases mcontains g.vtces y with _ | _ <;> simp

theorem touch_of_vertex (g : Graph_M) (u : String) (h : g.containsVertex u = true) :
    g.touch u = g := by
  unfold Graph_M.touch
  unfold Graph_M.containsVertex at h
  simp [h]

theorem countP_lt_of_imp (l : List String) (p q : String → Bool) (u : String)
    (himp : ∀ k, q k = true → p k = true) (hu : u ∈ l) (hp : p u = true) (hq : q u = false) :
    l.countP q < l.countP p := by
  induction l with
  | nil => cases hu
  | cons a l ih =>
    have hle : l.countP q ≤ l.countP p :=
      List.countP_mono_left (fun x _ hx => himp x hx)
    by_cases e : a = u
    · subst e
      simp only [List.countP_cons, hp, hq, if_true]
      simp only [Bool.false_eq_true, if_false, add_zero]
      omega
    · have hu1 : u ∈ l := by
        rcases List.mem_cons.mp hu with h | h
        · exact absurd h.symm e
        · exact h
      have := ih hu1
      simp only [List.countP_cons]
      rcases hqa : q a with _ | _
      · simp only [Bool.false_eq_true, if_false, add_zero]
        omega
      · simp only [himp a hqa, if_true]
        omega

theorem unproc_le (g : Graph_M) (P P1 : List (String × Bool))
    (h : ∀ k, pget P k = true → pget P1 k = true) : unproc g P1 ≤ unproc g P := by
  unfold unproc
  apply List.countP_mono_left
  intro x _ hx
  rcases hp : pget P x with _ | _
  · rfl
  · rw [h x hp] at hx
    exact hx

theorem unproc_lt (g : Graph_M) (P : List (String × Bool)) (u : String)
    (hu : g.containsVertex u = true) (hp : pget P u = false) :
    unproc g (mset P u true) < unproc g P := by
  unfold unproc
  apply countP_lt_of_imp _ _ _ u
  · intro k hk
    by_cases e : k = u
    · subst e
      simp [hp]
    · rw [pget_mset_ne P u k true e] at hk
      exact hk
  · exact (mfind_isSome_iff _ _).mp hu
  · simp [hp]
  · simp [pget_mset_self]

/-- The specification of a call of `hasPath` on a vertex: it returns, leaves the graph as
it is, only adds marks; the answer `true` is backed by a path, and the answer `false`
comes with a fully explored set of marked nodes. -/
theorem hasPathAux_spec (g : Graph_M) (hcl : g.Closed) (v : String) :
    ∀ (fuel : Nat) (u : String) (P : List (String × Bool)),
      g.containsVertex u = true → pget P u = false → unproc g P < fuel →
      ∃ b P1, hasPathAux v fuel g u P = some (b, g, P1) ∧
        (∀ k, pget P k = true → pget P1 k = true) ∧
        (b = true → g.Reach u v) ∧
        (b = false → pget P1 u = true ∧ Explored g v P P1) := by
  intro fuel
  induction fuel with
  | zero => intro u P _ _ hl; omega
  | succ fuel ih =>
    intro u P hu hpu hl
    by_cases he : g.containsEdge u v = true
    · refine ⟨true, P, by simp [hasPathAux, he], fun k hk => hk, ?_, ?_⟩
      · intro _
        exact Relation.TransGen.single he
      · intro h
        cases h
    · have hlt := unproc_lt g P u hu hpu
      have hPle : ∀ k, pget P k = true → pget (mset P u true) k = true := by
        intro k hk
        by_cases e : k = u
        · rw [e]; exact pget_mset_self P u
        · rw [pget_mset_ne P u k true e]; exact hk
      -- the loop over the neighbours
      have hloop : ∀ (rest : List (String × Int)) (Q : List (String × Bool)),
          (∀ q ∈ rest, q ∈ g.nbrsOf u) → unproc g Q < fuel →
          ∃ b Q1, hasPathLoop (hasPathAux v fuel) rest g Q = some (b, g, Q1) ∧
            (∀ k, pget Q k = true → pget Q1 k = true) ∧
            (b = true → g.Reach u v) ∧
            (b = false → (∀ q ∈ rest, pget Q1 q.1 = true) ∧ Explored g v Q Q1) := by
        intro rest
        induction rest with
        | nil =>
          intro Q _ _
          refine ⟨false, Q, rfl, fun k hk => hk, fun h => Bool.noConfusion h, ?_⟩
          intro _
          refine ⟨by simp, ?_⟩
          intro x hx1 hx2
          rw [hx1] at hx2
          cases hx2
        | cons a rest ihr =>
          intro Q hsub hQ
          obtain ⟨n, w⟩ := a
          have hn_mem : (n, w) ∈ g.nbrsOf u := hsub (n, w) (List.mem_cons_self _ _)
          have hnv : g.containsVertex n = true := hcl u (n, w) hn_mem
          have hadj : g.Adj u n := by
            unfold Graph_M.Adj
            rw [containsEdge_iff]
            exact ⟨hu, hnv, (mfind_isSome_iff _ _).mpr
              (List.mem_map_of_mem Prod.fst hn_mem)⟩
          have hsub1 : ∀ q ∈ rest, q ∈ g.nbrsOf u :=
            fun q hq => hsub q (List.mem_cons_of_mem _ hq)
          have htouch : ∀ k, pget (ptouch Q n) k = pget Q k := pget_ptouch Q n
          have hut : unproc g (ptouch Q n) = unproc g Q := by
            unfold unproc
            congr 1
            funext k
            rw [htouch]
          rcases hpn : pget Q n with _ | _
          · -- the neighbour is not marked: recursive call
            obtain ⟨b, Q1, hc1, hc2, hc3, hc4⟩ := ih n (ptouch Q n) hnv
              (by rw [htouch]; exact hpn) (by rw [hut]; exact hQ)
            have hQ1 : ∀ k, pget Q k = true → pget Q1 k = true :=
              fun k hk => hc2 k (by rw [htouch]; exact hk)
            rcases b with _ | _
            · have hle := unproc_le g Q Q1 hQ1
              obtain ⟨b2, Q2, hd1, hd2, hd3, hd4⟩ := ihr Q1 hsub1 (by omega)
              refine ⟨b2, Q2, by simp [hasPathLoop, hpn, hc1, hd1],
                fun k hk => hd2 k (hQ1 k hk), hd3, ?_⟩
              intro hb2
              obtain ⟨hd5, hd6⟩ := hd4 hb2
              obtain ⟨hc5, hc6⟩ := hc4 rfl
              refine ⟨?_, ?_⟩
              · intro q hq
                rcases List.mem_cons.mp hq with h | h
                · rw [h]
                  exact hd2 n hc5
                · exact hd5 q h
              · intro x hx1 hx2
                rcases hx3 : pget Q1 x with _ | _
                · exact hd6 x hx1 hx3
                · obtain ⟨e1, e2⟩ := hc6 x hx3 (by rw [htouch]; exact hx2)
                  exact ⟨e1, fun q hq => hd2 _ (e2 q hq)⟩
            · refine ⟨true, Q1, by simp [hasPathLoop, hpn, hc1], hQ1, ?_, ?_⟩
              · intro _
                exact Relation.TransGen.head hadj (hc3 rfl)
              · intro h
                cases h
          · -- the neighbour is marked already
            obtain ⟨b2, Q2, hd1, hd2, hd3, hd4⟩ := ihr (ptouch Q n) hsub1
              (by rw [hut]; exact hQ)
            refine ⟨b2, Q2, by simp [hasPathLoop, hpn, hd1],
              fun k hk => hd2 k (by rw [htouch]; exact hk), hd3, ?_⟩
            intro hb2
            obtain ⟨hd5, hd6⟩ := hd4 hb2
            refine ⟨?_, ?_⟩
            · intro q hq
              rcases List.mem_cons.mp hq with h | h
              · rw [h]
                exact hd2 n (by rw [htouch]; exact hpn)
              · exact hd5 q h
            · intro x hx1 hx2
              exact hd6 x hx1 (by rw [htouch]; exact hx2)
      obtain ⟨b, Q1, hl1, hl2, hl3, hl4⟩ := hloop (g.nbrsOf u) (mset P u true)
        (fun q hq => hq) (by omega)
      refine ⟨b, Q1, ?_, fun k hk => hl2 k (hPle k hk), hl3, ?_⟩
      · simp only [hasPathAux, he, Bool.false_eq_true, if_false, touch_of_vertex g u hu]
        exact hl1
      · intro hb
        obtain ⟨hl5, hl6⟩ := hl4 hb
        have hu1 : pget Q1 u = true := hl2 u (pget_mset_self P u)
        refine ⟨hu1, ?_⟩
        intro x hx1 hx2
        by_cases e : x = u
        · subst e
          refine ⟨by simpa using he, hl5⟩
        · exact hl6 x hx1 (by rw [pget_mset_ne P u x true e]; exact hx2)

theorem closed_of_symmetric (g : Graph_M) (hsym : g.Symmetric) : g.Closed := by
  intro x q hq
  obtain ⟨vtx, h1, h2⟩ := nbrsOf_mem g x q hq
  exact vertex_of_edge g q.1 x q.2 (hsym (x, vtx) h1 q h2)

theorem unproc_nil_le (g : Graph_M) : unproc g [] ≤ g.numVertex := by
  unfold unproc Graph_M.numVertex
  have := List.countP_le_length (fun k => !pget [] k) (l := g.vtces.map Prod.fst)
  simpa using this

/-- A set of marked nodes that is fully explored towards `v` contains no node from which
`v` can be reached. -/
theorem explored_not_reach (g : Graph_M) (v : String) (P1 : List (String × Bool))
    (hex : Explored g v [] P1) (x : String) (hx : pget P1 x = true) : ¬ g.Reach x v := by
  intro hr
  have key : pget P1 x = true → False := by
    refine Relation.TransGen.head_induction_on
      (P := fun a _ => pget P1 a = true → False) hr ?_ ?_
    · intro a hab ha
      have := (hex a ha rfl).1
      unfold Graph_M.Adj at hab
      rw [hab] at this
      cases this
    · intro a c hac _ ih ha
      apply ih
      have hc := ((containsEdge_iff g a c).mp hac).2.2
      obtain ⟨q, hq, hq1⟩ := List.mem_map.mp ((mfind_isSome_iff _ _).mp hc)
      rw [← hq1]
      exact (hex a ha rfl).2 q hq
  exact key hx

theorem nbrsOf_touch_new (g : Graph_M) (u : String) (h : g.containsVertex u = false) :
    (g.touch u).nbrsOf u = [] := by
  unfold Graph_M.touch
  unfold Graph_M.containsVertex at h
  simp [h, Graph_M.nbrsOf, mfind_mset_self]

/-- The call `hasPath(u, v, processed)` on an empty `processed` map returns; it answers
`true` exactly when `v` can be reached from `u` by one or more edges, and at once (with
graph and map untouched) when `u` and `v` are adjacent. -/
theorem hasPath_spec (g : Graph_M) (hcl : g.Closed) (u v : String) :
    ∃ b g1 P1, g.hasPath u v [] = some (b, g1, P1) ∧ (b = true ↔ g.Reach u v) ∧
      (g.containsEdge u v = true → g.hasPath u v [] = some (true, g, [])) := by
  have hadj : g.containsEdge u v = true → g.hasPath u v [] = some (true, g, []) := by
    intro he
    simp [Graph_M.hasPath, hasPathAux, he]
  rcases hu : g.containsVertex u with _ | _
  · have hne : g.containsEdge u v = false := by
      rcases he : g.containsEdge u v with _ | _
      · rfl
      · rw [((containsEdge_iff g u v).mp he).1] at hu
        cases hu
    refine ⟨false, g.touch u, mset [] u true, ?_, ?_, hadj⟩
    · simp [Graph_M.hasPath, hasPathAux, hne, nbrsOf_touch_new g u hu, hasPathLoop]
    · constructor
      · intro h
        cases h
      · intro hr
        exfalso
        have : ∃ y, g.Adj u y := by
          refine Relation.TransGen.head_induction_on
            (P := fun a _ => ∃ y, g.Adj a y) hr ?_ ?_
          · intro a hab
            exact ⟨v, hab⟩
          · intro a c hac _ _
            exact ⟨c, hac⟩
        obtain ⟨y, hy⟩ := this
        rw [((containsEdge_iff g u y).mp hy).1] at hu
        cases hu
  · obtain ⟨b, P1, h1, _, h3, h4⟩ := hasPathAux_spec g hcl v
      (g.numVertex + g.numEntries + 2) u [] hu rfl (by have := unproc_nil_le g; omega)
    refine ⟨b, g, P1, h1, ?_, hadj⟩
    constructor
    · exact h3
    · intro hr
      rcases b with _ | _
      · obtain ⟨h5, h6⟩ := h4 rfl
        exact absurd hr (explored_not_reach g v P1 h6 u h5)
      · rfl

/-- A path of one or more edges is a route. -/
theorem route_of_reach (g : Graph_M) (nan : Bool) (u v : String) (h : g.Reach u v) :
    ∃ p c, Route g nan u v p c := by
  have hstep : ∀ x y, g.Adj x y → ∃ w, mfind (g.nbrsOf x) y = some w := by
    intro x y hxy
    have hc := ((containsEdge_iff g x y).mp hxy).2.2
    rcases hf : mfind (g.nbrsOf x) y with _ | w
    · simp [mcontains, hf] at hc
    · exact ⟨w, rfl⟩
  induction h with
  | single hab =>
    obtain ⟨w, hw⟩ := hstep _ _ hab
    exact ⟨_, _, Route.step (Route.start ((containsEdge_iff g _ _).mp hab).1) hw⟩
  | tail _ hbc ih =>
    obtain ⟨p, c, hr⟩ := ih
    obtain ⟨w, hw⟩ := hstep _ _ hbc
    exact ⟨_, _, Route.step hr hw⟩

/-! ## Costs never grow -/

/-- One pass of the `while` loop on a non-empty heap, with the heap it continues on. -/
theorem dijkstraLoop_cons (H : StlHeap) (g : Graph_M) (des : String) (nan : Bool)
    (fuel : Nat) (x : DijkstraPair) (xs : List DijkstraPair)
    (map : List (String × DijkstraPair)) (hh : IsHeap (x :: xs)) :
    dijkstraLoop H g des nan (fuel + 1) (x :: xs) map =
      if x.vname = des then some x.cost
      else dijkstraLoop H g des nan fuel
        (relax H nan x (g.nbrsOf x.vname) (H.pop_heap (x :: xs)).dropLast
          (merase map x.vname)).1
        (relax H nan x (g.nbrsOf x.vname) (H.pop_heap (x :: xs)).dropLast
          (merase map x.vname)).2 := by
  obtain ⟨r, h1, h2, h3, h4⟩ := pop_heap_cons H x xs hh
  simp only [dijkstraLoop, List.isEmpty_cons, Bool.false_eq_true, if_false, h1]

theorem pop_heap_rest (H : StlHeap) (x : DijkstraPair) (xs : List DijkstraPair)
    (hh : IsHeap (x :: xs)) :
    ((H.pop_heap (x :: xs)).dropLast).Perm xs ∧ IsHeap (H.pop_heap (x :: xs)).dropLast := by
  obtain ⟨r, _, h2, h3, h4⟩ := pop_heap_cons H x xs hh
  rw [h2]
  exact ⟨h3, h4⟩

/-- From any state in which heap and map are in step and `des` is still on the heap, the
loop returns a cost that is at most the one recorded for `des`. -/
theorem dijkstraLoop_le (H : StlHeap) (g : Graph_M) (des : String) (nan : Bool)
    (hwf : g.WF) :
    ∀ (fuel : Nat) (heap : List DijkstraPair) (map : List (String × DijkstraPair)),
      Sync heap map → IsHeap heap → mcontains map des = true → heap.length < fuel →
      ∃ c, dijkstraLoop H g des nan fuel heap map = some c ∧ c ≤ mcost map des := by
  intro fuel
  induction fuel with
  | zero => intro heap map _ _ _ hl; omega
  | succ fuel ih =>
    intro heap map hs hh hdes hl
    rcases heap with _ | ⟨x, xs⟩
    · have h1 := hs.perm
      have h2 := (mfind_isSome_iff _ _).mp hdes
      simp only [List.map_nil] at h1
      rw [← h1.mem_iff] at h2
      cases h2
    · rw [dijkstraLoop_cons H g des nan fuel x xs map hh]
      obtain ⟨hr, hrh⟩ := pop_heap_rest H x xs hh
      by_cases hx : x.vname = des
      · simp only [hx, if_true]
        exact ⟨x.cost, rfl, le_of_eq (hx ▸ (hs.cost x (List.mem_cons_self _ _)).symm)⟩
      · simp only [hx, if_false]
        have hs1 : Sync _ (merase map x.vname) := hs.pop hr
        have hd1 : mcontains (merase map x.vname) des = true :=
          (mcontains_merase map x.vname des hs.nodup).mpr ⟨hdes, Ne.symm hx⟩
        obtain ⟨i1, i2, i3, i4, i5⟩ := relax_spec H nan x (g.nbrsOf x.vname) _
          (merase map x.vname) (nbrsOf_nodup g hwf _) hs1 hrh
        obtain ⟨c, hc1, hc2⟩ := ih _ _ i1 i2
          (by rw [mcontains_congr _ _ i3 des]; exact hd1)
          (by rw [i4, hr.length_eq]; simpa using hl)
        refine ⟨c, hc1, le_trans hc2 ?_⟩
        rw [i5 des hd1, mcost_merase_ne _ _ _ (Ne.symm hx)]
        split
        · exact min_le_left _ _
        · exact le_refl _

/-- When `des` is in no adjacency map, its record keeps its cost until it leaves the
heap. -/
theorem dijkstraLoop_isolated (H : StlHeap) (g : Graph_M) (des : String) (nan : Bool)
    (hwf : g.WF) (hiso : ∀ x, mfind (g.nbrsOf x) des = none) :
    ∀ (fuel : Nat) (heap : List DijkstraPair) (map : List (String × DijkstraPair)),
      Sync heap map → IsHeap heap → mcontains map des = true → heap.length < fuel →
      dijkstraLoop H g des nan fuel heap map = some (mcost map des) := by
  intro fuel
  induction fuel with
  | zero => intro heap map _ _ _ hl; omega
  | succ fuel ih =>
    intro heap map hs hh hdes hl
    rcases heap with _ | ⟨x, xs⟩
    · have h1 := hs.perm
      have h2 := (mfind_isSome_iff _ _).mp hdes
      simp only [List.map_nil] at h1
      rw [← h1.mem_iff] at h2
      cases h2
    · rw [dijkstraLoop_cons H g des nan fuel x xs map hh]
      obtain ⟨hr, hrh⟩ := pop_heap_rest H x xs hh
      by_cases hx : x.vname = des
      · simp only [hx, if_true]
        rw [← hs.cost x (List.mem_cons_self _ _), hx]
      · simp only [hx, if_false]
        have hs1 : Sync _ (merase map x.vname) := hs.pop hr
        have hd1 : mcontains (merase map x.vname) des = true :=
          (mcontains_merase map x.vname des hs.nodup).mpr ⟨hdes, Ne.symm hx⟩
        obtain ⟨i1, i2, i3, i4, i5⟩ := relax_spec H nan x (g.nbrsOf x.vname) _
          (merase map x.vname) (nbrsOf_nodup g hwf _) hs1 hrh
        rw [ih _ _ i1 i2 (by rw [mcontains_congr _ _ i3 des]; exact hd1)
          (by rw [i4, hr.length_eq]; simpa using hl)]
        rw [i5 des hd1, mcost_merase_ne _ _ _ (Ne.symm hx), hiso x.vname]

theorem dijkstra_isolated (H : StlHeap) (g : Graph_M) (src des : String) (nan : Bool)
    (hwf : g.WF) (hiso : ∀ x, mfind (g.nbrsOf x) des = none)
    (hdes : g.containsVertex des = true) (hne : des ≠ src) :
    g.dijkstra H src des nan = some INT_MAX := by
  obtain ⟨hs, hkeys, hcost⟩ := dijkstraInit_sync g src hwf
  unfold Graph_M.dijkstra
  rw [dijkstraLoop_isolated H g des nan hwf hiso]
  · rw [hcost des hdes]
    simp [hne]
  · exact ⟨hs.nodup, ((H.make_heap_perm _).map _).trans hs.perm,
      fun item hitem => hs.cost item ((H.make_heap_perm _).mem_iff.mp hitem)⟩
  · exact H.make_heap_isHeap _
  · rw [mcontains_congr _ _ hkeys des]
    exact hdes
  · rw [(H.make_heap_perm _).length_eq]
    omega

/-- When the first record of the heap is not the one of `des` and has an adjacency entry
of weight `w` for `des`, the loop returns at most the candidate cost through that entry. -/
theorem dijkstraLoop_via (H : StlHeap) (g : Graph_M) (des : String) (nan : Bool) (hwf : g.WF)
    (fuel : Nat) (a : DijkstraPair) (rest : List DijkstraPair)
    (map : List (String × DijkstraPair)) (w : Int)
    (hs : Sync (a :: rest) map) (hh : IsHeap (a :: rest)) (ha : a.vname ≠ des)
    (hdes : mcontains map des = true) (hw : mfind (g.nbrsOf a.vname) des = some w)
    (hl : rest.length < fuel) :
    ∃ c, dijkstraLoop H g des nan (fuel + 1) (a :: rest) map = some c ∧
      c ≤ newCost nan a.cost w := by
  rw [dijkstraLoop_cons H g des nan fuel a rest map hh]
  obtain ⟨hr, hrh⟩ := pop_heap_rest H a rest hh
  simp only [ha, if_false]
  have hs1 : Sync _ (merase map a.vname) := hs.pop hr
  have hd1 : mcontains (merase map a.vname) des = true :=
    (mcontains_merase map a.vname des hs.nodup).mpr ⟨hdes, Ne.symm ha⟩
  obtain ⟨i1, i2, i3, i4, i5⟩ := relax_spec H nan a (g.nbrsOf a.vname) _
    (merase map a.vname) (nbrsOf_nodup g hwf _) hs1 hrh
  obtain ⟨c, hc1, hc2⟩ := dijkstraLoop_le H g des nan hwf fuel _ _ i1 i2
    (by rw [mcontains_congr _ _ i3 des]; exact hd1)
    (by rw [i4, hr.length_eq]; exact hl)
  refine ⟨c, hc1, le_trans hc2 ?_⟩
  rw [i5 des hd1, hw]
  exact min_le_right _ _

/-- The state in which `dijkstra` enters its loop: heap and map in step, the heap a
heap whose first record is the one of `src`. -/
theorem dijkstra_start (H : StlHeap) (g : Graph_M) (src : String) (hwf : g.WF)
    (hsrc : g.containsVertex src = true) :
    ∃ x xs, H.make_heap (dijkstraInit src g.vtces [] []).1 = x :: xs ∧
      x.vname = src ∧ x.cost = 0 ∧ IsHeap (x :: xs) ∧
      Sync (x :: xs) (dijkstraInit src g.vtces [] []).2 ∧
      xs.length + 1 = (dijkstraInit src g.vtces [] []).1.length := by
  obtain ⟨x, xs, h1, h2, h3⟩ := make_heap_init H g src hsrc
  obtain ⟨hs, _, _⟩ := dijkstraInit_sync g src hwf
  refine ⟨x, xs, h1, h2, h3, h1 ▸ H.make_heap_isHeap _, ?_, ?_⟩
  · rw [← h1]
    exact ⟨hs.nodup, ((H.make_heap_perm _).map _).trans hs.perm,
      fun item hitem => hs.cost item ((H.make_heap_perm _).mem_iff.mp hitem)⟩
  · have := (H.make_heap_perm (dijkstraInit src g.vtces [] []).1).length_eq
    rw [h1] at this
    simpa using this

/-- An adjacency entry of weight `w` from `src` to `des` bounds the result by the
candidate cost `0 + w` (computed in `int`). -/
theorem dijkstra_le_edge (H : StlHeap) (g : Graph_M) (src des : String) (nan : Bool)
    (w : Int) (hwf : g.WF) (hdes : g.containsVertex des = true) (hne : src ≠ des)
    (hw : mfind (g.nbrsOf src) des = some w) :
    ∃ c, g.dijkstra H src des nan = some c ∧ c ≤ newCost nan 0 w := by
  have hsrc := vertex_of_edge g src des w hw
  obtain ⟨x, xs, h1, h2, h3, h4, h5, h6⟩ := dijkstra_start H g src hwf hsrc
  unfold Graph_M.dijkstra
  simp only [h1, ← h6]
  have := dijkstraLoop_via H g des nan hwf (xs.length + 1) x xs _ w h5 h4
    (by rw [h2]; exact hne)
    (by rw [mcontains_congr _ _ (dijkstraInit_sync g src hwf).2.1 des]; exact hdes)
    (by rw [h2]; exact hw) (by omega)
  rw [h3] at this
  exact this

/-! ## The overflow on an unreachable destination -/

theorem nil_of_mfind_none {V : Type} (l : List (String × V))
    (h : ∀ k, mfind l k = none) : l = [] := by
  rcases l with _ | ⟨a, l⟩
  · rfl
  · have := h a.1
    simp [mfind] at this

theorem sameMap_refl (g : Graph_M) : g.SameMap g :=
  ⟨fun _ => rfl, fun _ _ => rfl⟩

/-- On every graph that holds the map of `isolatedGraph`, from the isolated vertex `S`:
whichever of `X` and `Y` the heap yields second gets a cost computed as `INT_MAX + 1`
(or `INT_MAX + 120 + 40`), which overflows. -/
theorem isolated_overflow (H : StlHeap) (g : Graph_M) (hwf : g.WF)
    (hsame : isolatedGraph.SameMap g) (nan : Bool) :
    ∃ des, (des = "X" ∨ des = "Y") ∧
      ∃ c, g.dijkstra H "S" des nan = some c ∧ c ≤ newCost nan INT_MAX 1 := by
  have hvert : ∀ k, g.containsVertex k = true → k = "S" ∨ k = "X" ∨ k = "Y" := by
    intro k hk
    rw [← hsame.1] at hk
    have h7 : isolatedGraph.vtces.map Prod.fst = ["S", "X", "Y"] := by decide
    have := (mfind_isSome_iff _ _).mp hk
    rw [h7] at this
    simpa using this
  have hS : g.containsVertex "S" = true := by rw [← hsame.1]; decide
  have hX : g.containsVertex "X" = true := by rw [← hsame.1]; decide
  have hY : g.containsVertex "Y" = true := by rw [← hsame.1]; decide
  have hXY : mfind (g.nbrsOf "X") "Y" = some 1 := by rw [← hsame.2]; decide
  have hYX : mfind (g.nbrsOf "Y") "X" = some 1 := by rw [← hsame.2]; decide
  have hnb : g.nbrsOf "S" = [] := by
    apply nil_of_mfind_none
    intro k
    rw [← hsame.2]
    have h2 : isolatedGraph.nbrsOf "S" = [] := by decide
    rw [h2]
    rfl
  obtain ⟨x, xs, h1, h2, h3, h4, h5, h6⟩ := dijkstra_start H g "S" hwf hS
  obtain ⟨hs0, hkeys, hcost⟩ := dijkstraInit_sync g "S" hwf
  obtain ⟨hr, hrh⟩ := pop_heap_rest H x xs h4
  have hs1 := h5.pop hr
  rw [h2] at hs1
  have hmem : ∀ k, g.containsVertex k = true → k ≠ "S" →
      mcontains (merase (dijkstraInit "S" g.vtces [] []).2 "S") k = true := by
    intro k hk hne
    rw [mcontains_merase _ _ _ hs0.nodup, mcontains_congr _ _ hkeys k]
    exact ⟨hk, hne⟩
  have hstep : ∀ des, des ≠ "S" → g.dijkstra H "S" des nan =
      dijkstraLoop H g des nan (xs.length + 1) (H.pop_heap (x :: xs)).dropLast
        (merase (dijkstraInit "S" g.vtces [] []).2 "S") := by
    intro des hdes
    unfold Graph_M.dijkstra
    simp only [h1, ← h6]
    rw [dijkstraLoop_cons H g des nan (xs.length + 1) x xs _ h4]
    simp only [h2, Ne.symm hdes, if_false, hnb, relax]
  rcases hrr : (H.pop_heap (x :: xs)).dropLast with _ | ⟨a, rest⟩
  · rw [hrr] at hs1
    have h7 := (mfind_isSome_iff _ _).mp (hmem "X" hX (by decide))
    rw [← hs1.perm.mem_iff] at h7
    cases h7
  · rw [hrr] at hs1 hr hrh
    have hrest : rest.length < xs.length := by
      have := hr.length_eq
      simp at this
      omega
    have ham : mcontains (merase (dijkstraInit "S" g.vtces [] []).2 "S") a.vname = true :=
      (mfind_isSome_iff _ _).mpr (hs1.perm.mem_iff.mp (by simp))
    obtain ⟨ha1, hne⟩ := (mcontains_merase _ _ _ hs0.nodup).mp ham
    rw [mcontains_congr _ _ hkeys a.vname] at ha1
    have hac : a.cost = INT_MAX := by
      rw [← hs1.cost a (List.mem_cons_self _ _), mcost_merase_ne _ _ _ hne,
        hcost a.vname ha1]
      simp [hne]
    rcases hvert a.vname ha1 with ha | ha | ha
    · exact absurd ha hne
    · refine ⟨"Y", Or.inr rfl, ?_⟩
      rw [hstep "Y" (by decide), hrr, ← hac]
      exact dijkstraLoop_via H g "Y" nan hwf xs.length a rest _ 1 hs1 hrh
        (by rw [ha]; decide) (hmem "Y" hY (by decide)) (by rw [ha]; exact hXY) hrest
    · refine ⟨"X", Or.inl rfl, ?_⟩
      rw [hstep "X" (by decide), hrr, ← hac]
      exact dijkstraLoop_via H g "X" nan hwf xs.length a rest _ 1 hs1 hrh
        (by rw [ha]; decide) (hmem "X" hX (by decide)) (by rw [ha]; exact hYX) hrest

/-! ## Reversing a route -/

theorem route_cast {g : Graph_M} {nan : Bool} {s y : String} {p p1 : List String} {c c1 : Int}
    (h : Route g nan s y p c) (hp : p = p1) (hc : c = c1) : Route g nan s y p1 c1 := by
  subst hp
  subst hc
  exact h

/-- A route can be extended at its start. -/
theorem route_cons (g : Graph_M) (nan : Bool) (x s y : String) (p : List String) (c w : Int)
    (he : mfind (g.nbrsOf x) s = some w) (h : Route g nan s y p c) :
    Route g nan x y (x :: p) (edgeCost nan w + c) := by
  induction h with
  | start _ =>
    exact route_cast (Route.step (Route.start (vertex_of_edge g x s w he)) he)
      (by simp) (by ring)
  | step _ he1 ih =>
    exact route_cast (Route.step ih he1) (by simp) (by ring)

theorem edge_symm (g : Graph_M) (hsym : g.Symmetric) (x y : String) (w : Int)
    (h : mfind (g.nbrsOf x) y = some w) : mfind (g.nbrsOf y) x = some w := by
  obtain ⟨vtx, h1, h2⟩ := nbrsOf_mem g x (y, w) (mem_of_mfind _ _ _ h)
  exact hsym (x, vtx) h1 (y, w) h2

theorem route_dst_vertex (g : Graph_M) (hsym : g.Symmetric) (nan : Bool) (s y : String)
    (p : List String) (c : Int) (h : Route g nan s y p c) : g.containsVertex y = true := by
  cases h with
  | start hs => exact hs
  | step _ he => exact vertex_of_edge g y _ _ (edge_symm g hsym _ _ _ he)

/-- In a graph with symmetric adjacency the reverse of a route is a route of the same
cost. -/
theorem route_reverse (g : Graph_M) (hsym : g.Symmetric) (nan : Bool) (a b : String)
    (p : List String) (c : Int) (h : Route g nan a b p c) :
    Route g nan b a p.reverse c := by
  induction h with
  | start hs => exact Route.start hs
  | step _ he ih =>
    exact route_cast (route_cons g nan _ _ _ _ _ _ (edge_symm g hsym _ _ _ he) ih)
      (by simp) (by ring)

/-- With symmetric adjacency the least cost from `a` to `b` is the least cost from `b` to
`a`. -/
theorem isMinCost_symm (g : Graph_M) (hsym : g.Symmetric) (nan : Bool) (a b : String)
    (c1 c2 : Int) (h1 : IsMinCost g nan a b c1) (h2 : IsMinCost g nan b a c2) : c1 = c2 := by
  obtain ⟨⟨p1, hp1, _⟩, hm1⟩ := h1
  obtain ⟨⟨p2, hp2, _⟩, hm2⟩ := h2
  have e1 := hm1 _ _ (route_reverse g hsym nan b a p2 c2 hp2)
  have e2 := hm2 _ _ (route_reverse g hsym nan a b p1 c1 hp1)
  omega

theorem isMinCost_unique (g : Graph_M) (nan : Bool) (a b : String)
    (c1 c2 : Int) (h1 : IsMinCost g nan a b c1) (h2 : IsMinCost g nan a b c2) : c1 = c2 := by
  obtain ⟨⟨p1, hp1, _⟩, hm1⟩ := h1
  obtain ⟨⟨p2, hp2, _⟩, hm2⟩ := h2
  have e1 := hm1 _ _ hp2
  have e2 := hm2 _ _ hp1
  omega

/-! ## `addEdge` -/

theorem nodup_keys_mset {V : Type} (m : List (String × V)) (k : String) (v : V)
    (h : (m.map Prod.fst).Nodup) : ((mset m k v).map Prod.fst).Nodup := by
  by_cases hk : k ∈ m.map Prod.fst
  · rw [keys_mset_of_mem _ _ _ hk]
    exact h
  · rw [keys_mset_of_not_mem _ _ _ hk, List.nodup_append]
    refine ⟨h, List.nodup_singleton k, ?_⟩
    intro a ha1 ha2
    simp only [List.mem_singleton] at ha2
    subst ha2
    exact hk ha1

theorem mem_mset {V : Type} (m : List (String × V)) (k : String) (v : V) (p : String × V)
    (h : p ∈ mset m k v) : p = (k, v) ∨ p ∈ m := by
  induction m with
  | nil =>
    simp only [mset, List.mem_singleton] at h
    exact Or.inl h
  | cons a m ih =>
    obtain ⟨k1, v1⟩ := a
    by_cases hk : k1 = k
    · simp only [mset, hk, if_true, List.mem_cons] at h
      rcases h with h | h
      · exact Or.inl h
      · exact Or.inr (List.mem_cons_of_mem _ h)
    · simp only [mset, hk, if_false, List.mem_cons] at h
      rcases h with h | h
      · exact Or.inr (by rw [h]; exact List.mem_cons_self _ _)
      · rcases ih h with h1 | h1
        · exact Or.inl h1
        · exact Or.inr (List.mem_cons_of_mem _ h1)

/-- Replacing the adjacency map of a vertex by a map with unique keys keeps the graph
well formed. -/
theorem wf_mset (g : Graph_M) (hwf : g.WF) (k : String) (nbrs : List (String × Int))
    (h : (nbrs.map Prod.fst).Nodup) : Graph_M.WF ⟨mset g.vtces k ⟨nbrs⟩⟩ := by
  refine ⟨nodup_keys_mset _ _ _ hwf.1, ?_⟩
  intro p hp
  rcases mem_mset _ _ _ _ hp with h1 | h1
  · rw [h1]
    exact h
  · exact hwf.2 p h1

theorem nbrsOf_mset_self (vt : List (String × Vertex)) (k : String) (vtx : Vertex) :
    Graph_M.nbrsOf ⟨mset vt k vtx⟩ k = vtx.nbrs := by
  simp [Graph_M.nbrsOf, mfind_mset_self]

theorem nbrsOf_mset_ne (vt : List (String × Vertex)) (k k1 : String) (vtx : Vertex)
    (h : k1 ≠ k) : Graph_M.nbrsOf ⟨mset vt k vtx⟩ k1 = Graph_M.nbrsOf ⟨vt⟩ k1 := by
  simp [Graph_M.nbrsOf, mfind_mset_ne _ _ _ _ h]

theorem containsVertex_mset (vt : List (String × Vertex)) (k k1 : String) (vtx : Vertex)
    (hk : mcontains vt k = true) :
    Graph_M.containsVertex ⟨mset vt k vtx⟩ k1 = Graph_M.containsVertex ⟨vt⟩ k1 := by
  unfold Graph_M.containsVertex
  exact mcontains_congr _ _ (keys_mset_of_mem _ _ _ ((mfind_isSome_iff _ _).mp hk)) k1

/-- The graph after an `addEdge(a, b, w)` that is not skipped. -/
theorem addEdge_new (g : Graph_M) (a b : String) (w : Int) (hwf : g.WF)
    (ha : g.containsVertex a = true) (hb : g.containsVertex b = true)
    (he : g.containsEdge a b = false) :
    (g.addEdge a b w).WF ∧ (∀ k, (g.addEdge a b w).containsVertex k = g.containsVertex k) ∧
      mfind ((g.addEdge a b w).nbrsOf a) b = some w := by
  have ha1 : mcontains g.vtces a = true := ha
  have hb1 : mcontains g.vtces b = true := hb
  have hnb : mcontains (g.nbrsOf a) b = false := by
    rcases h : mcontains (g.nbrsOf a) b with _ | _
    · rfl
    · rw [(containsEdge_iff g a b).mpr ⟨ha, hb, h⟩] at he
      cases he
  have hadd : g.addEdge a b w =
      ⟨mset (mset g.vtces a ⟨mset (g.nbrsOf a) b w⟩) b
        ⟨mset (Graph_M.nbrsOf ⟨mset g.vtces a ⟨mset (g.nbrsOf a) b w⟩⟩ b) a w⟩⟩ := by
    simp [Graph_M.addEdge, ha1, hb1, hnb]
  have hwf1 : Graph_M.WF ⟨mset g.vtces a ⟨mset (g.nbrsOf a) b w⟩⟩ :=
    wf_mset g hwf a _ (nodup_keys_mset _ _ _ (nbrsOf_nodup g hwf a))
  have hb2 : mcontains (mset g.vtces a ⟨mset (g.nbrsOf a) b w⟩) b = true := by
    have := containsVertex_mset g.vtces a b ⟨mset (g.nbrsOf a) b w⟩ ha1
    unfold Graph_M.containsVertex at this
    rw [this]
    exact hb1
  rw [hadd]
  refine ⟨?_, ?_, ?_⟩
  · exact wf_mset _ hwf1 b _ (nodup_keys_mset _ _ _ (nbrsOf_nodup _ hwf1 b))
  · intro k
    rw [containsVertex_mset _ b k _ hb2, containsVertex_mset _ a k _ ha1]
  · by_cases e : a = b
    · subst e
      rw [nbrsOf_mset_self]
      exact mfind_mset_self _ _ _
    · rw [nbrsOf_mset_ne _ b a _ e, nbrsOf_mset_self]
      exact mfind_mset_self _ _ _

/-! ## The claims -/

theorem reach_dst_vertex (g : Graph_M) (u v : String) (h : g.Reach u v) :
    g.containsVertex v = true := by
  cases h with
  | single hab => exact ((containsEdge_iff g _ _).mp hab).2.1
  | tail _ hbc => exact ((containsEdge_iff g _ _).mp hbc).2.1

/-- C1: for every graph with unique keys, non-negative weights and all path costs below
`INT_MAX`, and every pair of nodes `src`, `des` joined by a route, `des` a vertex,
`dijkstra(src, des, false)` returns the minimum over all routes from `src` to `des` of the
sum of the edge weights, and `dijkstra(src, des, true)` returns the minimum of the sum of
`120 + 40 * weight` over the edges (whatever the heap does with equal costs, and without
use of the symmetry of the adjacency). -/
theorem dijkstra_min_cost (H : StlHeap) (g : Graph_M) (src des : String)
    (hwf : g.WF) (hnn : g.NonNeg) (hb : ∀ nan, g.CostsBelowMax nan)
    (hdes : g.containsVertex des = true) (hjoin : ∃ p c, Route g false src des p c) :
    (∃ c, g.dijkstra H src des false = some c ∧ IsMinCost g false src des c) ∧
    (∃ c, g.dijkstra H src des true = some c ∧ IsMinCost g true src des c) := by
  obtain ⟨p, c, hr⟩ := hjoin
  obtain ⟨c1, hr1⟩ := hr.mode true
  exact ⟨dijkstra_correct H g false src des hwf hnn (hb false src) ⟨p, c, hr⟩ hdes,
    dijkstra_correct H g true src des hwf hnn (hb true src) ⟨p, c1, hr1⟩ hdes⟩

/-- C1, witness: the triangle with an isolated vertex, from `A` to `C`. -/
theorem dijkstra_min_cost_witness :
    triangleGraph.WF ∧ triangleGraph.NonNeg ∧ (∀ nan, triangleGraph.CostsBelowMax nan) ∧
    triangleGraph.containsVertex "C" = true ∧
    (∃ p c, Route triangleGraph false "A" "C" p c) ∧
    ((∃ c, triangleGraph.dijkstra refHeap "A" "C" false = some c ∧
        IsMinCost triangleGraph false "A" "C" c) ∧
     (∃ c, triangleGraph.dijkstra refHeap "A" "C" true = some c ∧
        IsMinCost triangleGraph true "A" "C" c)) :=
  have hb : ∀ nan, triangleGraph.CostsBelowMax nan := fun nan =>
    costsBelowMax_of_total triangleGraph (by decide) (by decide) nan
      (by cases nan <;> decide)
  have hj : ∃ p c, Route triangleGraph false "A" "C" p c :=
    ⟨_, _, Route.step (Route.start (by decide))
      (show mfind (triangleGraph.nbrsOf "A") "C" = some 5 by decide)⟩
  ⟨by decide, by decide, hb, by decide, hj,
    dijkstra_min_cost refHeap triangleGraph "A" "C" (by decide) (by decide) hb
      (by decide) hj⟩

/-- C2: for every graph with symmetric adjacency and all node names `u`, `v`, the call
`hasPath(u, v, processed)` on an empty `processed` map returns, and it returns `true` if
and only if `v` is reachable from `u` by a path of one or more edges; when `u` and `v` are
adjacent it returns `true` at once, graph and map untouched. -/
theorem hasPath_reach (g : Graph_M) (hsym : g.Symmetric) (u v : String) :
    ∃ b g1 P1, g.hasPath u v [] = some (b, g1, P1) ∧ (b = true ↔ g.Reach u v) ∧
      (g.containsEdge u v = true → g.hasPath u v [] = some (true, g, [])) :=
  hasPath_spec g (closed_of_symmetric g hsym) u v

/-- C2, witness: the triangle with an isolated vertex, from `A` to the isolated `D`. -/
theorem hasPath_reach_witness :
    triangleGraph.Symmetric ∧
    ∃ b g1 P1, triangleGraph.hasPath "A" "D" [] = some (b, g1, P1) ∧
      (b = true ↔ triangleGraph.Reach "A" "D") ∧
      (triangleGraph.containsEdge "A" "D" = true →
        triangleGraph.hasPath "A" "D" [] = some (true, triangleGraph, [])) :=
  ⟨by decide, hasPath_reach triangleGraph (by decide) "A" "D"⟩

/-- C3, counterexample: on `isolatedGraph` the isolated vertex `S` has
`hasPath(S, S) = false` although `dijkstra(S, S, false) = 0 < INT_MAX`. -/
theorem hasPath_dijkstra_self_counterexample :
    isolatedGraph.Symmetric ∧ isolatedGraph.NonNeg ∧
    isolatedGraph.containsVertex "S" = true ∧
    isolatedGraph.hasPath "S" "S" [] = some (false, isolatedGraph, [("S", true)]) ∧
    isolatedGraph.dijkstra refHeap "S" "S" false = some 0 ∧ (0 : Int) < INT_MAX := by
  decide

/-- C3, amended: for every graph with unique keys, symmetric adjacency, non-negative
weights and path costs below `INT_MAX`, and all node names `a`, `b`: `hasPath(a, b)` on an
empty map returns, and if it returns `true` then `dijkstra(a, b, false)` returns a cost
strictly below `INT_MAX`. -/
theorem hasPath_imp_dijkstra_lt (H : StlHeap) (g : Graph_M) (a b : String)
    (hwf : g.WF) (hsym : g.Symmetric) (hnn : g.NonNeg) (hb : g.CostsBelowMax false) :
    ∃ r g1 P1, g.hasPath a b [] = some (r, g1, P1) ∧
      (r = true → ∃ c, g.dijkstra H a b false = some c ∧ c < INT_MAX) := by
  obtain ⟨r, g1, P1, h1, h2, _⟩ := hasPath_spec g (closed_of_symmetric g hsym) a b
  refine ⟨r, g1, P1, h1, ?_⟩
  intro hr
  have hreach := h2.mp hr
  obtain ⟨c, hc1, ⟨p, hp1, hp2⟩, _⟩ := dijkstra_correct H g false a b hwf hnn (hb a)
    (route_of_reach g false a b hreach) (reach_dst_vertex g a b hreach)
  exact ⟨c, hc1, hb a b p c hp1 hp2⟩

/-- C3, witness of the amended claim: the triangle, from `A` to `C`. -/
theorem hasPath_imp_dijkstra_lt_witness :
    triangleGraph.WF ∧ triangleGraph.Symmetric ∧ triangleGraph.NonNeg ∧
    triangleGraph.CostsBelowMax false ∧
    ∃ r g1 P1, triangleGraph.hasPath "A" "C" [] = some (r, g1, P1) ∧
      (r = true → ∃ c, triangleGraph.dijkstra refHeap "A" "C" false = some c ∧
        c < INT_MAX) :=
  have hb : triangleGraph.CostsBelowMax false :=
    costsBelowMax_of_total triangleGraph (by decide) (by decide) false (by decide)
  ⟨by decide, by decide, by decide, hb,
    hasPath_imp_dijkstra_lt refHeap triangleGraph "A" "C" (by decide) (by decide)
      (by decide) hb⟩

set_option maxRecDepth 100000

theorem isolatedGraph_vtces :
    isolatedGraph.vtces =
      [("S", ⟨[]⟩), ("X", ⟨[("Y", 1)]⟩), ("Y", ⟨[("X", 1)]⟩)] := by
  decide

theorem isolatedGraph_no_edge_to_S (x : String) :
    mfind (isolatedGraph.nbrsOf x) "S" = none := by
  rcases h : mfind (isolatedGraph.nbrsOf x) "S" with _ | w
  · rfl
  · exfalso
    obtain ⟨vtx, h1, h2⟩ := nbrsOf_mem isolatedGraph x ("S", w) (mem_of_mfind _ _ _ h)
    rw [isolatedGraph_vtces] at h1
    simp only [List.mem_cons, Prod.mk.injEq, List.mem_singleton, List.not_mem_nil,
      or_false] at h1
    rcases h1 with ⟨_, rfl⟩ | ⟨_, rfl⟩ | ⟨_, rfl⟩
    · simp at h2
    · simp at h2
    · simp at h2

theorem isolatedGraph_not_reach (des : String) : ¬ isolatedGraph.Reach "S" des := by
  intro hr
  have : ∃ y, isolatedGraph.Adj "S" y := by
    refine Relation.TransGen.head_induction_on
      (P := fun a _ => ∃ y, isolatedGraph.Adj a y) hr ?_ ?_
    · intro a hab
      exact ⟨des, hab⟩
    · intro a c hac _ _
      exact ⟨c, hac⟩
  obtain ⟨y, hy⟩ := this
  have h1 := ((containsEdge_iff isolatedGraph "S" y).mp hy).2.2
  have h2 : isolatedGraph.nbrsOf "S" = [] := by decide
  rw [h2] at h1
  simp [mcontains, mfind] at h1

/-- C4, the code at the failing input: `isolatedGraph` has symmetric adjacency and
non-negative weights, and neither `X` nor `Y` is joined to `S` by a path; yet for every
conforming heap, every enumeration order of the containers (every graph that holds the
same map) and both modes, `dijkstra(S, des, nan)` returns a negative number instead of
`INT_MAX` for `des = X` or for `des = Y` (the one that leaves the heap second: its cost is
computed as `INT_MAX + 1`, or `INT_MAX + 120 + 40`, in `int`). With the reference heap
and the order of insertion that is `des = Y`. -/
theorem dijkstra_unreachable_overflow :
    isolatedGraph.WF ∧ isolatedGraph.Symmetric ∧ isolatedGraph.NonNeg ∧
    (∀ des, ¬ isolatedGraph.Reach "S" des) ∧
    (∀ (H : StlHeap) (g : Graph_M), g.WF → isolatedGraph.SameMap g → ∀ nan : Bool,
      ∃ des, (des = "X" ∨ des = "Y") ∧ g.containsVertex des = true ∧
        ∃ c, g.dijkstra H "S" des nan = some c ∧ c < 0) ∧
    isolatedGraph.dijkstra refHeap "S" "Y" false = some (-2147483648) ∧
    isolatedGraph.dijkstra refHeap "S" "Y" true = some (-2147483489) := by
  refine ⟨by decide, by decide, by decide, isolatedGraph_not_reach, ?_, by decide,
    by decide⟩
  intro H g hwf hsame nan
  obtain ⟨des, hd, c, hc1, hc2⟩ := isolated_overflow H g hwf hsame nan
  refine ⟨des, hd, ?_, c, hc1, ?_⟩
  · rw [← hsame.1]
    rcases hd with rfl | rfl <;> decide
  · have : newCost nan INT_MAX 1 < 0 := by cases nan <;> decide
    omega

/-- C5, counterexample: `Q` is not a vertex of `pairGraph`, and `dijkstra(A, Q, nan)`
returns `0`, not `INT_MAX`, in both modes (and so does `dijkstra(Q, Q, nan)`). -/
theorem dijkstra_unknown_counterexample :
    pairGraph.containsVertex "A" = true ∧ pairGraph.containsVertex "Q" = false ∧
    pairGraph.dijkstra refHeap "A" "Q" false = some 0 ∧
    pairGraph.dijkstra refHeap "A" "Q" true = some 0 ∧
    pairGraph.dijkstra refHeap "Q" "Q" false = some 0 ∧ (0 : Int) ≠ INT_MAX := by
  decide

/-- C5, amended: for every graph and all node names `src`, `des` such that `des` is not
a vertex, `dijkstra(src, des, nan)` returns `0` (the initial value of `val`) in both
modes. -/
theorem dijkstra_unknown_des (H : StlHeap) (g : Graph_M) (src des : String) (nan : Bool)
    (hd : g.containsVertex des = false) : g.dijkstra H src des nan = some 0 :=
  dijkstra_absent H g src des nan hd

/-- C5, witness of the amended claim: the reference network and a name that is not a
station of it. -/
theorem dijkstra_unknown_des_witness :
    metroMap.containsVertex "Kashmere Gate~RYV" = false ∧
    metroMap.dijkstra refHeap "Rajiv Chowk~BY" "Kashmere Gate~RYV" true = some 0 :=
  ⟨by decide, dijkstra_unknown_des refHeap metroMap "Rajiv Chowk~BY" "Kashmere Gate~RYV"
    true (by decide)⟩

/-- C6: for every graph with unique keys, symmetric adjacency, non-negative weights and
path costs below `INT_MAX`, and every pair of nodes `a`, `b` joined by a route,
`dijkstra(a, b, nan)` and `dijkstra(b, a, nan)` return the same cost, in distance mode
and in time mode. -/
theorem dijkstra_symmetric (H : StlHeap) (g : Graph_M) (a b : String) (nan : Bool)
    (hwf : g.WF) (hsym : g.Symmetric) (hnn : g.NonNeg) (hb : g.CostsBelowMax nan)
    (hconn : ∃ p c, Route g nan a b p c) :
    ∃ c, g.dijkstra H a b nan = some c ∧ g.dijkstra H b a nan = some c := by
  obtain ⟨p, c, hr⟩ := hconn
  obtain ⟨c1, h1, m1⟩ := dijkstra_correct H g nan a b hwf hnn (hb a) ⟨p, c, hr⟩
    (route_dst_vertex g hsym nan a b p c hr)
  obtain ⟨c2, h2, m2⟩ := dijkstra_correct H g nan b a hwf hnn (hb b)
    ⟨_, _, route_reverse g hsym nan a b p c hr⟩ (route_src_vertex g nan a b p c hr)
  refine ⟨c1, h1, ?_⟩
  rw [h2, isMinCost_symm g hsym nan a b c1 c2 m1 m2]

/-- C6, witness: the triangle, `A` and `C`, in time mode. -/
theorem dijkstra_symmetric_witness :
    triangleGraph.WF ∧ triangleGraph.Symmetric ∧ triangleGraph.NonNeg ∧
    triangleGraph.CostsBelowMax true ∧ (∃ p c, Route triangleGraph true "A" "C" p c) ∧
    ∃ c, triangleGraph.dijkstra refHeap "A" "C" true = some c ∧
      triangleGraph.dijkstra refHeap "C" "A" true = some c :=
  have hb : triangleGraph.CostsBelowMax true :=
    costsBelowMax_of_total triangleGraph (by decide) (by decide) true (by decide)
  have hj : ∃ p c, Route triangleGraph true "A" "C" p c :=
    ⟨_, _, Route.step (Route.start (by decide))
      (show mfind (triangleGraph.nbrsOf "A") "C" = some 5 by decide)⟩
  ⟨by decide, by decide, by decide, hb, hj,
    dijkstra_symmetric refHeap triangleGraph "A" "C" true (by decide) (by decide)
      (by decide) hb hj⟩

/-- A consequence of the overflow on an unreachable destination: on `isolatedGraph`, for
every conforming heap there are vertices `a`, `b`, `c` with
`dijkstra(a, c, false) > dijkstra(a, b, false) + dijkstra(b, c, false)`: take `b = S` and
for `a = c` the one of `X`, `Y` that leaves the heap second in the run from `S`; then
`dijkstra(a, a) = 0`, `dijkstra(a, S) = INT_MAX`, and `dijkstra(S, a)` is the overflowed
`INT_MAX + 1`. With the reference heap `a = c = Y`. -/
theorem triangle_unreachable_overflow :
    isolatedGraph.WF ∧ isolatedGraph.Symmetric ∧ isolatedGraph.NonNeg ∧
    (∀ H : StlHeap, ∃ a b c dac dab dbc,
      isolatedGraph.containsVertex a = true ∧ isolatedGraph.containsVertex b = true ∧
      isolatedGraph.containsVertex c = true ∧
      isolatedGraph.dijkstra H a c false = some dac ∧
      isolatedGraph.dijkstra H a b false = some dab ∧
      isolatedGraph.dijkstra H b c false = some dbc ∧ dab + dbc < dac) ∧
    isolatedGraph.dijkstra refHeap "Y" "Y" false = some 0 ∧
    isolatedGraph.dijkstra refHeap "Y" "S" false = some 2147483647 ∧
    isolatedGraph.dijkstra refHeap "S" "Y" false = some (-2147483648) := by
  refine ⟨by decide, by decide, by decide, ?_, by decide, by decide, by decide⟩
  intro H
  obtain ⟨des, hd, c, hc1, hc2⟩ :=
    isolated_overflow H isolatedGraph (by decide) (sameMap_refl _) false
  have hv : isolatedGraph.containsVertex des = true := by
    rcases hd with rfl | rfl <;> decide
  have hne : "S" ≠ des := by
    rcases hd with rfl | rfl <;> decide
  refine ⟨des, "S", des, 0, INT_MAX, c, hv, by decide, hv,
    dijkstra_self_eq H isolatedGraph des false hv,
    dijkstra_isolated H isolatedGraph des "S" false (by decide)
      isolatedGraph_no_edge_to_S (by decide) hne, hc1, ?_⟩
  have : newCost false INT_MAX 1 = -2147483648 := by decide
  have h2 : INT_MAX = 2147483647 := rfl
  omega

/-- Two routes that meet can be joined; the costs add up. -/
theorem route_append (g : Graph_M) (nan : Bool) (a b c : String) (p1 p2 : List String)
    (c1 c2 : Int) (h1 : Route g nan a b p1 c1) (h2 : Route g nan b c p2 c2) :
    Route g nan a c (p1 ++ p2.tail) (c1 + c2) := by
  induction h2 with
  | start _ => exact route_cast h1 (by simp) (by ring)
  | @step x y p c3 w hr he ih =>
    have hne : p ≠ [] := List.ne_nil_of_mem (route_last_mem g nan b x p c3 hr)
    exact route_cast (Route.step ih he)
      (by rw [List.tail_append_of_ne_nil hne, List.append_assoc]) (by ring)

/-- C7, counterexample: on `heavyGraph` (symmetric adjacency, weights `2^30 >= 0`) the
cost of `C` from `A` is computed as `2^30 + 2^30` in `int` and comes out as `-2^31`, so
`dijkstra(A, B, false) = 2^30` exceeds
`dijkstra(A, C, false) + dijkstra(C, B, false) = -2^31 + 2^30`. -/
theorem triangle_inequality_counterexample :
    heavyGraph.WF ∧ heavyGraph.Symmetric ∧ heavyGraph.NonNeg ∧
    heavyGraph.containsVertex "A" = true ∧ heavyGraph.containsVertex "B" = true ∧
    heavyGraph.containsVertex "C" = true ∧
    heavyGraph.dijkstra refHeap "A" "B" false = some 1073741824 ∧
    heavyGraph.dijkstra refHeap "A" "C" false = some (-2147483648) ∧
    heavyGraph.dijkstra refHeap "C" "B" false = some 1073741824 ∧
    ¬ ((1073741824 : Int) ≤ -2147483648 + 1073741824) := by
  decide

/-- C7, amended: for every graph with unique keys, symmetric adjacency, non-negative
weights and path costs below `INT_MAX`, and all nodes `a`, `b`, `c` such that `a` is
joined to `b` and `b` to `c` by a route, the three calls return and
`dijkstra(a, c, false) <= dijkstra(a, b, false) + dijkstra(b, c, false)`. -/
theorem dijkstra_triangle (H : StlHeap) (g : Graph_M) (a b c : String)
    (hwf : g.WF) (hsym : g.Symmetric) (hnn : g.NonNeg) (hb : g.CostsBelowMax false)
    (hab : ∃ p d, Route g false a b p d) (hbc : ∃ p d, Route g false b c p d) :
    ∃ dac dab dbc, g.dijkstra H a c false = some dac ∧ g.dijkstra H a b false = some dab ∧
      g.dijkstra H b c false = some dbc ∧ dac ≤ dab + dbc := by
  obtain ⟨p1, d1, h1⟩ := hab
  obtain ⟨p2, d2, h2⟩ := hbc
  have hbv := route_dst_vertex g hsym false a b p1 d1 h1
  have hcv := route_dst_vertex g hsym false b c p2 d2 h2
  obtain ⟨dab, e1, ⟨q1, r1, _⟩, _⟩ :=
    dijkstra_correct H g false a b hwf hnn (hb a) ⟨p1, d1, h1⟩ hbv
  obtain ⟨dbc, e2, ⟨q2, r2, _⟩, _⟩ :=
    dijkstra_correct H g false b c hwf hnn (hb b) ⟨p2, d2, h2⟩ hcv
  have hac := route_append g false a b c q1 q2 dab dbc r1 r2
  obtain ⟨dac, e3, _, m3⟩ := dijkstra_correct H g false a c hwf hnn (hb a) ⟨_, _, hac⟩ hcv
  exact ⟨dac, dab, dbc, e3, e1, e2, m3 _ _ hac⟩

/-- C7, witness of the amended claim: the triangle, through `A`, `C`, `B`. -/
theorem dijkstra_triangle_witness :
    triangleGraph.WF ∧ triangleGraph.Symmetric ∧ triangleGraph.NonNeg ∧
    triangleGraph.CostsBelowMax false ∧ (∃ p d, Route triangleGraph false "A" "C" p d) ∧
    (∃ p d, Route triangleGraph false "C" "B" p d) ∧
    ∃ dac dab dbc, triangleGraph.dijkstra refHeap "A" "B" false = some dac ∧
      triangleGraph.dijkstra refHeap "A" "C" false = some dab ∧
      triangleGraph.dijkstra refHeap "C" "B" false = some dbc ∧ dac ≤ dab + dbc :=
  have hb : triangleGraph.CostsBelowMax false :=
    costsBelowMax_of_total triangleGraph (by decide) (by decide) false (by decide)
  have h1 : ∃ p d, Route triangleGraph false "A" "C" p d :=
    ⟨_, _, Route.step (Route.start (by decide))
      (show mfind (triangleGraph.nbrsOf "A") "C" = some 5 by decide)⟩
  have h2 : ∃ p d, Route triangleGraph false "C" "B" p d :=
    ⟨_, _, Route.step (Route.start (by decide))
      (show mfind (triangleGraph.nbrsOf "C") "B" = some 1 by decide)⟩
  ⟨by decide, by decide, by decide, hb, h1, h2,
    dijkstra_triangle refHeap triangleGraph "A" "C" "B" (by decide) (by decide)
      (by decide) hb h1 h2⟩

/-- C8: for every graph and every vertex `n` of it, `dijkstra(n, n, false)` returns
`0`. -/
theorem dijkstra_self_zero (H : StlHeap) (g : Graph_M) (n : String)
    (hn : g.containsVertex n = true) : g.dijkstra H n n false = some 0 :=
  dijkstra_self_eq H g n false hn

/-- C8, witness: the isolated vertex `D` of `triangleGraph`. -/
theorem dijkstra_self_zero_witness :
    triangleGraph.containsVertex "D" = true ∧
    triangleGraph.dijkstra refHeap "D" "D" false = some 0 :=
  ⟨by decide, dijkstra_self_zero refHeap triangleGraph "D" (by decide)⟩

/-- C9, counterexample: `pairGraph` has the edge `A - B` of weight `10`; the call
`addEdge(A, B, 1)` is skipped, and afterwards `dijkstra(A, B, false) = 10 > 1`. -/
theorem addEdge_existing_counterexample :
    pairGraph.WF ∧ pairGraph.Symmetric ∧ pairGraph.NonNeg ∧
    pairGraph.containsVertex "A" = true ∧ pairGraph.containsVertex "B" = true ∧
    (pairGraph.addEdge "A" "B" 1).containsEdge "A" "B" = true ∧
    (pairGraph.addEdge "A" "B" 1).dijkstra refHeap "A" "B" false = some 10 ∧
    ¬ ((10 : Int) ≤ 1) := by
  decide

/-- C9, amended: for every graph with unique keys, every pair of existing vertices `a`,
`b` and every weight `0 ≤ w ≤ INT_MAX`: after `addEdge(a, b, w)`, `containsEdge(a, b)`
is true, and if the edge was not there before, `dijkstra(a, b, false)` returns a cost
that is at most `w`. -/
theorem addEdge_roundtrip (H : StlHeap) (g : Graph_M) (a b : String) (w : Int)
    (hwf : g.WF) (ha : g.containsVertex a = true) (hb : g.containsVertex b = true)
    (hw0 : 0 ≤ w) (hw1 : w ≤ INT_MAX) :
    (g.addEdge a b w).containsEdge a b = true ∧
    (g.containsEdge a b = false →
      ∃ c, (g.addEdge a b w).dijkstra H a b false = some c ∧ c ≤ w) := by
  rcases he : g.containsEdge a b with _ | _
  · obtain ⟨h1, h2, h3⟩ := addEdge_new g a b w hwf ha hb he
    have hcont : (g.addEdge a b w).containsEdge a b = true := by
      rw [containsEdge_iff, h2 a, h2 b]
      exact ⟨ha, hb, by simp [mcontains, h3]⟩
    refine ⟨hcont, fun _ => ?_⟩
    by_cases e : a = b
    · subst e
      exact ⟨0, dijkstra_self_eq H _ a false (by rw [h2 a]; exact ha), hw0⟩
    · obtain ⟨c, hc1, hc2⟩ := dijkstra_le_edge H (g.addEdge a b w) a b false w h1
        (by rw [h2 b]; exact hb) e h3
      have hnc := newCost_eq false 0 w (le_refl 0) hw0 (by simpa [edgeCost] using hw1)
      rw [hnc] at hc2
      simp [edgeCost] at hc2
      exact ⟨c, hc1, hc2⟩
  · have hadd : g.addEdge a b w = g := by
      have := ((containsEdge_iff g a b).mp he).2.2
      simp [Graph_M.addEdge, this]
    rw [hadd]
    exact ⟨he, fun h => by cases h⟩

/-- C9, witness of the amended claim: a new edge `A - D` of weight `3` on
`triangleGraph`. -/
theorem addEdge_roundtrip_witness :
    triangleGraph.WF ∧ triangleGraph.containsVertex "A" = true ∧
    triangleGraph.containsVertex "D" = true ∧ (0 : Int) ≤ 3 ∧ (3 : Int) ≤ INT_MAX ∧
    (triangleGraph.addEdge "A" "D" 3).containsEdge "A" "D" = true ∧
    (triangleGraph.containsEdge "A" "D" = false →
      ∃ c, (triangleGraph.addEdge "A" "D" 3).dijkstra refHeap "A" "D" false = some c ∧
        c ≤ 3) :=
  ⟨by decide, by decide, by decide, by decide, by decide,
    addEdge_roundtrip refHeap triangleGraph "A" "D" 3 (by decide) (by decide) (by decide)
      (by decide) (by decide)⟩

theorem Graph_M.SameMap.symm {g g1 : Graph_M} (h : g.SameMap g1) : g1.SameMap g :=
  ⟨fun k => (h.1 k).symm, fun k k1 => (h.2 k k1).symm⟩

theorem Graph_M.SameMap.route {g g1 : Graph_M} (h : g.SameMap g1) {nan : Bool} {s y : String}
    {p : List String} {c : Int} (hr : Route g nan s y p c) : Route g1 nan s y p c := by
  induction hr with
  | start hs => exact Route.start (by rw [← h.1]; exact hs)
  | step _ he ih => exact Route.step ih (by rw [← h.2]; exact he)

theorem Graph_M.SameMap.isMinCost {g g1 : Graph_M} (h : g.SameMap g1) {nan : Bool} {s y : String}
    {c : Int} (hm : IsMinCost g nan s y c) : IsMinCost g1 nan s y c := by
  obtain ⟨⟨p, hp1, hp2⟩, hlow⟩ := hm
  exact ⟨⟨p, h.route hp1, hp2⟩, fun p1 c1 hr => hlow p1 c1 (h.symm.route hr)⟩

theorem Graph_M.SameMap.nonNeg {g g1 : Graph_M} (h : g.SameMap g1) (hwf : g1.WF) (hnn : g.NonNeg) :
    g1.NonNeg := by
  intro p hp q hq
  have h1 : mfind (g1.nbrsOf p.1) q.1 = some q.2 := by
    rw [nbrsOf_of_mem g1 hwf p hp]
    exact mfind_of_mem _ _ _ (hwf.2 p hp) hq
  rw [← h.2] at h1
  exact weight_nonneg g hnn _ _ _ h1

theorem Graph_M.SameMap.costsBelowMax {g g1 : Graph_M} (h : g.SameMap g1) {nan : Bool}
    (hb : g.CostsBelowMax nan) : g1.CostsBelowMax nan :=
  fun s y p c hr hnd => hb s y p c (h.symm.route hr) hnd

/-- The result of `dijkstra` depends neither on the heap implementation nor on the order
in which the containers enumerate their entries, where it is the least cost of a route:
it is the result computed with the reference heap on any graph that holds the same map. -/
theorem dijkstra_eq_sameMap (H : StlHeap) (g g1 : Graph_M) (nan : Bool) (src des : String)
    (c : Int) (hwf : g.WF) (hwf1 : g1.WF) (hsame : g.SameMap g1) (hnn : g.NonNeg)
    (hb : g.CostsBelowMax nan) (hreach : ∃ p c, Route g nan src des p c)
    (hdes : g.containsVertex des = true)
    (href : g.dijkstra refHeap src des nan = some c) : g1.dijkstra H src des nan = some c := by
  obtain ⟨c1, h1, m1⟩ := dijkstra_correct refHeap g nan src des hwf hnn (hb src) hreach hdes
  obtain ⟨p, d, hr⟩ := hreach
  obtain ⟨c2, h2, m2⟩ := dijkstra_correct H g1 nan src des hwf1 (hsame.nonNeg hwf1 hnn)
    (hsame.costsBelowMax hb src) ⟨p, d, hsame.route hr⟩ (by rw [← hsame.1]; exact hdes)
  rw [href] at h1
  cases h1
  rw [h2, isMinCost_unique g nan src des c2 c (hsame.symm.isMinCost m2) m1]

/-- C10: on the reference network built by `createMetroMap`, whatever the order in which
the containers enumerate the stations and whatever the heap does with equal costs,
`dijkstra("Noida Sector 62~B", "Botanical Garden~B", false)` returns `8` and
`dijkstra("Rajiv Chowk~BY", "New Delhi~YO", false)` returns `1`. -/
theorem metro_reference_costs (H : StlHeap) (g : Graph_M) (hwf : g.WF)
    (hsame : metroMap.SameMap g) :
    g.dijkstra H "Noida Sector 62~B" "Botanical Garden~B" false = some 8 ∧
    g.dijkstra H "Rajiv Chowk~BY" "New Delhi~YO" false = some 1 := by
  have hwf0 : metroMap.WF := by decide
  have hnn : metroMap.NonNeg := by decide
  have hb : metroMap.CostsBelowMax false :=
    costsBelowMax_of_total metroMap hwf0 hnn false (by decide)
  constructor
  · exact dijkstra_eq_sameMap H metroMap g false _ _ 8 hwf0 hwf hsame hnn hb
      ⟨_, _, Route.step (Route.start (by decide))
        (show mfind (metroMap.nbrsOf "Noida Sector 62~B") "Botanical Garden~B" = some 8
          by decide)⟩ (by decide) (by decide)
  · exact dijkstra_eq_sameMap H metroMap g false _ _ 1 hwf0 hwf hsame hnn hb
      ⟨_, _, Route.step (Route.start (by decide))
        (show mfind (metroMap.nbrsOf "Rajiv Chowk~BY") "New Delhi~YO" = some 1
          by decide)⟩ (by decide) (by decide)

/-- C10, witness: the graph built by `createMetroMap` itself, with the reference heap. -/
theorem metro_reference_costs_witness :
    metroMap.WF ∧ metroMap.SameMap metroMap ∧
    metroMap.dijkstra refHeap "Noida Sector 62~B" "Botanical Garden~B" false = some 8 ∧
    metroMap.dijkstra refHeap "Rajiv Chowk~BY" "New Delhi~YO" false = some 1 :=
  ⟨by decide, sameMap_refl _,
    metro_reference_costs refHeap metroMap (by decide) (sameMap_refl _)⟩

/-! ## Minutes, interchanges -/

/-- C11, the code at the failing input: on the reference network the time cost from
`Rajiv Chowk~BY` to `New Delhi~YO` (one edge of weight `1`) is `160` seconds for every
conforming heap, for `dijkstra` and for the search of `getMinimumTime`; the ceiling of
`160 / 60` is `3`, but the choice 4 of the menu prints the `int` quotient
`dijkstra(...) / 60`, which is `2`. -/
theorem menu_minutes_truncated :
    (∀ H : StlHeap,
      metroMap.dijkstra H "Rajiv Chowk~BY" "New Delhi~YO" true = some 160 ∧
      menuShortestTime H metroMap "Rajiv Chowk~BY" "New Delhi~YO" = some 2) ∧
    (metroMap.getMinimumTimeRecord "Rajiv Chowk~BY" "New Delhi~YO").map (fun r => r.2.1)
      = some 160 ∧
    Int.ceil ((160 : ℚ) / 60) = 3 := by
  have hwf : metroMap.WF := by decide
  have hnn : metroMap.NonNeg := by decide
  have hb : metroMap.CostsBelowMax true :=
    costsBelowMax_of_total metroMap hwf hnn true (by decide)
  have hd : ∀ H : StlHeap,
      metroMap.dijkstra H "Rajiv Chowk~BY" "New Delhi~YO" true = some 160 := fun H =>
    dijkstra_eq_sameMap H metroMap metroMap true _ _ 160 hwf hwf (sameMap_refl _) hnn hb
      ⟨_, _, Route.step (Route.start (by decide))
        (show mfind (metroMap.nbrsOf "Rajiv Chowk~BY") "New Delhi~YO" = some 1
          by decide)⟩ (by decide) (by decide)
  have hp : metroMap.hasPath "Rajiv Chowk~BY" "New Delhi~YO" [] = some (true, metroMap, []) := by
    decide
  refine ⟨fun H => ⟨hd H, ?_⟩, by decide, ?_⟩
  · have hv1 : metroMap.containsVertex "Rajiv Chowk~BY" = true := by decide
    have hv2 : metroMap.containsVertex "New Delhi~YO" = true := by decide
    simp only [menuShortestTime, hv1, hv2, hp, hd H]
    decide
  · rw [Int.ceil_eq_iff]
    norm_num

/-- The three-node window on its own: for every string whose tokens are exactly three
nodes `A`, `M`, `C` (names without a space, no total behind them), the part of `M` after
`~` having exactly 2 bytes: if the parts of `A` and `C` after `~` are equal,
`getInterchanges` keeps `M` verbatim and the count element is `0`; if they differ, `M`
and `C` are merged into the one entry `M ==> C` and the count element is `1`. -/
theorem getInterchanges_three (str A M C : String) (ht : tokens str = [A, M, C])
    (hM : (suffixOf M).utf8ByteSize = 2) :
    (suffixOf A = suffixOf C → getInterchanges str = some [A, M, "0", C]) ∧
    (suffixOf A ≠ suffixOf C →
      getInterchanges str = some [A, M ++ " ==> " ++ C, "1", C]) := by
  constructor
  · intro h
    simp [getInterchanges, ht, interLoop, hM, h]
    decide
  · intro h
    simp [getInterchanges, ht, interLoop, hM, h]
    decide

/-- The three-node window on the nodes `A~B`, `M~BY`, `C~Y`. -/
theorem getInterchanges_three_witness :
    tokens "A~B  M~BY  C~Y" = ["A~B", "M~BY", "C~Y"] ∧ (suffixOf "M~BY").utf8ByteSize = 2 ∧
    (suffixOf "A~B" = suffixOf "C~Y" →
      getInterchanges "A~B  M~BY  C~Y" = some ["A~B", "M~BY", "0", "C~Y"]) ∧
    (suffixOf "A~B" ≠ suffixOf "C~Y" →
      getInterchanges "A~B  M~BY  C~Y" = some ["A~B", "M~BY" ++ " ==> " ++ "C~Y", "1", "C~Y"]) :=
  ⟨by decide, by decide,
    getInterchanges_three "A~B  M~BY  C~Y" "A~B" "M~BY" "C~Y" (by decide) (by decide)⟩

/-- The same three nodes followed by the numeric total `T`, as the searches return them:
the node `C` is then scanned like an inner node, with `T` as its successor. -/
theorem getInterchanges_with_total (str A M C T : String)
    (ht : tokens str = [A, M, C, T]) (hM : (suffixOf M).utf8ByteSize = 2) :
    (suffixOf A ≠ suffixOf C →
      getInterchanges str = some [A, M ++ " ==> " ++ C, "1", T]) ∧
    (suffixOf A = suffixOf C → (suffixOf C).utf8ByteSize ≠ 2 →
      getInterchanges str = some [A, M, C, "0", T]) ∧
    (suffixOf A = suffixOf C → (suffixOf C).utf8ByteSize = 2 → suffixOf M ≠ suffixOf T →
      getInterchanges str = some [A, M, C ++ " ==> " ++ T, "1", T]) := by
  refine ⟨?_, ?_, ?_⟩
  · intro h
    simp [getInterchanges, ht, interLoop, hM, h]
    decide
  · intro h h2
    simp [getInterchanges, ht, interLoop, hM, h, h2]
    decide
  · intro h h2 h3
    simp [getInterchanges, ht, interLoop, hM, h, h2, h3]
    decide

/-- C13, the code at the failing input: a path through three consecutive nodes whose
middle node has a suffix of length 2 and whose outer nodes have equal suffixes must give
the count `0` with the middle node kept verbatim. For the three stations
`Yamuna Bank~B`, `Rajiv Chowk~BY`, `Moti Nagar~B` the count element is `1` and
`Chowk~BY ==> Moti` is merged (the tokens are the words of the names). For the three
nodes `A~BY`, `M~BY`, `C~BY`, in the string that `getMinimumDistance` returns and the
menu passes on, the count element is `1` and `C~BY ==> 7` is merged (the last node is
scanned like an inner node, with the total as its successor). -/
theorem getInterchanges_three_miscount :
    suffixOf "Yamuna Bank~B" = suffixOf "Moti Nagar~B" ∧
    (suffixOf "Rajiv Chowk~BY").utf8ByteSize = 2 ∧
    getInterchanges "Yamuna Bank~B  Rajiv Chowk~BY  Moti Nagar~B" =
      some ["Yamuna", "Bank~B", "Rajiv", "Chowk~BY ==> Moti", "1", "Nagar~B"] ∧
    suffixOf "A~BY" = suffixOf "C~BY" ∧ (suffixOf "M~BY").utf8ByteSize = 2 ∧
    codesGraph.getMinimumDistance "A~BY" "C~BY" =
      some ("A~BY  M~BY  C~BY  7", codesGraph) ∧
    getInterchanges "A~BY  M~BY  C~BY  7" =
      some ["A~BY", "M~BY", "C~BY ==> 7", "1", "7"] ∧
    menuShortestPath codesGraph "A~BY" "C~BY" =
      some ["A~BY", "M~BY", "C~BY ==> 7", "1", "7"] := by
  decide

/-- C14, the code at the failing input: on the reference network the route from
`Yamuna Bank~B` to `Moti Nagar~B` runs through `Rajiv Chowk~BY` between two stations of
suffix `B`, and the route from `Noida Sector 62~B` to `Rajiv Chowk~BY` has no station
with two codes before its end: both have no true category transition. The menu
nevertheless gets the count `1` for both: the tokens are the words of the station names
(`Chowk~BY` stands between `Rajiv` and `Moti`), and the destination is scanned like an
inner station, the numeric total being taken for its successor (`Chowk~BY ==> 24`). The
second defect shows without spaces in the names as well (`M~BY ==> 5`). -/
theorem interchange_count_wrong :
    (metroMap.getMinimumDistance "Yamuna Bank~B" "Moti Nagar~B").map (fun r => r.1)
      = some "Yamuna Bank~B  Rajiv Chowk~BY  Moti Nagar~B  15" ∧
    trueTransitions ["Yamuna Bank~B", "Rajiv Chowk~BY", "Moti Nagar~B"] = 0 ∧
    menuShortestPath metroMap "Yamuna Bank~B" "Moti Nagar~B"
      = some ["Yamuna", "Bank~B", "Rajiv", "Chowk~BY ==> Moti", "Nagar~B", "1", "15"] ∧
    (metroMap.getMinimumDistance "Noida Sector 62~B" "Rajiv Chowk~BY").map (fun r => r.1)
      = some "Noida Sector 62~B  Botanical Garden~B  Yamuna Bank~B  Rajiv Chowk~BY  24" ∧
    trueTransitions
      ["Noida Sector 62~B", "Botanical Garden~B", "Yamuna Bank~B", "Rajiv Chowk~BY"] = 0 ∧
    menuShortestPath metroMap "Noida Sector 62~B" "Rajiv Chowk~BY"
      = some ["Noida", "Sector", "62~B", "Botanical", "Garden~B", "Yamuna", "Bank~B",
          "Rajiv", "Chowk~BY ==> 24", "1", "24"] ∧
    trueTransitions ["A~B", "M~BY"] = 0 ∧
    getInterchanges "A~B  M~BY  5" = some ["A~B", "M~BY ==> 5", "1", "5"] := by
  decide

/-! ## The graph store -/

theorem mcontains_mset {V : Type} (m : List (String × V)) (k x : String) (v : V) :
    mcontains (mset m k v) x = (decide (x = k) || mcontains m x) := by
  by_cases h : x = k
  · subst h
    simp [mcontains, mfind_mset_self]
  · simp [mcontains, mfind_mset_ne _ _ _ _ h, h]

theorem mset_of_not_mem {V : Type} (m : List (String × V)) (k : String) (v : V)
    (h : mcontains m k = false) : mset m k v = m ++ [(k, v)] := by
  induction m with
  | nil => rfl
  | cons a m ih =>
    obtain ⟨k1, v1⟩ := a
    by_cases hk : k1 = k
    · subst hk
      simp [mcontains, mfind] at h
    · have h1 : mcontains m k = false := by
        simpa [mcontains, mfind, hk] using h
      simp [mset, hk, ih h1]

theorem merase_append_new {V : Type} (m : List (String × V)) (k : String) (v : V)
    (h : mcontains m k = false) : merase (m ++ [(k, v)]) k = m := by
  induction m with
  | nil => simp [merase]
  | cons a m ih =>
    obtain ⟨k1, v1⟩ := a
    by_cases hk : k1 = k
    · subst hk
      simp [mcontains, mfind] at h
    · have h1 : mcontains m k = false := by
        simpa [mcontains, mfind, hk] using h
      simp [merase, hk, ih h1]

theorem mcontains_false_iff {V : Type} (m : List (String × V)) (k : String) :
    mcontains m k = false ↔ mfind m k = none := by
  unfold mcontains
  rcases mfind m k with _ | v <;> simp

theorem mfind_merase {V : Type} (m : List (String × V)) (k y : String)
    (hn : (m.map Prod.fst).Nodup) :
    mfind (merase m k) y = if y = k then none else mfind m y := by
  by_cases h : y = k
  · subst h
    simp [mfind_merase_self m y hn]
  · simp [h, mfind_merase_ne m k y h]

theorem nodup_keys_merase {V : Type} (m : List (String × V)) (k : String)
    (hn : (m.map Prod.fst).Nodup) : ((merase m k).map Prod.fst).Nodup := by
  rw [keys_merase]
  exact hn.erase k

theorem mem_merase {V : Type} (m : List (String × V)) (k : String) (p : String × V)
    (h : p ∈ merase m k) : p ∈ m := by
  induction m with
  | nil => simp [merase] at h
  | cons a m ih =>
    obtain ⟨k1, v1⟩ := a
    by_cases hk : k1 = k
    · simp only [merase, hk, if_true] at h
      exact List.mem_cons_of_mem _ h
    · simp only [merase, hk, if_false, List.mem_cons] at h
      rcases h with h | h
      · rw [h]
        exact List.mem_cons_self _ _
      · exact List.mem_cons_of_mem _ (ih h)

/-- Erasing a vertex from `vtces` keeps the graph well formed. -/
theorem wf_merase (g : Graph_M) (hwf : g.WF) (k : String) : Graph_M.WF ⟨merase g.vtces k⟩ :=
  ⟨nodup_keys_merase _ _ hwf.1, fun p hp => hwf.2 p (mem_merase _ _ _ hp)⟩

theorem nbrsOf_merase (g : Graph_M) (hwf : g.WF) (k x : String) :
    Graph_M.nbrsOf ⟨merase g.vtces k⟩ x = if x = k then [] else g.nbrsOf x := by
  unfold Graph_M.nbrsOf
  simp only
  rw [mfind_merase _ _ _ hwf.1]
  by_cases h : x = k <;> simp [h]

theorem containsVertex_merase (g : Graph_M) (hwf : g.WF) (k x : String) :
    Graph_M.containsVertex ⟨merase g.vtces k⟩ x = (decide (x ≠ k) && g.containsVertex x) := by
  unfold Graph_M.containsVertex mcontains
  simp only
  rw [mfind_merase _ _ _ hwf.1]
  by_cases h : x = k <;> simp [h]

theorem containsVertex_addVertex (g : Graph_M) (n x : String) :
    (g.addVertex n).containsVertex x = (decide (x = n) || g.containsVertex x) :=
  mcontains_mset _ _ _ _

theorem nbrsOf_addVertex (g : Graph_M) (n x : String) :
    (g.addVertex n).nbrsOf x = if x = n then [] else g.nbrsOf x := by
  unfold Graph_M.addVertex
  by_cases h : x = n
  · subst h
    simp [nbrsOf_mset_self]
  · simp [h, nbrsOf_mset_ne _ _ _ _ h]

theorem wf_addVertex (g : Graph_M) (hwf : g.WF) (n : String) : (g.addVertex n).WF :=
  wf_mset g hwf n [] (by simp)

/-- The lookups of the graph after a replacement of the adjacency map of `k`. -/
theorem mfind_nbrsOf_mset (vt : List (String × Vertex)) (k x y : String)
    (nbrs : List (String × Int)) :
    mfind (Graph_M.nbrsOf ⟨mset vt k ⟨nbrs⟩⟩ x) y =
      if x = k then mfind nbrs y else mfind (Graph_M.nbrsOf ⟨vt⟩ x) y := by
  by_cases h : x = k
  · subst h
    simp [nbrsOf_mset_self]
  · simp [h, nbrsOf_mset_ne _ _ _ _ h]

theorem mfind_mset {V : Type} (m : List (String × V)) (k y : String) (v : V) :
    mfind (mset m k v) y = if y = k then some v else mfind m y := by
  by_cases h : y = k
  · subst h
    simp [mfind_mset_self]
  · simp [h, mfind_mset_ne _ _ _ _ h]

theorem keys_mset_of_contains {V : Type} (m : List (String × V)) (k : String) (v : V)
    (h : mcontains m k = true) : (mset m k v).map Prod.fst = m.map Prod.fst :=
  keys_mset_of_mem _ _ _ ((mfind_isSome_iff _ _).mp h)

/-! ### `addEdge` -/

theorem addEdge_skip (g : Graph_M) (u v : String) (w : Int)
    (h : g.containsVertex u = false ∨ g.containsVertex v = false ∨
      g.containsEdge u v = true) : g.addEdge u v w = g := by
  unfold Graph_M.addEdge
  rcases h with h | h | h
  · have : mcontains g.vtces u = false := h
    simp [this]
  · have : mcontains g.vtces v = false := h
    simp [this]
  · have := ((containsEdge_iff g u v).mp h).2.2
    simp [this]

theorem addEdge_eq (g : Graph_M) (u v : String) (w : Int)
    (hu : g.containsVertex u = true) (hv : g.containsVertex v = true)
    (he : g.containsEdge u v = false) :
    g.addEdge u v w =
      ⟨mset (mset g.vtces u ⟨mset (g.nbrsOf u) v w⟩) v
        ⟨mset (Graph_M.nbrsOf ⟨mset g.vtces u ⟨mset (g.nbrsOf u) v w⟩⟩ v) u w⟩⟩ := by
  have hu1 : mcontains g.vtces u = true := hu
  have hv1 : mcontains g.vtces v = true := hv
  have hnb : mcontains (g.nbrsOf u) v = false := by
    rcases h : mcontains (g.nbrsOf u) v with _ | _
    · rfl
    · rw [(containsEdge_iff g u v).mpr ⟨hu, hv, h⟩] at he
      cases he
  simp [Graph_M.addEdge, hu1, hv1, hnb]

/-- The lookups after an `addEdge(u, v, w)` that is not skipped. -/
theorem addEdge_find (g : Graph_M) (u v : String) (w : Int)
    (hu : g.containsVertex u = true) (hv : g.containsVertex v = true)
    (he : g.containsEdge u v = false) (x y : String) :
    mfind ((g.addEdge u v w).nbrsOf x) y =
      if (x = u ∧ y = v) ∨ (x = v ∧ y = u) then some w else mfind (g.nbrsOf x) y := by
  rw [addEdge_eq g u v w hu hv he, mfind_nbrsOf_mset, mfind_mset, mfind_nbrsOf_mset,
    mfind_nbrsOf_mset, mfind_mset]
  by_cases h1 : x = v <;> by_cases h2 : y = u <;> by_cases h3 : x = u <;>
    by_cases h4 : y = v <;> simp [h1, h2, h3, h4] <;> (try subst h1) <;> (try subst h2) <;>
    (try subst h3) <;> (try subst h4) <;> simp_all

theorem addEdge_keys (g : Graph_M) (u v : String) (w : Int) :
    (g.addEdge u v w).vtces.map Prod.fst = g.vtces.map Prod.fst := by
  rcases hu : g.containsVertex u with _ | _
  · rw [addEdge_skip g u v w (Or.inl hu)]
  · rcases hv : g.containsVertex v with _ | _
    · rw [addEdge_skip g u v w (Or.inr (Or.inl hv))]
    · rcases he : g.containsEdge u v with _ | _
      · rw [addEdge_eq g u v w hu hv he]
        have hv1 : mcontains (mset g.vtces u ⟨mset (g.nbrsOf u) v w⟩) v = true := by
          rw [mcontains_mset]
          have : mcontains g.vtces v = true := hv
          simp [this]
        rw [keys_mset_of_contains _ _ _ hv1, keys_mset_of_contains _ _ _ hu]
      · rw [addEdge_skip g u v w (Or.inr (Or.inr he))]

theorem containsVertex_of_keys (g g1 : Graph_M)
    (h : g1.vtces.map Prod.fst = g.vtces.map Prod.fst) (k : String) :
    g1.containsVertex k = g.containsVertex k :=
  mcontains_congr _ _ h k

theorem wf_addEdge (g : Graph_M) (hwf : g.WF) (u v : String) (w : Int) :
    (g.addEdge u v w).WF := by
  rcases hu : g.containsVertex u with _ | _
  · rw [addEdge_skip g u v w (Or.inl hu)]; exact hwf
  · rcases hv : g.containsVertex v with _ | _
    · rw [addEdge_skip g u v w (Or.inr (Or.inl hv))]; exact hwf
    · rcases he : g.containsEdge u v with _ | _
      · exact (addEdge_new g u v w hwf hu hv he).1
      · rw [addEdge_skip g u v w (Or.inr (Or.inr he))]; exact hwf

/-! ### `removeEdge` -/

theorem removeEdge_skip (g : Graph_M) (u v : String)
    (h : g.containsVertex u = false ∨ g.containsVertex v = false ∨
      g.containsEdge u v = false) : g.removeEdge u v = g := by
  unfold Graph_M.removeEdge
  rcases hu : mcontains g.vtces u with _ | _
  · simp
  · rcases hv : mcontains g.vtces v with _ | _
    · simp
    · rcases hn : mcontains (g.nbrsOf u) v with _ | _
      · simp
      · exfalso
        rcases h with h | h | h
        · have h1 : mcontains g.vtces u = false := h
          rw [hu] at h1
          cases h1
        · have h1 : mcontains g.vtces v = false := h
          rw [hv] at h1
          cases h1
        · rw [(containsEdge_iff g u v).mpr ⟨hu, hv, hn⟩] at h
          cases h

theorem removeEdge_eq (g : Graph_M) (u v : String) (he : g.containsEdge u v = true) :
    g.removeEdge u v =
      ⟨mset (mset g.vtces u ⟨merase (g.nbrsOf u) v⟩) v
        ⟨merase (Graph_M.nbrsOf ⟨mset g.vtces u ⟨merase (g.nbrsOf u) v⟩⟩ v) u⟩⟩ := by
  obtain ⟨hu, hv, hn⟩ := (containsEdge_iff g u v).mp he
  have hu1 : mcontains g.vtces u = true := hu
  have hv1 : mcontains g.vtces v = true := hv
  simp [Graph_M.removeEdge, hu1, hv1, hn]

theorem wf_removeEdge (g : Graph_M) (hwf : g.WF) (u v : String) : (g.removeEdge u v).WF := by
  rcases he : g.containsEdge u v with _ | _
  · rw [removeEdge_skip g u v (Or.inr (Or.inr he))]; exact hwf
  · rw [removeEdge_eq g u v he]
    have hwf1 : Graph_M.WF ⟨mset g.vtces u ⟨merase (g.nbrsOf u) v⟩⟩ :=
      wf_mset g hwf u _ (nodup_keys_merase _ _ (nbrsOf_nodup g hwf u))
    exact wf_mset _ hwf1 v _ (nodup_keys_merase _ _ (nbrsOf_nodup _ hwf1 v))

/-- The lookups after a `removeEdge(u, v)` that is not skipped. -/
theorem removeEdge_find (g : Graph_M) (hwf : g.WF) (u v : String)
    (he : g.containsEdge u v = true) (x y : String) :
    mfind ((g.removeEdge u v).nbrsOf x) y =
      if (x = u ∧ y = v) ∨ (x = v ∧ y = u) then none else mfind (g.nbrsOf x) y := by
  have hwf1 : Graph_M.WF ⟨mset g.vtces u ⟨merase (g.nbrsOf u) v⟩⟩ :=
    wf_mset g hwf u _ (nodup_keys_merase _ _ (nbrsOf_nodup g hwf u))
  rw [removeEdge_eq g u v he, mfind_nbrsOf_mset, mfind_merase _ _ _ (nbrsOf_nodup _ hwf1 v),
    mfind_nbrsOf_mset, mfind_nbrsOf_mset, mfind_merase _ _ _ (nbrsOf_nodup g hwf u)]
  by_cases h1 : x = v <;> by_cases h2 : y = u <;> by_cases h3 : x = u <;>
    by_cases h4 : y = v <;> simp [h1, h2, h3, h4] <;> (try subst h1) <;> (try subst h2) <;>
    (try subst h3) <;> (try subst h4) <;> simp_all

theorem removeEdge_keys (g : Graph_M) (u v : String) :
    (g.removeEdge u v).vtces.map Prod.fst = g.vtces.map Prod.fst := by
  rcases he : g.containsEdge u v with _ | _
  · rw [removeEdge_skip g u v (Or.inr (Or.inr he))]
  · rw [removeEdge_eq g u v he]
    obtain ⟨hu, hv, _⟩ := (containsEdge_iff g u v).mp he
    have hv1 : mcontains (mset g.vtces u ⟨merase (g.nbrsOf u) v⟩) v = true := by
      rw [mcontains_mset]
      have : mcontains g.vtces v = true := hv
      simp [this]
    rw [keys_mset_of_contains _ _ _ hv1, keys_mset_of_contains _ _ _ hu]

/-! ### `removeVertex` -/

theorem eraseNbr_eq (g : Graph_M) (n key : String) (hk : g.containsVertex key = true) :
    g.eraseNbr n key = ⟨mset g.vtces key ⟨merase (g.nbrsOf key) n⟩⟩ := by
  unfold Graph_M.eraseNbr
  simp only [touch_of_vertex g key hk]

/-- The loop of `removeVertex` over the collected keys, all of them vertices: the graph
stays well formed, the vertices stay, and the lookups of `n` in the maps of the keys are
gone. -/
theorem eraseNbr_fold (n : String) :
    ∀ (keys : List String) (g : Graph_M), g.WF →
      (∀ k ∈ keys, g.containsVertex k = true) →
      (keys.foldl (fun acc key => acc.eraseNbr n key) g).WF ∧
      (keys.foldl (fun acc key => acc.eraseNbr n key) g).vtces.map Prod.fst
        = g.vtces.map Prod.fst ∧
      ∀ x y, mfind ((keys.foldl (fun acc key => acc.eraseNbr n key) g).nbrsOf x) y =
        if x ∈ keys ∧ y = n then none else mfind (g.nbrsOf x) y := by
  intro keys
  induction keys with
  | nil =>
    intro g hwf _
    exact ⟨hwf, rfl, fun x y => by simp⟩
  | cons k ks ih =>
    intro g hwf hv
    have hk : g.containsVertex k = true := hv k (List.mem_cons_self _ _)
    have hwf1 : (g.eraseNbr n k).WF := by
      rw [eraseNbr_eq g n k hk]
      exact wf_mset g hwf k _ (nodup_keys_merase _ _ (nbrsOf_nodup g hwf k))
    have hkeys1 : (g.eraseNbr n k).vtces.map Prod.fst = g.vtces.map Prod.fst := by
      rw [eraseNbr_eq g n k hk]
      exact keys_mset_of_contains _ _ _ hk
    have hfind1 : ∀ x y, mfind ((g.eraseNbr n k).nbrsOf x) y =
        if x = k ∧ y = n then none else mfind (g.nbrsOf x) y := by
      intro x y
      rw [eraseNbr_eq g n k hk, mfind_nbrsOf_mset, mfind_merase _ _ _ (nbrsOf_nodup g hwf k)]
      by_cases h1 : x = k <;> by_cases h2 : y = n <;> simp [h1, h2]
    obtain ⟨i1, i2, i3⟩ := ih (g.eraseNbr n k) hwf1 (fun k1 hk1 => by
      rw [containsVertex_of_keys _ _ hkeys1]
      exact hv k1 (List.mem_cons_of_mem _ hk1))
    simp only [List.foldl_cons]
    refine ⟨i1, by rw [i2, hkeys1], ?_⟩
    intro x y
    rw [i3 x y, hfind1 x y]
    by_cases h1 : x = k <;> by_cases h2 : y = n <;> by_cases h3 : x ∈ ks <;>
      simp [h1, h2, h3]

theorem removeVertex_absent (g : Graph_M) (n : String) (hn : g.containsVertex n = false) :
    g.removeVertex n = g := by
  have h1 : mcontains g.vtces n = false := hn
  have h2 : g.touch n = ⟨g.vtces ++ [(n, ⟨[]⟩)]⟩ := by
    unfold Graph_M.touch
    simp [h1, mset_of_not_mem _ _ _ h1]
  have h3 : (g.touch n).nbrsOf n = [] := nbrsOf_touch_new g n hn
  unfold Graph_M.removeVertex
  simp only [h3, List.map_nil, List.foldl_nil]
  rw [h2]
  simp only [merase_append_new _ _ _ h1]

/-- The graph after `removeVertex(n)` on a vertex `n` whose adjacency keys are
vertices. -/
theorem removeVertex_spec (g : Graph_M) (hwf : g.WF) (n : String)
    (hn : g.containsVertex n = true)
    (hcl : ∀ q ∈ g.nbrsOf n, g.containsVertex q.1 = true) :
    (g.removeVertex n).WF ∧
    (∀ x, (g.removeVertex n).containsVertex x = (decide (x ≠ n) && g.containsVertex x)) ∧
    ∀ x y, mfind ((g.removeVertex n).nbrsOf x) y =
      if x = n ∨ (x ∈ (g.nbrsOf n).map Prod.fst ∧ y = n) then none
      else mfind (g.nbrsOf x) y := by
  have hkv : ∀ k ∈ (g.nbrsOf n).map Prod.fst, g.containsVertex k = true := by
    intro k hk
    obtain ⟨q, hq, rfl⟩ := List.mem_map.mp hk
    exact hcl q hq
  obtain ⟨i1, i2, i3⟩ := eraseNbr_fold n ((g.nbrsOf n).map Prod.fst) g hwf hkv
  unfold Graph_M.removeVertex
  simp only [touch_of_vertex g n hn]
  refine ⟨wf_merase _ i1 n, ?_, ?_⟩
  · intro x
    rw [containsVertex_merase _ i1, containsVertex_of_keys _ _ i2]
  · intro x y
    rw [nbrsOf_merase _ i1]
    by_cases h : x = n
    · simp [h, mfind]
    · simp only [h, if_false, false_or]
      exact i3 x y

/-! ### Invariants of the store -/

theorem symFind_of_symmetric (g : Graph_M) (hsym : g.Symmetric) : g.SymFind :=
  fun u v w h => edge_symm g hsym u v w h

theorem symFind_closed (g : Graph_M) (hwf : g.WF) (hs : g.SymFind) (n : String) :
    ∀ q ∈ g.nbrsOf n, g.containsVertex q.1 = true := by
  intro q hq
  have h1 : mfind (g.nbrsOf n) q.1 = some q.2 :=
    mfind_of_mem _ _ _ (nbrsOf_nodup g hwf n) hq
  exact vertex_of_edge g q.1 n q.2 (hs n q.1 q.2 h1)

theorem mem_keys_of_mfind {V : Type} (m : List (String × V)) (k : String) (v : V)
    (h : mfind m k = some v) : k ∈ m.map Prod.fst :=
  List.mem_map.mpr ⟨(k, v), mem_of_mfind _ _ _ h, rfl⟩

theorem symFind_addVertex (g : Graph_M) (hs : g.SymFind) (n : String)
    (hn : g.containsVertex n = false) : (g.addVertex n).SymFind := by
  intro u v w h
  rw [nbrsOf_addVertex] at h ⊢
  by_cases hu : u = n
  · simp [hu, mfind] at h
  · simp only [hu, if_false] at h
    have h1 := hs u v w h
    have hv : v ≠ n := by
      intro e
      rw [e] at h1
      rw [vertex_of_edge g n u w h1] at hn
      cases hn
    simp only [hv, if_false]
    exact h1

theorem symFind_addEdge (g : Graph_M) (hs : g.SymFind) (u v : String) (w : Int) :
    (g.addEdge u v w).SymFind := by
  rcases hu : g.containsVertex u with _ | _
  · rw [addEdge_skip g u v w (Or.inl hu)]; exact hs
  · rcases hv : g.containsVertex v with _ | _
    · rw [addEdge_skip g u v w (Or.inr (Or.inl hv))]; exact hs
    · rcases he : g.containsEdge u v with _ | _
      · intro x y w1 h
        rw [addEdge_find g u v w hu hv he] at h ⊢
        by_cases c : (x = u ∧ y = v) ∨ (x = v ∧ y = u)
        · have c1 : (y = u ∧ x = v) ∨ (y = v ∧ x = u) := by tauto
          simp only [c, if_true] at h
          simp only [c1, if_true]
          exact h
        · have c1 : ¬ ((y = u ∧ x = v) ∨ (y = v ∧ x = u)) := by tauto
          simp only [c, if_false] at h
          simp only [c1, if_false]
          exact hs x y w1 h
      · rw [addEdge_skip g u v w (Or.inr (Or.inr he))]; exact hs

theorem symFind_removeEdge (g : Graph_M) (hwf : g.WF) (hs : g.SymFind) (u v : String) :
    (g.removeEdge u v).SymFind := by
  rcases he : g.containsEdge u v with _ | _
  · rw [removeEdge_skip g u v (Or.inr (Or.inr he))]; exact hs
  · intro x y w1 h
    rw [removeEdge_find g hwf u v he] at h ⊢
    by_cases c : (x = u ∧ y = v) ∨ (x = v ∧ y = u)
    · simp [c] at h
    · have c1 : ¬ ((y = u ∧ x = v) ∨ (y = v ∧ x = u)) := by tauto
      simp only [c, if_false] at h
      simp only [c1, if_false]
      exact hs x y w1 h

/-- The lookups after `removeVertex(n)` in a graph with symmetric adjacency. -/
theorem removeVertex_find (g : Graph_M) (hwf : g.WF) (hs : g.SymFind) (n : String)
    (x y : String) :
    mfind ((g.removeVertex n).nbrsOf x) y =
      if x = n ∨ y = n then none else mfind (g.nbrsOf x) y := by
  rcases hn : g.containsVertex n with _ | _
  · rw [removeVertex_absent g n hn]
    by_cases c : x = n ∨ y = n
    · simp only [c, if_true]
      rcases c with c | c
      · subst c
        rcases hf : mfind (g.nbrsOf x) y with _ | w
        · rfl
        · rw [vertex_of_edge g x y w hf] at hn
          cases hn
      · subst c
        rcases hf : mfind (g.nbrsOf x) y with _ | w
        · rfl
        · rw [vertex_of_edge g y x w (hs x y w hf)] at hn
          cases hn
    · simp only [c, if_false]
  · rw [(removeVertex_spec g hwf n hn (symFind_closed g hwf hs n)).2.2 x y]
    by_cases h1 : x = n
    · simp [h1]
    · by_cases h2 : y = n
      · subst h2
        simp only [h1, false_or, and_true, or_true, if_true]
        split
        · rfl
        · rename_i hx
          rcases hf : mfind (g.nbrsOf x) y with _ | w
          · rfl
          · exact absurd (mem_keys_of_mfind _ _ _ (hs x y w hf)) hx
      · simp [h1, h2]

theorem wf_removeVertex (g : Graph_M) (hwf : g.WF) (hs : g.SymFind) (n : String) :
    (g.removeVertex n).WF := by
  rcases hn : g.containsVertex n with _ | _
  · rw [removeVertex_absent g n hn]; exact hwf
  · exact (removeVertex_spec g hwf n hn (symFind_closed g hwf hs n)).1

theorem containsVertex_removeVertex (g : Graph_M) (hwf : g.WF) (hs : g.SymFind)
    (n x : String) :
    (g.removeVertex n).containsVertex x = (decide (x ≠ n) && g.containsVertex x) := by
  rcases hn : g.containsVertex n with _ | _
  · rw [removeVertex_absent g n hn]
    by_cases h : x = n
    · subst h
      simp [hn]
    · simp [h]
  · exact (removeVertex_spec g hwf n hn (symFind_closed g hwf hs n)).2.1 x

theorem symFind_removeVertex (g : Graph_M) (hwf : g.WF) (hs : g.SymFind) (n : String) :
    (g.removeVertex n).SymFind := by
  intro x y w h
  rw [removeVertex_find g hwf hs] at h ⊢
  by_cases c : x = n ∨ y = n
  · simp [c] at h
  · have c1 : ¬ (y = n ∨ x = n) := by tauto
    simp only [c, if_false] at h
    simp only [c1, if_false]
    exact hs x y w h

/-- Every graph built with `addVertex` on fresh names, `removeVertex`, `addEdge` and
`removeEdge` is well formed and has symmetric adjacency. -/
theorem built_inv (g : Graph_M) (h : Built g) : g.WF ∧ g.SymFind := by
  induction h with
  | empty => exact ⟨by decide, fun u v w h => by simp [Graph_M.nbrsOf, Graph_M.empty, mfind] at h⟩
  | addVertex g n _ hn ih => exact ⟨wf_addVertex g ih.1 n, symFind_addVertex g ih.2 n hn⟩
  | removeVertex g n _ ih =>
    exact ⟨wf_removeVertex g ih.1 ih.2 n, symFind_removeVertex g ih.1 ih.2 n⟩
  | addEdge g u v w _ ih => exact ⟨wf_addEdge g ih.1 u v w, symFind_addEdge g ih.2 u v w⟩
  | removeEdge g u v _ ih =>
    exact ⟨wf_removeEdge g ih.1 u v, symFind_removeEdge g ih.1 ih.2 u v⟩

theorem builtSimple_built (g : Graph_M) (h : BuiltSimple g) : Built g := by
  induction h with
  | empty => exact Built.empty
  | addVertex g n _ hn ih => exact Built.addVertex g n ih hn
  | removeVertex g n _ ih => exact Built.removeVertex g n ih
  | addEdge g u v w _ _ ih => exact Built.addEdge g u v w ih
  | removeEdge g u v _ ih => exact Built.removeEdge g u v ih

theorem builtSimple_noLoop (g : Graph_M) (h : BuiltSimple g) : g.NoLoop := by
  induction h with
  | empty => intro u; simp [Graph_M.nbrsOf, Graph_M.empty, mfind]
  | addVertex g n _ hn ih =>
    intro u
    rw [nbrsOf_addVertex]
    by_cases e : u = n
    · simp [e, mfind]
    · simp only [e, if_false]
      exact ih u
  | removeVertex g n hb ih =>
    intro u
    obtain ⟨hwf, hs⟩ := built_inv g (builtSimple_built g hb)
    rw [removeVertex_find g hwf hs]
    by_cases e : u = n
    · simp [e]
    · simp only [e, or_self, if_false]
      exact ih u
  | addEdge g u v w _ hne ih =>
    rcases hu : g.containsVertex u with _ | _
    · rw [addEdge_skip g u v w (Or.inl hu)]; exact ih
    · rcases hv : g.containsVertex v with _ | _
      · rw [addEdge_skip g u v w (Or.inr (Or.inl hv))]; exact ih
      · rcases he : g.containsEdge u v with _ | _
        · intro x
          rw [addEdge_find g u v w hu hv he]
          have c : ¬ ((x = u ∧ x = v) ∨ (x = v ∧ x = u)) := by
            rintro (⟨h1, h2⟩ | ⟨h1, h2⟩)
            · exact hne (h1.symm.trans h2)
            · exact hne (h2.symm.trans h1)
          simp only [c, if_false]
          exact ih x
        · rw [addEdge_skip g u v w (Or.inr (Or.inr he))]; exact ih
  | removeEdge g u v hb ih =>
    obtain ⟨hwf, _⟩ := built_inv g (builtSimple_built g hb)
    rcases he : g.containsEdge u v with _ | _
    · rw [removeEdge_skip g u v (Or.inr (Or.inr he))]; exact ih
    · intro x
      rw [removeEdge_find g hwf u v he]
      split
      · rfl
      · exact ih x

/-- C15: for every graph, node names `u`, `v` and weight `w`: if `u` is not a vertex, or
`v` is not a vertex, or `containsEdge(u, v)` holds, `addEdge(u, v, w)` leaves the whole
graph unchanged; otherwise afterwards the adjacency of `u` maps `v` to `w`, the adjacency
of `v` maps `u` to `w`, the vertices are the same (in the same order), and every other
adjacency lookup is unchanged. -/
theorem addEdge_spec (g : Graph_M) (u v : String) (w : Int) :
    ((g.containsVertex u = false ∨ g.containsVertex v = false ∨
        g.containsEdge u v = true) → g.addEdge u v w = g) ∧
    (g.containsVertex u = true → g.containsVertex v = true → g.containsEdge u v = false →
      mfind ((g.addEdge u v w).nbrsOf u) v = some w ∧
      mfind ((g.addEdge u v w).nbrsOf v) u = some w ∧
      (g.addEdge u v w).vtces.map Prod.fst = g.vtces.map Prod.fst ∧
      (∀ x, (g.addEdge u v w).containsVertex x = g.containsVertex x) ∧
      ∀ x y, ¬ ((x = u ∧ y = v) ∨ (x = v ∧ y = u)) →
        mfind ((g.addEdge u v w).nbrsOf x) y = mfind (g.nbrsOf x) y) := by
  refine ⟨addEdge_skip g u v w, fun hu hv he => ⟨?_, ?_, addEdge_keys g u v w, ?_, ?_⟩⟩
  · rw [addEdge_find g u v w hu hv he]; simp
  · rw [addEdge_find g u v w hu hv he]; simp
  · exact containsVertex_of_keys g _ (addEdge_keys g u v w)
  · intro x y hxy
    rw [addEdge_find g u v w hu hv he, if_neg hxy]

/-- C15, witness: on the pair graph `A – B` with a third vertex `C`, `addEdge("A", "B", 3)`
changes nothing and `addEdge("A", "C", 3)` stores the weight in both directions. -/
theorem addEdge_spec_witness :
    (pairGraph.addVertex "C").addEdge "A" "B" 3 = pairGraph.addVertex "C" ∧
    (mfind (((pairGraph.addVertex "C").addEdge "A" "C" 3).nbrsOf "A") "C" = some 3 ∧
      mfind (((pairGraph.addVertex "C").addEdge "A" "C" 3).nbrsOf "C") "A" = some 3 ∧
      ((pairGraph.addVertex "C").addEdge "A" "C" 3).vtces.map Prod.fst =
        (pairGraph.addVertex "C").vtces.map Prod.fst ∧
      (∀ x, ((pairGraph.addVertex "C").addEdge "A" "C" 3).containsVertex x =
        (pairGraph.addVertex "C").containsVertex x) ∧
      ∀ x y, ¬ ((x = "A" ∧ y = "C") ∨ (x = "C" ∧ y = "A")) →
        mfind (((pairGraph.addVertex "C").addEdge "A" "C" 3).nbrsOf x) y =
          mfind ((pairGraph.addVertex "C").nbrsOf x) y) :=
  ⟨(addEdge_spec (pairGraph.addVertex "C") "A" "B" 3).1 (Or.inr (Or.inr (by decide))),
    (addEdge_spec (pairGraph.addVertex "C") "A" "C" 3).2 (by decide) (by decide) (by decide)⟩

/-- C16: the sequence `addVertex("A")`, `addVertex("B")`, `addEdge("A", "B", 10)`,
`addVertex("A")` from the empty graph ends in a graph whose adjacency is not symmetric:
the adjacency of `B` maps `A` to `10`, the adjacency of `A` is empty. -/
theorem addVertex_existing_breaks_symmetry :
    pairGraph = ((Graph_M.empty.addVertex "A").addVertex "B").addEdge "A" "B" 10 ∧
    mfind ((pairGraph.addVertex "A").nbrsOf "B") "A" = some 10 ∧
    mfind ((pairGraph.addVertex "A").nbrsOf "A") "B" = none ∧
    ¬ (pairGraph.addVertex "A").SymFind := by
  refine ⟨rfl, by decide, by decide, fun h => ?_⟩
  have h1 := h "B" "A" 10 (by decide)
  revert h1
  decide

/-- The first half of C17: `addVertex` on a name that is not a vertex appends the vertex
with an empty adjacency and changes nothing else. -/
theorem addVertex_fresh (g : Graph_M) (n : String) (h : g.containsVertex n = false) :
    (g.addVertex n).vtces = g.vtces ++ [(n, ⟨[]⟩)] :=
  mset_of_not_mem g.vtces n ⟨[]⟩ h

/-- C17: on the pair graph `A – B`, where `A` is a vertex, `addVertex("A")` is not a
no-op: it empties the adjacency of `A` (the entry `B → A` stays) and `numEdges()` drops
from `1` to `0`. -/
theorem addVertex_existing_resets :
    pairGraph.containsVertex "A" = true ∧
    pairGraph.nbrsOf "A" = [("B", 10)] ∧
    (pairGraph.addVertex "A").nbrsOf "A" = [] ∧
    (pairGraph.addVertex "A").nbrsOf "B" = [("A", 10)] ∧
    pairGraph.addVertex "A" ≠ pairGraph ∧
    pairGraph.numEdges = 1 ∧ (pairGraph.addVertex "A").numEdges = 0 := by
  decide

/-! ### Counting the edges -/

theorem wrapInt_of_range (x : Int) (h0 : 0 ≤ x) (h1 : x ≤ INT_MAX) : wrapInt x = x := by
  unfold wrapInt
  unfold INT_MAX at h1
  omega

theorem foldl_sizes (l : List (String × Vertex)) (c : Int) (h0 : 0 ≤ c)
    (h : c + (((l.map (fun p => p.2.nbrs.length)).sum : Nat) : Int) ≤ INT_MAX) :
    l.foldl (fun count pair => wrapInt (count + pair.2.nbrs.length)) c =
      c + (((l.map (fun p => p.2.nbrs.length)).sum : Nat) : Int) := by
  induction l generalizing c with
  | nil => simp
  | cons a l ih =>
    simp only [List.foldl_cons, List.map_cons, List.sum_cons, Nat.cast_add] at h ⊢
    have hw : wrapInt (c + (a.2.nbrs.length : Int)) = c + (a.2.nbrs.length : Int) :=
      wrapInt_of_range _ (by omega) (by omega)
    rw [hw, ih _ (by omega) (by omega)]
    omega

/-- As long as the sum of the adjacency sizes fits an `int`, `numEdges()` is half of it. -/
theorem numEdges_eq (g : Graph_M) (h : (g.numEntries : Int) ≤ INT_MAX) :
    g.numEdges = ((g.numEntries / 2 : Nat) : Int) := by
  unfold Graph_M.numEdges
  rw [foldl_sizes g.vtces 0 (le_refl 0) (by simpa [Graph_M.numEntries] using h)]
  rw [zero_add]
  exact (Int.ofNat_tdiv _ 2).symm

theorem numEntries_eq_length (g : Graph_M) : g.numEntries = g.entries.length := by
  unfold Graph_M.numEntries Graph_M.entries
  rw [List.length_flatMap]
  congr 1
  apply List.map_congr_left
  intro p _
  simp

theorem mem_entries (g : Graph_M) (x y : String) :
    (x, y) ∈ g.entries ↔ ∃ vtx, (x, vtx) ∈ g.vtces ∧ ∃ w, (y, w) ∈ vtx.nbrs := by
  unfold Graph_M.entries
  simp only [List.mem_flatMap, List.mem_map, Prod.mk.injEq]
  constructor
  · rintro ⟨⟨k, vtx⟩, hp, ⟨k1, w⟩, hq, h1, h2⟩
    simp only at h1 h2
    subst h1
    subst h2
    exact ⟨vtx, hp, w, hq⟩
  · rintro ⟨vtx, hp, w, hq⟩
    exact ⟨(x, vtx), hp, (y, w), hq, rfl, rfl⟩

theorem mem_entries_find (g : Graph_M) (hwf : g.WF) (x y : String) :
    (x, y) ∈ g.entries ↔ ∃ w, mfind (g.nbrsOf x) y = some w := by
  rw [mem_entries]
  constructor
  · rintro ⟨vtx, hp, w, hq⟩
    have h1 := nbrsOf_of_mem g hwf (x, vtx) hp
    simp only at h1
    refine ⟨w, ?_⟩
    rw [h1]
    exact mfind_of_mem _ _ _ (hwf.2 (x, vtx) hp) hq
  · rintro ⟨w, h⟩
    obtain ⟨vtx, h1, h2⟩ := nbrsOf_mem g x (y, w) (mem_of_mfind _ _ _ h)
    exact ⟨vtx, h1, w, h2⟩

theorem entries_nodup (g : Graph_M) (hwf : g.WF) : g.entries.Nodup := by
  unfold Graph_M.entries
  rw [List.nodup_flatMap]
  constructor
  · intro p hp
    have h1 := hwf.2 p hp
    rw [List.nodup_map_iff_inj_on (List.Nodup.of_map _ h1)]
    intro a ha b hb hab
    simp only [Prod.mk.injEq, true_and] at hab
    exact List.inj_on_of_nodup_map h1 ha hb hab
  · have h1 := hwf.1
    unfold List.Nodup at h1
    rw [List.pairwise_map] at h1
    refine h1.imp ?_
    intro a b hab
    simp only [Function.onFun]
    intro e he1 he2
    simp only [List.mem_map] at he1 he2
    obtain ⟨q1, _, hq1⟩ := he1
    obtain ⟨q2, _, hq2⟩ := he2
    rw [← hq2] at hq1
    simp only [Prod.mk.injEq] at hq1
    exact hab hq1.1

theorem mem_edgeSet (g : Graph_M) (e : Sym2 String) :
    e ∈ g.edgeSet ↔ ∃ x y, (x, y) ∈ g.entries ∧ e = s(x, y) := by
  unfold Graph_M.edgeSet
  simp only [List.mem_toFinset, List.mem_map]
  constructor
  · rintro ⟨⟨x, y⟩, h1, h2⟩
    exact ⟨x, y, h1, h2.symm⟩
  · rintro ⟨x, y, h1, h2⟩
    exact ⟨(x, y), h1, h2.symm⟩

/-- In a well formed graph with symmetric adjacency and without an edge from a node to
itself, every unordered pair is stored as two adjacency entries. -/
theorem numEntries_eq_card (g : Graph_M) (hwf : g.WF) (hs : g.SymFind) (hn : g.NoLoop) :
    g.numEntries = 2 * g.edgeSet.card := by
  have hE : g.edgeSet = g.entries.toFinset.image (fun e => s(e.1, e.2)) := by
    unfold Graph_M.edgeSet
    ext e
    simp
  rw [numEntries_eq_length, ← List.toFinset_card_of_nodup (entries_nodup g hwf), hE,
    Finset.card_eq_sum_card_image (fun e : String × String => s(e.1, e.2)) g.entries.toFinset,
    Finset.sum_const_nat (m := 2), Nat.mul_comm]
  intro b hb
  obtain ⟨⟨x, y⟩, hxy, rfl⟩ := Finset.mem_image.mp hb
  rw [List.mem_toFinset] at hxy
  obtain ⟨w, hw⟩ := (mem_entries_find g hwf x y).mp hxy
  have hyx : (y, x) ∈ g.entries := (mem_entries_find g hwf y x).mpr ⟨w, hs x y w hw⟩
  have hne : x ≠ y := by
    intro e
    subst e
    rw [hn x] at hw
    cases hw
  have hfib : g.entries.toFinset.filter (fun a => s(a.1, a.2) = s(x, y)) =
      {(x, y), (y, x)} := by
    ext ⟨a, b⟩
    simp only [Finset.mem_filter, List.mem_toFinset, Finset.mem_insert,
      Finset.mem_singleton, Prod.mk.injEq, Sym2.eq_iff]
    constructor
    · rintro ⟨_, h⟩
      exact h
    · rintro (⟨h1, h2⟩ | ⟨h1, h2⟩)
      · subst h1; subst h2
        exact ⟨hxy, Or.inl ⟨rfl, rfl⟩⟩
      · subst h1; subst h2
        exact ⟨hyx, Or.inr ⟨rfl, rfl⟩⟩
  rw [hfib]
  exact Finset.card_pair (fun h => hne (Prod.mk.injEq _ _ _ _ ▸ h).1)

theorem noLoop_of_loopFree (g : Graph_M) (h : g.LoopFree) : g.NoLoop := by
  intro u
  rcases hf : mfind (g.nbrsOf u) u with _ | w
  · rfl
  · obtain ⟨vtx, h1, h2⟩ := nbrsOf_mem g u (u, w) (mem_of_mfind _ _ _ hf)
    exact absurd rfl (h (u, vtx) h1 (u, w) h2)

theorem mem_edgeSet_find (g : Graph_M) (hwf : g.WF) (e : Sym2 String) :
    e ∈ g.edgeSet ↔ ∃ x y w, mfind (g.nbrsOf x) y = some w ∧ e = s(x, y) := by
  rw [mem_edgeSet]
  constructor
  · rintro ⟨x, y, h1, h2⟩
    obtain ⟨w, hw⟩ := (mem_entries_find g hwf x y).mp h1
    exact ⟨x, y, w, hw, h2⟩
  · rintro ⟨x, y, w, hw, h2⟩
    exact ⟨x, y, (mem_entries_find g hwf x y).mpr ⟨w, hw⟩, h2⟩

theorem containsEdge_of_find (g : Graph_M) (hs : g.SymFind) (x y : String) (w : Int)
    (h : mfind (g.nbrsOf x) y = some w) : g.containsEdge x y = true := by
  rw [containsEdge_iff]
  refine ⟨vertex_of_edge g x y w h, vertex_of_edge g y x w (hs x y w h), ?_⟩
  unfold mcontains
  rw [h]
  rfl

theorem find_of_containsEdge (g : Graph_M) (x y : String) (h : g.containsEdge x y = true) :
    ∃ w, mfind (g.nbrsOf x) y = some w := by
  have h1 := ((containsEdge_iff g x y).mp h).2.2
  unfold mcontains at h1
  exact Option.isSome_iff_exists.mp h1

/-- The edges after `removeVertex(n)`: the edges that do not contain `n`. -/
theorem edgeSet_removeVertex (g : Graph_M) (hwf : g.WF) (hs : g.SymFind) (n : String) :
    (g.removeVertex n).edgeSet = g.edgeSet.filter (fun e => n ∉ e) := by
  ext e
  rw [Finset.mem_filter, mem_edgeSet_find _ (wf_removeVertex g hwf hs n),
    mem_edgeSet_find g hwf]
  constructor
  · rintro ⟨x, y, w, hw, rfl⟩
    rw [removeVertex_find g hwf hs] at hw
    by_cases c : x = n ∨ y = n
    · simp [c] at hw
    · simp only [c, if_false] at hw
      refine ⟨⟨x, y, w, hw, rfl⟩, ?_⟩
      rw [Sym2.mem_iff]
      rintro (h | h)
      · exact c (Or.inl h.symm)
      · exact c (Or.inr h.symm)
  · rintro ⟨⟨x, y, w, hw, rfl⟩, hn⟩
    rw [Sym2.mem_iff] at hn
    have c : ¬ (x = n ∨ y = n) := by
      rintro (h | h)
      · exact hn (Or.inl h.symm)
      · exact hn (Or.inr h.symm)
    refine ⟨x, y, w, ?_, rfl⟩
    rw [removeVertex_find g hwf hs, if_neg c]
    exact hw

/-- The edges after an `addEdge(u, v, w)` that is not skipped: one more, `{u, v}`. -/
theorem edgeSet_addEdge (g : Graph_M) (hwf : g.WF) (hs : g.SymFind) (u v : String) (w : Int)
    (hu : g.containsVertex u = true) (hv : g.containsVertex v = true)
    (he : g.containsEdge u v = false) :
    (g.addEdge u v w).edgeSet = insert s(u, v) g.edgeSet ∧ s(u, v) ∉ g.edgeSet := by
  constructor
  · ext e
    rw [Finset.mem_insert, mem_edgeSet_find _ (wf_addEdge g hwf u v w),
      mem_edgeSet_find g hwf]
    constructor
    · rintro ⟨x, y, w1, hw, rfl⟩
      rw [addEdge_find g u v w hu hv he] at hw
      by_cases c : (x = u ∧ y = v) ∨ (x = v ∧ y = u)
      · left
        rw [Sym2.eq_iff]
        exact c
      · rw [if_neg c] at hw
        exact Or.inr ⟨x, y, w1, hw, rfl⟩
    · rintro (rfl | ⟨x, y, w1, hw, rfl⟩)
      · refine ⟨u, v, w, ?_, rfl⟩
        rw [addEdge_find g u v w hu hv he]
        simp
      · by_cases c : (x = u ∧ y = v) ∨ (x = v ∧ y = u)
        · refine ⟨x, y, w, ?_, rfl⟩
          rw [addEdge_find g u v w hu hv he, if_pos c]
        · refine ⟨x, y, w1, ?_, rfl⟩
          rw [addEdge_find g u v w hu hv he, if_neg c]
          exact hw
  · rw [mem_edgeSet_find g hwf]
    rintro ⟨x, y, w1, hw, h⟩
    rw [Sym2.eq_iff] at h
    rcases h with ⟨h1, h2⟩ | ⟨h1, h2⟩
    · subst h1; subst h2
      rw [containsEdge_of_find g hs _ _ w1 hw] at he
      cases he
    · subst h1; subst h2
      rw [containsEdge_of_find g hs _ _ w1 (hs _ _ w1 hw)] at he
      cases he

theorem numEdges_eq_card (g : Graph_M) (hwf : g.WF) (hs : g.SymFind) (hn : g.NoLoop)
    (hsize : (g.numEntries : Int) ≤ INT_MAX) : g.numEdges = (g.edgeSet.card : Int) := by
  rw [numEdges_eq g hsize, numEntries_eq_card g hwf hs hn]
  simp

/-- C18 as stated fails on the numEdges part: in the graph with the vertex `A` joined to
itself and the isolated vertex `N` (symmetric adjacency, every adjacency key a vertex),
the edge `{A, A}` is not incident to `N` and is still there after `removeVertex("N")`,
while `numEdges()` is `0`. -/
theorem removeVertex_numEdges_counterexample :
    loopGraph.WF ∧ loopGraph.Symmetric ∧
    (loopGraph.removeVertex "N").containsEdge "A" "A" = true ∧
    (loopGraph.edgeSet.filter (fun e => "N" ∉ e)).card = 1 ∧
    (loopGraph.removeVertex "N").numEdges = 0 := by
  decide

/-- C18, amended: for every graph with symmetric adjacency (which makes every adjacency
key a vertex), without an edge from a node to itself and whose adjacency sizes sum to at
most `INT_MAX`, and every name `n`: after `removeVertex(n)`, `containsVertex(n)` is false,
no adjacency contains `n`, `containsEdge(n, x)` and `containsEdge(x, n)` are false for
every `x`, the other vertices and every adjacency lookup between names other than `n` are
unchanged, and `numEdges()` is the number of edges of the original graph that do not
contain `n`; if `n` was not a vertex the graph is unchanged. -/
theorem removeVertex_post (g : Graph_M) (hwf : g.WF) (hsym : g.Symmetric)
    (hlf : g.LoopFree) (hsize : (g.numEntries : Int) ≤ INT_MAX) (n : String) :
    (g.removeVertex n).containsVertex n = false ∧
    (∀ x, mcontains ((g.removeVertex n).nbrsOf x) n = false) ∧
    (∀ x, (g.removeVertex n).containsEdge n x = false ∧
      (g.removeVertex n).containsEdge x n = false) ∧
    (∀ x, x ≠ n → (g.removeVertex n).containsVertex x = g.containsVertex x) ∧
    (∀ x y, x ≠ n → y ≠ n →
      mfind ((g.removeVertex n).nbrsOf x) y = mfind (g.nbrsOf x) y) ∧
    (g.removeVertex n).numEdges = ((g.edgeSet.filter (fun e => n ∉ e)).card : Int) ∧
    (g.containsVertex n = false → g.removeVertex n = g) := by
  have hs := symFind_of_symmetric g hsym
  have hnl := noLoop_of_loopFree g hlf
  have hwf1 := wf_removeVertex g hwf hs n
  have hs1 := symFind_removeVertex g hwf hs n
  have hcv : (g.removeVertex n).containsVertex n = false := by
    rw [containsVertex_removeVertex g hwf hs]
    simp
  have hnl1 : (g.removeVertex n).NoLoop := by
    intro u
    rw [removeVertex_find g hwf hs]
    split
    · rfl
    · exact hnl u
  have hset := edgeSet_removeVertex g hwf hs n
  have hle : (g.removeVertex n).numEntries ≤ g.numEntries := by
    rw [numEntries_eq_card _ hwf1 hs1 hnl1, numEntries_eq_card g hwf hs hnl, hset]
    exact Nat.mul_le_mul_left 2 (Finset.card_le_card (Finset.filter_subset _ _))
  refine ⟨hcv, ?_, ?_, ?_, ?_, ?_, removeVertex_absent g n⟩
  · intro x
    rw [mcontains_false_iff, removeVertex_find g hwf hs]
    simp
  · intro x
    constructor
    · rcases h : (g.removeVertex n).containsEdge n x with _ | _
      · rfl
      · rw [((containsEdge_iff _ _ _).mp h).1] at hcv
        cases hcv
    · rcases h : (g.removeVertex n).containsEdge x n with _ | _
      · rfl
      · rw [((containsEdge_iff _ _ _).mp h).2.1] at hcv
        cases hcv
  · intro x hx
    rw [containsVertex_removeVertex g hwf hs]
    simp [hx]
  · intro x y hx hy
    rw [removeVertex_find g hwf hs]
    simp [hx, hy]
  · rw [numEdges_eq_card _ hwf1 hs1 hnl1 (by omega), hset]

/-- C18, witness: the triangle `A`, `B`, `C` with the isolated vertex `D`, and `n = B`:
of the three edges only `{A, C}` does not contain `B`. -/
theorem removeVertex_post_witness :
    triangleGraph.WF ∧ triangleGraph.Symmetric ∧ triangleGraph.LoopFree ∧
    ((triangleGraph.numEntries : Int) ≤ INT_MAX) ∧
    (triangleGraph.edgeSet.filter (fun e => "B" ∉ e)).card = 1 ∧
    ((triangleGraph.removeVertex "B").containsVertex "B" = false ∧
    (∀ x, mcontains ((triangleGraph.removeVertex "B").nbrsOf x) "B" = false) ∧
    (∀ x, (triangleGraph.removeVertex "B").containsEdge "B" x = false ∧
      (triangleGraph.removeVertex "B").containsEdge x "B" = false) ∧
    (∀ x, x ≠ "B" →
      (triangleGraph.removeVertex "B").containsVertex x = triangleGraph.containsVertex x) ∧
    (∀ x y, x ≠ "B" → y ≠ "B" →
      mfind ((triangleGraph.removeVertex "B").nbrsOf x) y =
        mfind (triangleGraph.nbrsOf x) y) ∧
    (triangleGraph.removeVertex "B").numEdges =
      ((triangleGraph.edgeSet.filter (fun e => "B" ∉ e)).card : Int) ∧
    (triangleGraph.containsVertex "B" = false →
      triangleGraph.removeVertex "B" = triangleGraph)) :=
  ⟨by decide, by decide, by decide, by decide, by decide,
    removeVertex_post triangleGraph (by decide) (by decide) (by decide) (by decide) "B"⟩

/-- C19 as stated fails for an edge from a node to itself: `addEdge("A", "A", 1)` on the
graph with the vertices `A` and `N` is not a no-op (afterwards `containsEdge("A", "A")`
holds and there is one unordered pair with an edge), it stores one adjacency entry, and
`numEdges()` stays `0`. -/
theorem numEdges_selfLoop_counterexample :
    loopGraph = ((Graph_M.empty.addVertex "A").addVertex "N").addEdge "A" "A" 1 ∧
    ((Graph_M.empty.addVertex "A").addVertex "N").containsEdge "A" "A" = false ∧
    ((Graph_M.empty.addVertex "A").addVertex "N").numEdges = 0 ∧
    loopGraph.containsEdge "A" "A" = true ∧
    loopGraph.numEntries = 1 ∧ loopGraph.edgeSet.card = 1 ∧
    loopGraph.numEdges = 0 := by
  decide

/-- C19, amended: in every graph reachable from the empty graph by `addVertex` on fresh
names, `addEdge` between two distinct names, `removeEdge` and `removeVertex`, whose
adjacency sizes sum to at most `INT_MAX`, each undirected edge is stored exactly twice and
`numEdges()` is the number of distinct unordered pairs `{u, v}` with `containsEdge(u, v)`;
every `addEdge(u, v, w)` with `u ≠ v` that is not a no-op increases `numEdges()` by
exactly `1`. -/
theorem numEdges_pairs (g : Graph_M) (hb : BuiltSimple g)
    (hsize : (g.numEntries : Int) ≤ INT_MAX) :
    g.numEntries = 2 * g.edgeSet.card ∧
    g.numEdges = (g.edgeSet.card : Int) ∧
    (∀ e, e ∈ g.edgeSet ↔ ∃ u v, g.containsEdge u v = true ∧ e = s(u, v)) ∧
    ∀ u v w, u ≠ v → g.containsVertex u = true → g.containsVertex v = true →
      g.containsEdge u v = false → ((g.addEdge u v w).numEntries : Int) ≤ INT_MAX →
      (g.addEdge u v w).numEdges = g.numEdges + 1 := by
  obtain ⟨hwf, hs⟩ := built_inv g (builtSimple_built g hb)
  have hnl := builtSimple_noLoop g hb
  refine ⟨numEntries_eq_card g hwf hs hnl, numEdges_eq_card g hwf hs hnl hsize, ?_, ?_⟩
  · intro e
    rw [mem_edgeSet_find g hwf]
    constructor
    · rintro ⟨x, y, w, hw, h⟩
      exact ⟨x, y, containsEdge_of_find g hs x y w hw, h⟩
    · rintro ⟨x, y, hc, h⟩
      obtain ⟨w, hw⟩ := find_of_containsEdge g x y hc
      exact ⟨x, y, w, hw, h⟩
  · intro u v w hne hu hv he hsize1
    have hb1 : BuiltSimple (g.addEdge u v w) := BuiltSimple.addEdge g u v w hb hne
    obtain ⟨hwf1, hs1⟩ := built_inv _ (builtSimple_built _ hb1)
    obtain ⟨hset, hnew⟩ := edgeSet_addEdge g hwf hs u v w hu hv he
    rw [numEdges_eq_card _ hwf1 hs1 (builtSimple_noLoop _ hb1) hsize1,
      numEdges_eq_card g hwf hs hnl hsize, hset, Finset.card_insert_of_not_mem hnew]
    simp

/-- C19, witness: the pair graph `A – B` with a third vertex `C`, and `addEdge("A", "C", 3)`. -/
theorem numEdges_pairs_witness :
    BuiltSimple (pairGraph.addVertex "C") ∧
    (((pairGraph.addVertex "C").numEntries : Int) ≤ INT_MAX) ∧
    (pairGraph.addVertex "C").numEdges = 1 ∧
    ((pairGraph.addVertex "C").addEdge "A" "C" 3).numEdges = 2 ∧
    ((pairGraph.addVertex "C").numEntries = 2 * (pairGraph.addVertex "C").edgeSet.card ∧
    (pairGraph.addVertex "C").numEdges = ((pairGraph.addVertex "C").edgeSet.card : Int) ∧
    (∀ e, e ∈ (pairGraph.addVertex "C").edgeSet ↔
      ∃ u v, (pairGraph.addVertex "C").containsEdge u v = true ∧ e = s(u, v)) ∧
    ∀ u v w, u ≠ v → (pairGraph.addVertex "C").containsVertex u = true →
      (pairGraph.addVertex "C").containsVertex v = true →
      (pairGraph.addVertex "C").containsEdge u v = false →
      ((((pairGraph.addVertex "C").addEdge u v w).numEntries : Int) ≤ INT_MAX) →
      ((pairGraph.addVertex "C").addEdge u v w).numEdges =
        (pairGraph.addVertex "C").numEdges + 1) :=
  have hb : BuiltSimple (pairGraph.addVertex "C") :=
    BuiltSimple.addVertex _ "C"
      (BuiltSimple.addEdge _ "A" "B" 10
        (BuiltSimple.addVertex _ "B"
          (BuiltSimple.addVertex _ "A" BuiltSimple.empty (by decide)) (by decide))
        (by decide))
      (by decide)
  ⟨hb, by decide, by decide, by decide,
    numEdges_pairs (pairGraph.addVertex "C") hb (by decide)⟩

/-! ### The stack searches `getMinimumDistance` and `getMinimumTime` -/

theorem renderPath_snoc (p : List String) (hp : p ≠ []) (v : String) :
    renderPath (p ++ [v]) = renderPath p ++ v ++ "  " := by
  cases p with
  | nil => exact absurd rfl hp
  | cons a p => simp [renderPath, List.foldl_append]

theorem route_ne_nil (g : Graph_M) (nan : Bool) (src y : String) (p : List String) (c : Int)
    (h : Route g nan src y p c) : p ≠ [] := by
  intro e
  have := route_last_mem g nan src y p c h
  rw [e] at this
  cases this

theorem pushFrame_vname (nan : Bool) (rp : Pair) (v : String) (w : Int) :
    (pushFrame nan rp v w).vname = v := by
  unfold pushFrame
  split <;> rfl

theorem pushFrame_psf (nan : Bool) (rp : Pair) (v : String) (w : Int) :
    (pushFrame nan rp v w).psf = rp.psf ++ v ++ "  " := by
  unfold pushFrame
  split <;> rfl

theorem pushFrame_total (nan : Bool) (rp : Pair) (v : String) (w : Int) :
    (pushFrame nan rp v w).total nan = newCost nan (rp.total nan) w := by
  cases nan <;> rfl

theorem pushNbrs_spec (nan : Bool) (rp : Pair) (l : List (String × Int)) :
    ∀ (stack : List Pair) (P : List (String × Bool)),
    (∀ k, pget (pushNbrs nan rp l stack P).2 k = pget P k) ∧
    (∀ f, f ∈ (pushNbrs nan rp l stack P).1 ↔
      f ∈ stack ∨ ∃ q ∈ l, pget P q.1 = false ∧ f = pushFrame nan rp q.1 q.2) ∧
    (pushNbrs nan rp l stack P).1.length ≤ stack.length + l.length := by
  induction l with
  | nil =>
    intro stack P
    simp [pushNbrs]
  | cons a l ih =>
    intro stack P
    obtain ⟨nbr, w⟩ := a
    by_cases hp : pget P nbr = false
    · obtain ⟨h1, h2, h3⟩ := ih (pushFrame nan rp nbr w :: stack) (ptouch P nbr)
      rw [pushNbrs, if_pos hp]
      refine ⟨fun k => by rw [h1, pget_ptouch], fun f => ?_, ?_⟩
      · rw [h2]
        simp only [pget_ptouch, List.mem_cons, exists_eq_or_imp]
        constructor
        · rintro ((h | h) | h)
          · exact Or.inr (Or.inl ⟨hp, h⟩)
          · exact Or.inl h
          · exact Or.inr (Or.inr h)
        · rintro (h | ⟨_, h⟩ | h)
          · exact Or.inl (Or.inr h)
          · exact Or.inl (Or.inl h)
          · exact Or.inr h
      · simp only [List.length_cons] at h3 ⊢
        omega
    · obtain ⟨h1, h2, h3⟩ := ih stack (ptouch P nbr)
      rw [pushNbrs, if_neg hp]
      refine ⟨fun k => by rw [h1, pget_ptouch], fun f => ?_, ?_⟩
      · rw [h2]
        simp only [pget_ptouch, List.mem_cons, exists_eq_or_imp]
        constructor
        · rintro (h | h)
          · exact Or.inl h
          · exact Or.inr (Or.inr h)
        · rintro (h | ⟨h, _⟩ | h)
          · exact Or.inl h
          · exact absurd h hp
          · exact Or.inr h
      · simp only [List.length_cons]
        omega

theorem pget_mark (P : List (String × Bool)) (u k : String) :
    pget (mset P u true) k = (decide (k = u) || pget P k) := by
  by_cases h : k = u
  · subst h
    simp [pget_mset_self]
  · simp [h, pget_mset_ne P u k true h]

theorem sum_filter_le {α : Type} (d : α → Nat) (f1 f2 : α → Bool)
    (h : ∀ a, f1 a = true → f2 a = true) (l : List α) :
    ((l.filter f1).map d).sum ≤ ((l.filter f2).map d).sum := by
  induction l with
  | nil => simp
  | cons a l ih =>
    rcases h1 : f1 a with _ | _
    · rcases h2 : f2 a with _ | _
      · simp only [List.filter_cons, h1, h2, Bool.false_eq_true, if_false]
        exact ih
      · simp only [List.filter_cons, h1, h2, Bool.false_eq_true, if_false, if_true,
          List.map_cons, List.sum_cons]
        omega
    · simp only [List.filter_cons, h1, h a h1, if_true, List.map_cons, List.sum_cons]
      omega

theorem sum_filter_mem {α : Type} (d : α → Nat) (f1 f2 : α → Bool)
    (h : ∀ a, f1 a = true → f2 a = true) (l : List α) (x : α) (hx : x ∈ l)
    (h1 : f1 x = false) (h2 : f2 x = true) :
    ((l.filter f1).map d).sum + d x ≤ ((l.filter f2).map d).sum := by
  induction l with
  | nil => cases hx
  | cons a l ih =>
    rcases List.mem_cons.mp hx with e | e
    · subst e
      have := sum_filter_le d f1 f2 h l
      simp only [List.filter_cons, h1, h2, Bool.false_eq_true, if_false, if_true,
        List.map_cons, List.sum_cons]
      omega
    · have := ih e
      have h3 := sum_filter_le d f1 f2 h [a]
      rcases h4 : f1 a with _ | _
      · rcases h5 : f2 a with _ | _
        · simp only [List.filter_cons, h4, h5, Bool.false_eq_true, if_false]
          exact this
        · simp only [List.filter_cons, h4, h5, Bool.false_eq_true, if_false, if_true,
            List.map_cons, List.sum_cons]
          omega
      · simp only [List.filter_cons, h4, h a h4, if_true, List.map_cons, List.sum_cons]
        omega

theorem mark_imp (P : List (String × Bool)) (u : String) (a : String × Vertex)
    (h : (!pget (mset P u true) a.1) = true) : (!pget P a.1) = true := by
  rw [pget_mark] at h
  rcases h2 : pget P a.1 with _ | _
  · rfl
  · rw [h2] at h
    simp at h

theorem undeg_mark_le (g : Graph_M) (P : List (String × Bool)) (u : String) :
    undeg g (mset P u true) ≤ undeg g P :=
  sum_filter_le _ _ _ (mark_imp P u) g.vtces

theorem undeg_mark (g : Graph_M) (P : List (String × Bool)) (u : String)
    (hv : g.containsVertex u = true) (hu : pget P u = false) :
    undeg g (mset P u true) + (g.nbrsOf u).length ≤ undeg g P := by
  unfold Graph_M.containsVertex mcontains at hv
  obtain ⟨vtx, hf⟩ := Option.isSome_iff_exists.mp hv
  have hn : g.nbrsOf u = vtx.nbrs := by
    unfold Graph_M.nbrsOf
    rw [hf]
  rw [hn]
  exact sum_filter_mem (fun p : String × Vertex => p.2.nbrs.length) _ _ (mark_imp P u)
    g.vtces (u, vtx) (mem_of_mfind _ _ _ hf) (by simp [pget_mset_self]) (by simp [hu])

theorem undeg_nil (g : Graph_M) : undeg g [] = g.numEntries := by
  unfold undeg Graph_M.numEntries
  have : ∀ p : String × Vertex, (!pget [] p.1) = true := fun p => rfl
  simp [this]

theorem undeg_congr (g : Graph_M) (P P1 : List (String × Bool))
    (h : ∀ k, pget P1 k = pget P k) : undeg g P1 = undeg g P := by
  unfold undeg
  congr 2
  apply List.filter_congr
  intro a _
  rw [h]

theorem frameOk_mono (g : Graph_M) (nan : Bool) (src : String)
    (P P1 : List (String × Bool)) (f : Pair)
    (hm : ∀ k, pget P k = true → pget P1 k = true) (h : FrameOk g nan src P f) :
    FrameOk g nan src P1 f := by
  obtain ⟨p, c, h1, h2, h3, h4, h5⟩ := h
  exact ⟨p, c, h1, h2, h3, h4, fun x hx hne => hm x (h5 x hx hne)⟩

theorem cover_step (P P1 : List (String × Bool)) (rp : Pair) (stack stack1 : List Pair)
    (hm : ∀ k, pget P k = true → pget P1 k = true) (hrp : pget P1 rp.vname = true)
    (hsub : ∀ f ∈ stack, f ∈ stack1) (k : String)
    (h : pget P k = true ∨ ∃ f ∈ rp :: stack, f.vname = k) :
    pget P1 k = true ∨ ∃ f ∈ stack1, f.vname = k := by
  rcases h with h | ⟨f, hf, hk⟩
  · exact Or.inl (hm k h)
  · rcases List.mem_cons.mp hf with e | e
    · left
      rw [← hk, e]
      exact hrp
    · exact Or.inr ⟨f, hsub f e, hk⟩

theorem pget_mark_true (P : List (String × Bool)) (u k : String)
    (h : pget (mset P u true) k = true) : k = u ∨ pget P k = true := by
  rw [pget_mark] at h
  by_cases e : k = u
  · exact Or.inl e
  · right
    simpa [e] using h

theorem pget_mark_mono (P : List (String × Bool)) (u k : String) (h : pget P k = true) :
    pget (mset P u true) k = true := by
  rw [pget_mark, h]
  simp

/-- The frame pushed for an adjacency entry whose key is unmarked extends the route of the
popped frame by that entry. -/
theorem frameOk_push (g : Graph_M) (nan : Bool) (src : String) (hwf : g.WF)
    (hnn : g.NonNeg) (hb : g.CostsBelowMax nan) (P : List (String × Bool)) (rp : Pair)
    (hrp : FrameOk g nan src P rp) (q : String × Int) (hq : q ∈ g.nbrsOf rp.vname)
    (hun : pget (mset P rp.vname true) q.1 = false) :
    FrameOk g nan src (mset P rp.vname true) (pushFrame nan rp q.1 q.2) := by
  obtain ⟨p, c, hr, hnd, hpsf, htot, hint⟩ := hrp
  have hfind : mfind (g.nbrsOf rp.vname) q.1 = some q.2 :=
    mfind_of_mem _ _ _ (nbrsOf_nodup g hwf _) hq
  have hroute : Route g nan src q.1 (p ++ [q.1]) (c + edgeCost nan q.2) :=
    Route.step hr hfind
  have hmark : ∀ x ∈ p, pget (mset P rp.vname true) x = true := by
    intro x hx
    by_cases e : x = rp.vname
    · rw [e]
      exact pget_mset_self P rp.vname
    · exact pget_mark_mono P _ x (hint x hx e)
  have hnot : q.1 ∉ p := by
    intro hm
    rw [hmark q.1 hm] at hun
    cases hun
  have hnd1 : (p ++ [q.1]).Nodup := by
    rw [List.nodup_append]
    refine ⟨hnd, List.nodup_singleton _, ?_⟩
    intro a ha hb1
    rw [List.mem_singleton] at hb1
    rw [hb1] at ha
    exact hnot ha
  refine ⟨p ++ [q.1], c + edgeCost nan q.2, ?_, hnd1, ?_, ?_, ?_⟩
  · rw [pushFrame_vname]
    exact hroute
  · rw [pushFrame_psf, hpsf, renderPath_snoc p (route_ne_nil g nan src _ p c hr)]
  · rw [pushFrame_total, htot]
    exact newCost_eq nan c q.2 (route_cost_nonneg g hnn nan src _ p c hr)
      (weight_nonneg g hnn _ _ _ hfind) (le_of_lt (hb _ _ _ _ hroute hnd1))
  · intro x hx hne
    rw [pushFrame_vname] at hne
    rcases List.mem_append.mp hx with h | h
    · exact hmark x h
    · rw [List.mem_singleton] at h
      exact absurd h hne

/-- The loop of the stack searches returns, with the graph unchanged, in a state that
satisfies the invariant with an empty stack. -/
theorem searchLoop_spec (g : Graph_M) (nan : Bool) (src dst : String) (hwf : g.WF)
    (hsym : g.Symmetric) (hnn : g.NonNeg) (hb : g.CostsBelowMax nan) :
    ∀ (fuel : Nat) (stack : List Pair) (P : List (String × Bool)) (ans : String) (min : Int),
      SInv g nan src dst stack P ans min → stack.length + undeg g P < fuel →
      ∃ ans1 min1 P1, searchLoop nan dst fuel stack P ans min g = some (ans1, min1, g) ∧
        SInv g nan src dst [] P1 ans1 min1 := by
  intro fuel
  induction fuel with
  | zero =>
    intro stack P ans min _ hlt
    omega
  | succ fuel ih =>
    intro stack P ans min inv hlt
    cases stack with
    | nil => exact ⟨ans, min, P, rfl, inv⟩
    | cons rp stack =>
      rw [searchLoop]
      simp only [List.length_cons] at hlt
      by_cases hpr : pget P rp.vname = true
      · rw [if_pos hpr]
        refine ih stack P ans min ⟨fun f hf => inv.frames f (List.mem_cons_of_mem _ hf),
          inv.answer, ?_, ?_⟩ (by omega)
        · intro u hu hud q hq
          exact cover_step P P rp stack stack (fun _ h => h) hpr (fun _ h => h) q.1
            (inv.complete u hu hud q hq)
        · exact cover_step P P rp stack stack (fun _ h => h) hpr (fun _ h => h) src
            inv.source
      · rw [if_neg hpr]
        have hfalse : pget P rp.vname = false := by
          rcases h : pget P rp.vname with _ | _
          · rfl
          · exact absurd h hpr
        have hrp := inv.frames rp (List.mem_cons_self _ _)
        have hself : pget (mset P rp.vname true) rp.vname = true := pget_mset_self P rp.vname
        by_cases hd : rp.vname = dst
        · simp only [if_pos hd]
          obtain ⟨p, c, hr, hnd, hpsf, htot, _⟩ := hrp
          have hc : c < INT_MAX := hb _ _ _ _ hr hnd
          have hmin : min = INT_MAX := by
            rcases inv.answer with ⟨_, _, h⟩ | ⟨h, _⟩
            · exact h
            · rw [← hd, hfalse] at h
              cases h
          rw [if_pos (by rw [htot, hmin]; exact hc)]
          refine ih stack (mset P rp.vname true) rp.psf (rp.total nan) ⟨?_, ?_, ?_, ?_⟩
            (by have := undeg_mark_le g P rp.vname; omega)
          · intro f hf
            exact frameOk_mono g nan src P _ f (pget_mark_mono P rp.vname)
              (inv.frames f (List.mem_cons_of_mem _ hf))
          · right
            refine ⟨by rw [← hd]; exact hself, p, c, ?_, hnd, hpsf, htot⟩
            rw [← hd]
            exact hr
          · intro u hu hud q hq
            rcases pget_mark_true P rp.vname u hu with e | e
            · exact absurd (e.trans hd) hud
            · exact cover_step P _ rp stack stack (pget_mark_mono P rp.vname) hself
                (fun _ h => h) q.1 (inv.complete u e hud q hq)
          · exact cover_step P _ rp stack stack (pget_mark_mono P rp.vname) hself
              (fun _ h => h) src inv.source
        · simp only [if_neg hd]
          have hv : g.containsVertex rp.vname = true := by
            obtain ⟨p, c, hr, _⟩ := hrp
            exact route_dst_vertex g hsym nan src rp.vname p c hr
          rw [touch_of_vertex g rp.vname hv]
          obtain ⟨hP, hmem, hlen⟩ :=
            pushNbrs_spec nan rp (g.nbrsOf rp.vname) stack (mset P rp.vname true)
          have hmono : ∀ k, pget P k = true →
              pget (pushNbrs nan rp (g.nbrsOf rp.vname) stack (mset P rp.vname true)).2 k
                = true := by
            intro k hk
            rw [hP]
            exact pget_mark_mono P rp.vname k hk
          have hsub : ∀ f ∈ stack,
              f ∈ (pushNbrs nan rp (g.nbrsOf rp.vname) stack (mset P rp.vname true)).1 :=
            fun f hf => (hmem f).mpr (Or.inl hf)
          refine ih _ _ ans min ⟨?_, ?_, ?_, ?_⟩ ?_
          · intro f hf
            rcases (hmem f).mp hf with h | ⟨q, hq, hun, rfl⟩
            · exact frameOk_mono g nan src P _ f hmono
                (inv.frames f (List.mem_cons_of_mem _ h))
            · exact frameOk_mono g nan src (mset P rp.vname true) _ _
                (fun k hk => by rw [hP]; exact hk)
                (frameOk_push g nan src hwf hnn hb P rp hrp q hq hun)
          · rcases inv.answer with ⟨h1, h2, h3⟩ | ⟨h1, h2⟩
            · left
              refine ⟨?_, h2, h3⟩
              rw [hP, pget_mset_ne P rp.vname dst true (fun e => hd e.symm)]
              exact h1
            · exact Or.inr ⟨hmono dst h1, h2⟩
          · intro u hu hud q hq
            rw [hP] at hu
            rcases pget_mark_true P rp.vname u hu with e | e
            · rw [e] at hq
              rcases hun : pget (mset P rp.vname true) q.1 with _ | _
              · right
                exact ⟨pushFrame nan rp q.1 q.2, (hmem _).mpr (Or.inr ⟨q, hq, hun, rfl⟩),
                  pushFrame_vname nan rp q.1 q.2⟩
              · left
                rw [hP]
                exact hun
            · exact cover_step P _ rp stack _ hmono (by rw [hP]; exact hself) hsub q.1
                (inv.complete u e hud q hq)
          · exact cover_step P _ rp stack _ hmono (by rw [hP]; exact hself) hsub src
              inv.source
          · have h1 := undeg_mark g P rp.vname hv hfalse
            rw [undeg_congr g (mset P rp.vname true) _ hP]
            omega

theorem route_head (g : Graph_M) (nan : Bool) (src y : String) (p : List String) (c : Int)
    (h : Route g nan src y p c) : p.head? = some src := by
  induction h with
  | start _ => rfl
  | @step x y p c w hr _ ih =>
    cases p with
    | nil => exact absurd rfl (route_ne_nil g nan src x [] c hr)
    | cons a p => exact ih

theorem route_getLast (g : Graph_M) (nan : Bool) (src y : String) (p : List String)
    (c : Int) (h : Route g nan src y p c) : p.getLast? = some y := by
  cases h with
  | start _ => rfl
  | step _ _ => simp

theorem route_chain (g : Graph_M) (hsym : g.Symmetric) (nan : Bool) (src y : String)
    (p : List String) (c : Int) (h : Route g nan src y p c) :
    List.Chain' (fun a b => g.containsEdge a b = true) p := by
  induction h with
  | start _ => exact List.chain'_singleton _
  | @step x y p c w hr hw ih =>
    rw [List.chain'_append]
    refine ⟨ih, List.chain'_singleton _, ?_⟩
    intro a ha b hb
    rw [route_getLast g nan src x p c hr] at ha
    simp only [Option.mem_def, Option.some.injEq, List.head?_cons] at ha hb
    rw [← ha, ← hb]
    exact containsEdge_of_find g (symFind_of_symmetric g hsym) x y w hw

theorem pathWeight_snoc (g : Graph_M) (p : List String) (x y : String)
    (h : p.getLast? = some x) :
    pathWeight g (p ++ [y]) = pathWeight g p + (mfind (g.nbrsOf x) y).getD 0 := by
  induction p with
  | nil => cases h
  | cons a p ih =>
    cases p with
    | nil =>
      simp only [List.getLast?_singleton, Option.some.injEq] at h
      subst h
      simp [pathWeight]
    | cons b p =>
      have h1 : (b :: p).getLast? = some x := by
        rw [← h]
        simp [List.getLast?_cons_cons]
      have := ih h1
      simp only [List.cons_append] at this ⊢
      simp only [pathWeight]
      rw [this]
      ring

/-- The cost of a route in distance mode is the sum of the weights along its nodes. -/
theorem route_pathWeight (g : Graph_M) (src y : String) (p : List String) (c : Int)
    (h : Route g false src y p c) : pathWeight g p = c := by
  induction h with
  | start _ => rfl
  | @step x y p c w hr hw ih =>
    rw [pathWeight_snoc g p x y (route_getLast g false src x p c hr), ih, hw]
    rfl

/-- Where the invariant holds with an empty stack, every node joined to `src` by a route
is marked, unless `dst` is. -/
theorem sinv_final (g : Graph_M) (nan : Bool) (src dst : String)
    (P : List (String × Bool)) (ans : String) (min : Int)
    (inv : SInv g nan src dst [] P ans min) (y : String) (p : List String) (c : Int)
    (h : Route g nan src y p c) : pget P y = true ∨ pget P dst = true := by
  induction h with
  | start _ =>
    rcases inv.source with h | ⟨f, hf, _⟩
    · exact Or.inl h
    · cases hf
  | @step x y p c w hr hw ih =>
    rcases ih with h | h
    · by_cases e : x = dst
      · right
        rw [← e]
        exact h
      · rcases inv.complete x h e (y, w) (mem_of_mfind _ _ _ hw) with h1 | ⟨f, hf, _⟩
        · exact Or.inl h1
        · cases hf
    · exact Or.inr h

/-- The two stack searches return, and the `ans` and `min` they return record a route
from `src` to `dst` that repeats no node, and its cost. -/
theorem stackSearch_spec (g : Graph_M) (nan : Bool) (src dst : String) (hwf : g.WF)
    (hsym : g.Symmetric) (hnn : g.NonNeg) (hb : g.CostsBelowMax nan)
    (hjoin : ∃ p c, Route g nan src dst p c) :
    ∃ p c, g.stackSearch nan src dst = some (renderPath p, c, g) ∧
      Route g nan src dst p c ∧ p.Nodup := by
  obtain ⟨p0, c0, hr0⟩ := hjoin
  have hsrc := route_src_vertex g nan src dst p0 c0 hr0
  have hstart : Route g nan src src [src] 0 := Route.start hsrc
  have inv0 : SInv g nan src dst [⟨src, src ++ "  ", 0, 0⟩] [] "" INT_MAX := by
    refine ⟨?_, Or.inl ⟨rfl, rfl, rfl⟩, ?_, Or.inr ⟨_, List.mem_singleton.mpr rfl, rfl⟩⟩
    · intro f hf
      rw [List.mem_singleton] at hf
      subst hf
      refine ⟨[src], 0, hstart, List.nodup_singleton _, rfl, ?_, ?_⟩
      · cases nan <;> rfl
      · intro x hx hne
        rw [List.mem_singleton] at hx
        exact absurd hx hne
    · intro u hu
      cases hu
  obtain ⟨ans1, min1, P1, hrun, inv1⟩ :=
    searchLoop_spec g nan src dst hwf hsym hnn hb (g.numEntries + 2) _ [] "" INT_MAX inv0
      (by rw [undeg_nil, List.length_singleton]; omega)
  have hdst : pget P1 dst = true := by
    rcases sinv_final g nan src dst P1 ans1 min1 inv1 dst p0 c0 hr0 with h | h <;> exact h
  rcases inv1.answer with ⟨h, _⟩ | ⟨_, p, c, hr, hnd, hans, hmin⟩
  · rw [hdst] at h
    cases h
  · refine ⟨p, c, ?_, hr, hnd⟩
    unfold Graph_M.stackSearch
    rw [hrun, hans, hmin]

/-- C20: for every graph with unique keys, symmetric adjacency, non-negative weights and
all path costs below `INT_MAX`, whatever the iteration order of its maps, and every `src`
and `dst` joined by a route, `getMinimumDistance(src, dst)` returns (the graph unchanged)
the spelling of a sequence of nodes `p` followed by a total `c`, where `p` starts with
`src`, ends with `dst`, repeats no node, every two consecutive nodes of `p` are adjacent,
`c` is the sum of the edge weights along `p`, and `dijkstra(src, dst, false)` is at most
`c`. -/
theorem getMinimumDistance_simple_path (H : StlHeap) (g : Graph_M) (hwf : g.WF)
    (hsym : g.Symmetric) (hnn : g.NonNeg) (hb : g.CostsBelowMax false) (src dst : String)
    (hjoin : ∃ p c, Route g false src dst p c) :
    ∃ p c, g.getMinimumDistance src dst = some (renderPath p ++ toString c, g) ∧
      p.head? = some src ∧ p.getLast? = some dst ∧ p.Nodup ∧
      List.Chain' (fun a b => g.containsEdge a b = true) p ∧
      pathWeight g p = c ∧ Route g false src dst p c ∧
      ∃ d, g.dijkstra H src dst false = some d ∧ d ≤ c := by
  obtain ⟨p, c, hrun, hr, hnd⟩ := stackSearch_spec g false src dst hwf hsym hnn hb hjoin
  obtain ⟨d, hd, hmin⟩ := dijkstra_correct H g false src dst hwf hnn (hb src) hjoin
    (route_dst_vertex g hsym false src dst p c hr)
  refine ⟨p, c, ?_, route_head g false src dst p c hr, route_getLast g false src dst p c hr,
    hnd, route_chain g hsym false src dst p c hr, route_pathWeight g src dst p c hr, hr,
    d, hd, hmin.2 p c hr⟩
  unfold Graph_M.getMinimumDistance
  rw [hrun]
  rfl

/-- C20, witness: the triangle `A – B – C`, `A – C` with the isolated vertex `D`, from
`A` to `C`. -/
theorem getMinimumDistance_simple_path_witness :
    triangleGraph.WF ∧ triangleGraph.Symmetric ∧ triangleGraph.NonNeg ∧
    triangleGraph.CostsBelowMax false ∧
    (∃ p c, Route triangleGraph false "A" "C" p c) ∧
    ∃ p c, triangleGraph.getMinimumDistance "A" "C" =
        some (renderPath p ++ toString c, triangleGraph) ∧
      p.head? = some "A" ∧ p.getLast? = some "C" ∧ p.Nodup ∧
      List.Chain' (fun a b => triangleGraph.containsEdge a b = true) p ∧
      pathWeight triangleGraph p = c ∧ Route triangleGraph false "A" "C" p c ∧
      ∃ d, triangleGraph.dijkstra refHeap "A" "C" false = some d ∧ d ≤ c :=
  have hb : triangleGraph.CostsBelowMax false :=
    costsBelowMax_of_total triangleGraph (by decide) (by decide) false (by decide)
  have hj : ∃ p c, Route triangleGraph false "A" "C" p c :=
    ⟨_, _, Route.step (Route.start (by decide))
      (show mfind (triangleGraph.nbrsOf "A") "C" = some 5 by decide)⟩
  ⟨by decide, by decide, by decide, hb, hj,
    getMinimumDistance_simple_path refHeap triangleGraph (by decide) (by decide) (by decide)
      hb "A" "C" hj⟩

/-! ### Trees -/

theorem route_prefix (g : Graph_M) (nan : Bool) (a x : String) (q : List String) (c : Int)
    (h : Route g nan a x q c) (b : String) (hb : b ∈ q) :
    ∃ q2 c2, Route g nan a b q2 c2 ∧ q2 <+: q := by
  induction h with
  | start hs =>
    rw [List.mem_singleton] at hb
    subst hb
    exact ⟨[b], 0, Route.start hs, List.prefix_refl _⟩
  | @step x y q c w hr hw ih =>
    by_cases e : b ∈ q
    · obtain ⟨q2, c2, h1, h2⟩ := ih e
      exact ⟨q2, c2, h1, h2.trans (List.prefix_append _ _)⟩
    · rcases List.mem_append.mp hb with h1 | h1
      · exact absurd h1 e
      · rw [List.mem_singleton] at h1
        subst h1
        exact ⟨q ++ [b], _, Route.step hr hw, List.prefix_refl _⟩

/-- Every route contains a route between the same nodes that repeats no node. -/
theorem route_simplify (g : Graph_M) (nan : Bool) (a b : String) (p : List String) (c : Int)
    (h : Route g nan a b p c) :
    ∃ p1 c1, Route g nan a b p1 c1 ∧ p1.Nodup ∧ p1 ⊆ p := by
  induction h with
  | start hs => exact ⟨[a], 0, Route.start hs, List.nodup_singleton _, List.Subset.refl _⟩
  | @step x y q c w hr hw ih =>
    obtain ⟨q1, c1, h1, hnd, hsub⟩ := ih
    by_cases e : y ∈ q1
    · obtain ⟨q2, c2, h2, hpre⟩ := route_prefix g nan a x q1 c1 h1 y e
      refine ⟨q2, c2, h2, ?_, ?_⟩
      · exact (List.IsPrefix.sublist hpre).nodup hnd
      · intro z hz
        exact List.mem_append_left _ (hsub (hpre.subset hz))
    · have hroute : Route g nan a y (q1 ++ [y]) (c1 + edgeCost nan w) := Route.step h1 hw
      refine ⟨q1 ++ [y], _, hroute, ?_, ?_⟩
      · rw [List.nodup_append]
        refine ⟨hnd, List.nodup_singleton _, ?_⟩
        intro z hz hz1
        rw [List.mem_singleton] at hz1
        rw [hz1] at hz
        exact e hz
      · intro z hz
        rcases List.mem_append.mp hz with h3 | h3
        · exact List.mem_append_left _ (hsub h3)
        · exact List.mem_append_right _ h3

/-- The cost of a route is determined by its nodes. -/
theorem route_cost_unique (g : Graph_M) (nan : Bool) (s y : String) (p : List String)
    (c : Int) (h : Route g nan s y p c) :
    ∀ (p1 : List String) (c1 : Int), Route g nan s y p1 c1 → p1 = p → c1 = c := by
  induction h with
  | start _ =>
    intro p1 c1 h1 he
    cases h1 with
    | start _ => rfl
    | @step x _ q c2 w hr hw =>
      have := route_ne_nil g nan s x q c2 hr
      cases q with
      | nil => exact absurd rfl this
      | cons a q => simp at he
  | @step x y q c w hr hw ih =>
    intro p1 c1 h1 he
    cases h1 with
    | start _ =>
      have := route_ne_nil g nan _ x q c hr
      cases q with
      | nil => exact absurd rfl this
      | cons a q => simp at he
    | @step x1 _ q1 c2 w1 hr1 hw1 =>
      have hq : q1 = q := List.append_inj_left' he rfl
      subst hq
      have hx : x1 = x := by
        have h2 := route_getLast g nan s x1 q1 c2 hr1
        rw [route_getLast g nan s x q1 c hr] at h2
        exact (Option.some.inj h2).symm
      subst hx
      rw [hw] at hw1
      cases hw1
      rw [ih q1 c2 hr1 rfl]

theorem mem_of_head (p : List String) (s : String) (h : p.head? = some s) : s ∈ p := by
  cases p with
  | nil => cases h
  | cons a p =>
    simp only [List.head?_cons, Option.some.injEq] at h
    rw [h]
    exact List.mem_cons_self _ _

theorem not_nodup_snoc_head (g : Graph_M) (nan : Bool) (s x : String) (q : List String)
    (c : Int) (h : Route g nan s x q c) : ¬ (q ++ [s]).Nodup := by
  intro hnd
  rw [List.nodup_append] at hnd
  exact hnd.2.2 (mem_of_head q s (route_head g nan s x q c h)) (List.mem_singleton.mpr rfl)

/-- In an acyclic graph with symmetric adjacency, two routes between the same nodes that
repeat no node are the same. -/
theorem tree_unique (g : Graph_M) (hsym : g.Symmetric) (hac : g.Acyclic) (s y : String)
    (p : List String) (c : Int) (h : Route g false s y p c) :
    p.Nodup → ∀ (p1 : List String) (c1 : Int), Route g false s y p1 c1 → p1.Nodup →
      p1 = p := by
  induction h with
  | start _ =>
    intro _ p1 c1 h1 hnd1
    cases h1 with
    | start _ => rfl
    | @step x _ q c2 w hr hw => exact absurd hnd1 (not_nodup_snoc_head g false s x q c2 hr)
  | @step x y q c w hr hw ih =>
    intro hnd p1 c1 h1 hnd1
    cases h1 with
    | start _ => exact absurd hnd (not_nodup_snoc_head g false _ x q c hr)
    | @step x1 _ q1 c2 w1 hr1 hw1 =>
      have hq := List.nodup_append.mp hnd
      have hq1 := List.nodup_append.mp hnd1
      by_cases e : x1 = x
      · subst e
        rw [ih hq.1 q1 c2 hr1 hq1.1]
      · exfalso
        have hwalk := route_append g false x1 s x q1.reverse q c2 c
          (route_reverse g hsym false s x1 q1 c2 hr1) hr
        obtain ⟨p2, c3, hr2, hnd2, hsub⟩ := route_simplify g false x1 x _ _ hwalk
        have hy : y ∉ p2 := by
          intro hm
          rcases List.mem_append.mp (hsub hm) with h3 | h3
          · exact hq1.2.2 (List.mem_reverse.mp h3) (List.mem_singleton.mpr rfl)
          · exact hq.2.2 (List.mem_of_mem_tail h3) (List.mem_singleton.mpr rfl)
        have hroute : Route g false x1 y (p2 ++ [y]) (c3 + edgeCost false w) :=
          Route.step hr2 hw
        have hnd3 : (p2 ++ [y]).Nodup := by
          rw [List.nodup_append]
          refine ⟨hnd2, List.nodup_singleton _, ?_⟩
          intro z hz hz1
          rw [List.mem_singleton] at hz1
          rw [hz1] at hz
          exact hy hz
        have hlen : 3 ≤ (p2 ++ [y]).length := by
          have hh := route_head g false x1 x p2 c3 hr2
          have hl := route_getLast g false x1 x p2 c3 hr2
          cases p2 with
          | nil => cases hh
          | cons a p2 =>
            cases p2 with
            | nil =>
              simp only [List.head?_cons, List.getLast?_singleton, Option.some.injEq] at hh hl
              exact absurd (hh.symm.trans hl) e
            | cons b p2 => simp
        have hnone := hac.2 x1 y _ _ hroute hnd3 hlen
        rw [edge_symm g hsym x1 y w1 hw1] at hnone
        cases hnone

theorem connected_of_root (g : Graph_M) (hsym : g.Symmetric) (r : String)
    (h : ∀ v, g.containsVertex v = true → ∃ p c, Route g false r v p c) : g.Connected := by
  intro u v hu hv
  obtain ⟨p1, c1, h1⟩ := h u hu
  obtain ⟨p2, c2, h2⟩ := h v hv
  exact ⟨_, _, route_append g false u r v _ _ _ _ (route_reverse g hsym false r u p1 c1 h1) h2⟩

theorem mem_keys_of_containsVertex (g : Graph_M) (u : String)
    (h : g.containsVertex u = true) : u ∈ g.vtces.map Prod.fst :=
  (mfind_isSome_iff _ _).mp h

/-- A test for small graphs: where no node at the end of two consecutive edges has a
neighbour besides the node before it, there is no cycle. -/
theorem acyclic_of_local (g : Graph_M) (hsym : g.Symmetric) (hlf : g.LoopFree)
    (h : ∀ a ∈ g.vtces.map Prod.fst, ∀ x ∈ g.vtces.map Prod.fst,
      ∀ v ∈ g.vtces.map Prod.fst, ∀ u ∈ g.vtces.map Prod.fst,
      (mfind (g.nbrsOf a) x).isSome = true → (mfind (g.nbrsOf x) v).isSome = true →
      a ≠ v → u ≠ x → u ≠ v → mfind (g.nbrsOf v) u = none) : g.Acyclic := by
  refine ⟨hlf, ?_⟩
  intro u v p c hr hnd hlen
  have hhead := route_head g false u v p c hr
  cases hr with
  | start _ => simp at hlen
  | @step x _ q c1 w hr1 hw =>
    cases hr1 with
    | start _ => simp at hlen
    | @step a _ q0 c2 w0 hr0 hw0 =>
      have hu0 := mem_of_head q0 u (route_head g false u a q0 c2 hr0)
      have ha0 := route_last_mem g false u a q0 c2 hr0
      simp only [List.append_assoc, List.singleton_append] at hnd
      rw [List.nodup_append] at hnd
      obtain ⟨_, hxv, hdis⟩ := hnd
      have hux : u ≠ x := fun e => hdis hu0 (by rw [e]; simp)
      have huv : u ≠ v := fun e => hdis hu0 (by rw [e]; simp)
      have hav : a ≠ v := fun e => hdis ha0 (by rw [e]; simp)
      exact h a (mem_keys_of_containsVertex g a (vertex_of_edge g a x w0 hw0))
        x (mem_keys_of_containsVertex g x (vertex_of_edge g x v w hw))
        v (mem_keys_of_containsVertex g v
          (vertex_of_edge g v x w (edge_symm g hsym x v w hw)))
        u (mem_keys_of_containsVertex g u (route_src_vertex g false u a q0 c2 hr0))
        (by rw [hw0]; rfl) (by rw [hw]; rfl) hav hux huv

theorem chainGraph_isTree : chainGraph.IsTree := by
  refine ⟨by decide, ?_, acyclic_of_local chainGraph (by decide) (by decide) (by decide)⟩
  apply connected_of_root chainGraph (by decide) "A"
  intro v hv
  have hA : Route chainGraph false "A" "A" ["A"] 0 := Route.start (by decide)
  have hB : Route chainGraph false "A" "B" (["A"] ++ ["B"]) (0 + edgeCost false 3) :=
    Route.step hA (by decide)
  have hm := mem_keys_of_containsVertex chainGraph v hv
  have hk : chainGraph.vtces.map Prod.fst = ["A", "B", "C"] := by decide
  rw [hk] at hm
  simp only [List.mem_cons, List.mem_singleton, List.not_mem_nil, or_false] at hm
  rcases hm with e | e | e
  · subst e
    exact ⟨_, _, hA⟩
  · subst e
    exact ⟨_, _, hB⟩
  · subst e
    exact ⟨_, _, Route.step hB (show mfind (chainGraph.nbrsOf "B") "C" = some 4 by decide)⟩

/-- C12: for every tree (symmetric adjacency, connected, acyclic) with unique keys,
non-negative weights and all path costs below `INT_MAX`, whatever the iteration order of
its maps, and all vertices `src`, `dst`: `getMinimumDistance(src, dst)` returns the
spelling of the one route from `src` to `dst` that repeats no node, followed by
`dijkstra(src, dst, false)`; and the best time with which `getMinimumTime(src, dst)`
leaves its loop is `dijkstra(src, dst, true)`. -/
theorem tree_search_eq_dijkstra (H : StlHeap) (g : Graph_M) (hwf : g.WF) (ht : g.IsTree)
    (hnn : g.NonNeg) (hb : ∀ nan, g.CostsBelowMax nan) (src dst : String)
    (hsrc : g.containsVertex src = true) (hdst : g.containsVertex dst = true) :
    (∃ p c, g.getMinimumDistance src dst = some (renderPath p ++ toString c, g) ∧
      Route g false src dst p c ∧ p.Nodup ∧
      (∀ p1 c1, Route g false src dst p1 c1 → p1.Nodup → p1 = p) ∧
      g.dijkstra H src dst false = some c) ∧
    (∃ p t, g.getMinimumTimeRecord src dst = some (renderPath p, t, g) ∧
      g.dijkstra H src dst true = some t) := by
  have hsym := ht.symmetric
  have hjoin := ht.connected src dst hsrc hdst
  constructor
  · obtain ⟨p, c, hrun, hr, hnd⟩ :=
      stackSearch_spec g false src dst hwf hsym hnn (hb false) hjoin
    obtain ⟨d, hd, ⟨p0, hr0, hnd0⟩, _⟩ :=
      dijkstra_correct H g false src dst hwf hnn (hb false src) hjoin hdst
    have huniq := tree_unique g hsym ht.acyclic src dst p c hr hnd
    refine ⟨p, c, ?_, hr, hnd, huniq, ?_⟩
    · unfold Graph_M.getMinimumDistance
      rw [hrun]
      rfl
    · rw [hd, route_cost_unique g false src dst p c hr p0 d hr0 (huniq p0 d hr0 hnd0)]
  · obtain ⟨p1, c1, hr1⟩ := hjoin
    obtain ⟨c2, hr2⟩ := hr1.mode true
    obtain ⟨p, t, hrun, hr, hnd⟩ :=
      stackSearch_spec g true src dst hwf hsym hnn (hb true) ⟨p1, c2, hr2⟩
    obtain ⟨d, hd, ⟨p0, hr0, hnd0⟩, _⟩ :=
      dijkstra_correct H g true src dst hwf hnn (hb true src) ⟨p1, c2, hr2⟩ hdst
    obtain ⟨c3, hr3⟩ := hr.mode false
    obtain ⟨c4, hr4⟩ := hr0.mode false
    have hp : p0 = p := tree_unique g hsym ht.acyclic src dst p c3 hr3 hnd p0 c4 hr4 hnd0
    refine ⟨p, t, hrun, ?_⟩
    rw [hd, route_cost_unique g true src dst p t hr p0 d hr0 hp]

/-- C12, witness: the chain `A – B – C` with the weights `3` and `4`, from `A` to `C`. -/
theorem tree_search_eq_dijkstra_witness :
    chainGraph.WF ∧ chainGraph.IsTree ∧ chainGraph.NonNeg ∧
    (∀ nan, chainGraph.CostsBelowMax nan) ∧
    chainGraph.containsVertex "A" = true ∧ chainGraph.containsVertex "C" = true ∧
    chainGraph.getMinimumDistance "A" "C" = some ("A  B  C  7", chainGraph) ∧
    chainGraph.dijkstra refHeap "A" "C" false = some 7 ∧
    ((∃ p c, chainGraph.getMinimumDistance "A" "C" =
        some (renderPath p ++ toString c, chainGraph) ∧
      Route chainGraph false "A" "C" p c ∧ p.Nodup ∧
      (∀ p1 c1, Route chainGraph false "A" "C" p1 c1 → p1.Nodup → p1 = p) ∧
      chainGraph.dijkstra refHeap "A" "C" false = some c) ∧
    (∃ p t, chainGraph.getMinimumTimeRecord "A" "C" = some (renderPath p, t, chainGraph) ∧
      chainGraph.dijkstra refHeap "A" "C" true = some t)) :=
  have hb : ∀ nan, chainGraph.CostsBelowMax nan := fun nan =>
    costsBelowMax_of_total chainGraph (by decide) (by decide) nan
      (by cases nan <;> decide)
  ⟨by decide, chainGraph_isTree, by decide, hb, by decide, by decide, by decide, by decide,
    tree_search_eq_dijkstra refHeap chainGraph (by decide) chainGraph_isTree (by decide) hb
      "A" "C" (by decide) (by decide)⟩

/-! ### Index safety of `getInterchanges` -/

theorem tokensFrom_ne_nil (cs : List Char) :
    ∀ cur : List Char, (cur ≠ [] ∨ ∃ c ∈ cs, c ≠ ' ') → tokensFrom cs cur ≠ [] := by
  induction cs with
  | nil =>
    intro cur h
    rcases h with h | ⟨c, hc, _⟩
    · simp [tokensFrom, h]
    · cases hc
  | cons a cs ih =>
    intro cur h
    by_cases ha : a = ' '
    · by_cases hcur : cur = []
      · simp only [tokensFrom, ha, if_true, hcur]
        apply ih
        right
        rcases h with h | ⟨c, hc, hne⟩
        · exact absurd hcur h
        · rcases List.mem_cons.mp hc with e | e
          · exact absurd (e.trans ha) hne
          · exact ⟨c, e, hne⟩
      · simp [tokensFrom, ha, hcur]
    · simp only [tokensFrom, ha, if_false]
      apply ih
      left
      simp

theorem interLoop_total (res : List String) :
    ∀ (fuel i : Nat) (arr : List String) (count : Int),
      1 ≤ i → i ≤ res.length → res.length + 1 < fuel + i →
      ∃ mid count1, interLoop res fuel i arr count = some (arr ++ mid, count1) := by
  intro fuel
  induction fuel with
  | zero =>
    intro i arr count _ h2 h3
    omega
  | succ fuel ih =>
    intro i arr count h1 h2 h3
    rw [interLoop]
    by_cases hi : i < res.length - 1
    · rw [if_pos hi]
      have e1 : res[i]? = some (res[i]) := List.getElem?_eq_getElem (by omega)
      have e2 : res[i - 1]? = some (res[i - 1]) := List.getElem?_eq_getElem (by omega)
      have e3 : res[i + 1]? = some (res[i + 1]) := List.getElem?_eq_getElem (by omega)
      rw [e1]
      simp only [e2, e3]
      split
      · split
        · obtain ⟨mid, c1, h⟩ := ih (i + 1) (arr ++ [res[i]]) count (by omega) (by omega)
            (by omega)
          exact ⟨res[i] :: mid, c1, by rw [h]; simp⟩
        · obtain ⟨mid, c1, h⟩ := ih (i + 1 + 1) (arr ++ [res[i] ++ " ==> " ++ res[i + 1]])
            (addInt count 1) (by omega) (by omega) (by omega)
          exact ⟨(res[i] ++ " ==> " ++ res[i + 1]) :: mid, c1, by rw [h]; simp⟩
      · obtain ⟨mid, c1, h⟩ := ih (i + 1) (arr ++ [res[i]]) count (by omega) (by omega)
          (by omega)
        exact ⟨res[i] :: mid, c1, by rw [h]; simp⟩
    · rw [if_neg hi]
      exact ⟨[], count, by simp⟩

/-- The shape of the result of `getInterchanges` on a string with a token. -/
theorem getInterchanges_shape (str : String) (h : tokens str ≠ []) :
    ∃ (first last : String) (mid : List String) (count : Int),
      (tokens str).head? = some first ∧
      (tokens str).getLast? = some last ∧
      getInterchanges str = some (first :: mid ++ [toString count, last]) := by
  unfold getInterchanges
  generalize tokens str = res at h
  cases res with
  | nil => exact absurd rfl h
  | cons a res =>
    obtain ⟨mid, c1, hl⟩ := interLoop_total (a :: res) ((a :: res).length + 1) 1 [a] 0
      (le_refl 1) (by simp) (by omega)
    have hlast : (a :: res).getLast? = some ((a :: res).getLast (by simp)) :=
      List.getLast?_eq_getLast _ _
    refine ⟨a, (a :: res).getLast (by simp), mid, c1, rfl, hlast, ?_⟩
    simp only [List.getElem?_cons_zero, hlast, hl]
    simp

theorem toDigitsCore_suffix (fuel : Nat) :
    ∀ (n : Nat) (ds : List Char), ds <:+ Nat.toDigitsCore 10 fuel n ds := by
  induction fuel with
  | zero => intro n ds; exact List.suffix_refl _
  | succ fuel ih =>
    intro n ds
    rw [Nat.toDigitsCore]
    split
    · exact List.suffix_cons _ _
    · exact (List.suffix_cons _ _).trans (ih _ _)

theorem digitChar_ne_space (k : Nat) (h : k < 10) : Nat.digitChar k ≠ ' ' := by
  interval_cases k <;> decide

theorem toString_nat_mem (n : Nat) : ∃ c ∈ (toString n).data, c ≠ ' ' := by
  refine ⟨Nat.digitChar (n % 10), ?_, digitChar_ne_space _ (Nat.mod_lt _ (by decide))⟩
  show Nat.digitChar (n % 10) ∈ (Nat.repr n).data
  unfold Nat.repr Nat.toDigits
  rw [Nat.toDigitsCore]
  simp only [List.asString]
  split
  · simp
  · exact (toDigitsCore_suffix n _ _).subset (List.mem_cons_self _ _)

theorem toString_int_mem (n : Int) : ∃ c ∈ (toString n).data, c ≠ ' ' := by
  cases n with
  | ofNat m => exact toString_nat_mem m
  | negSucc m =>
    refine ⟨'-', ?_, by decide⟩
    show '-' ∈ ("-" ++ toString (Nat.succ m)).data
    rw [String.data_append]
    simp

/-- C25: for every string with a character other than the space, `getInterchanges` makes
no access out of bounds (the call returns its vector), and the vector is the first token,
the collected entries, the decimal count and the last token, so that it has at least three
elements; every string returned by `getMinimumDistance` has such a character (a digit or
the sign of the total). -/
theorem getInterchanges_in_bounds :
    (∀ str : String, (∃ c ∈ str.data, c ≠ ' ') →
      ∃ (first last : String) (mid : List String) (count : Int),
        (tokens str).head? = some first ∧ (tokens str).getLast? = some last ∧
        getInterchanges str = some (first :: mid ++ [toString count, last]) ∧
        3 ≤ (first :: mid ++ [toString count, last]).length) ∧
    (∀ (g : Graph_M) (src dst : String) (r : String × Graph_M),
      g.getMinimumDistance src dst = some r → ∃ c ∈ r.1.data, c ≠ ' ') := by
  constructor
  · intro str h
    obtain ⟨first, last, mid, count, h1, h2, h3⟩ :=
      getInterchanges_shape str (tokensFrom_ne_nil str.data [] (Or.inr h))
    exact ⟨first, last, mid, count, h1, h2, h3, by simp⟩
  · intro g src dst r h
    unfold Graph_M.getMinimumDistance at h
    rcases hs : g.stackSearch false src dst with _ | ⟨a, m, g1⟩
    · rw [hs] at h
      cases h
    · rw [hs] at h
      simp only [Option.map_some', Option.some.injEq] at h
      obtain ⟨c, hc, hne⟩ := toString_int_mem m
      refine ⟨c, ?_, hne⟩
      rw [← h]
      simp only [String.data_append, List.mem_append]
      exact Or.inr hc

/-- C25, witness: the string `A~B  M~BY  C~Y`, and the string that
`getMinimumDistance("A", "B")` returns on the pair graph. -/
theorem getInterchanges_in_bounds_witness :
    (∃ (first last : String) (mid : List String) (count : Int),
      (tokens "A~B  M~BY  C~Y").head? = some first ∧
      (tokens "A~B  M~BY  C~Y").getLast? = some last ∧
      getInterchanges "A~B  M~BY  C~Y" = some (first :: mid ++ [toString count, last]) ∧
      3 ≤ (first :: mid ++ [toString count, last]).length) ∧
    pairGraph.getMinimumDistance "A" "B" = some ("A  B  10", pairGraph) ∧
    ∃ c ∈ ("A  B  10", pairGraph).1.data, c ≠ ' ' :=
  ⟨getInterchanges_in_bounds.1 "A~B  M~BY  C~Y" ⟨'A', by decide, by decide⟩, by decide,
    getInterchanges_in_bounds.2 pairGraph "A" "B" ("A  B  10", pairGraph) (by decide)⟩

/-- C24 as stated fails for a name that is no vertex, and for an adjacency key that is no
vertex: on the pair graph `A – B`, `hasPath("Q", "A", processed)`,
`getMinimumDistance("Q", "A")` and the loop of `getMinimumTime("Q", "A")` all return with
`Q` added to the vertices (`vtces[name]` on a missing name inserts it), so that afterwards
`numVertex()` is `3` and `containsVertex("Q")` holds; on the graph with the one vertex `B`
whose adjacency names `A`, `hasPath("B", "X", processed)` and
`getMinimumDistance("B", "X")` return with `A` added to the vertices. -/
theorem query_inserts_vertex :
    pairGraph.numVertex = 2 ∧ pairGraph.containsVertex "Q" = false ∧
    (pairGraph.hasPath "Q" "A" []).map (fun r => (r.1, r.2.1.vtces.map Prod.fst)) =
      some (false, ["A", "B", "Q"]) ∧
    (pairGraph.hasPath "Q" "A" []).map (fun r => r.2.1.numVertex) = some 3 ∧
    (pairGraph.hasPath "Q" "A" []).map (fun r => r.2.1.containsVertex "Q") = some true ∧
    (pairGraph.getMinimumDistance "Q" "A").map (fun r => (r.1, r.2.vtces.map Prod.fst)) =
      some ("2147483647", ["A", "B", "Q"]) ∧
    (pairGraph.getMinimumTimeRecord "Q" "A").map (fun r => r.2.2.vtces.map Prod.fst) =
      some ["A", "B", "Q"] ∧
    danglingGraph.vtces = [("B", ⟨[("A", 10)]⟩)] ∧
    (danglingGraph.hasPath "B" "X" []).map (fun r => r.2.1.vtces.map Prod.fst) =
      some ["B", "A"] ∧
    (danglingGraph.getMinimumDistance "B" "X").map (fun r => r.2.vtces.map Prod.fst) =
      some ["B", "A"] := by
  decide

/-- Once `dst` is marked, the loop of the stack searches leaves `ans` and `min` as they
are. -/
theorem searchLoop_frozen (nan : Bool) (dst : String) :
    ∀ (fuel : Nat) (stack : List Pair) (P : List (String × Bool)) (ans : String) (min : Int)
      (g : Graph_M) (r : String × Int × Graph_M),
      pget P dst = true → searchLoop nan dst fuel stack P ans min g = some r →
      r.1 = ans ∧ r.2.1 = min := by
  intro fuel
  induction fuel with
  | zero =>
    intro stack P ans min g r _ h
    cases h
  | succ fuel ih =>
    intro stack P ans min g r hd h
    cases stack with
    | nil =>
      simp only [searchLoop, Option.some.injEq] at h
      rw [← h]
      exact ⟨rfl, rfl⟩
    | cons rp stack =>
      rw [searchLoop] at h
      by_cases hpr : pget P rp.vname = true
      · rw [if_pos hpr] at h
        exact ih stack P ans min g r hd h
      · rw [if_neg hpr] at h
        have hne : rp.vname ≠ dst := by
          intro e
          rw [e] at hpr
          exact hpr hd
        simp only [if_neg hne] at h
        refine ih _ _ ans min _ r ?_ h
        rw [(pushNbrs_spec nan rp _ stack (mset P rp.vname true)).1]
        exact pget_mark_mono P rp.vname dst hd

/-- The pass that pops a frame of `dst` while `dst` is unmarked decides the result. -/
theorem searchLoop_first_pop (nan : Bool) (fuel : Nat) (rp : Pair) (stack : List Pair)
    (P : List (String × Bool)) (ans : String) (min : Int) (g : Graph_M)
    (r : String × Int × Graph_M) (hun : pget P rp.vname = false)
    (h : searchLoop nan rp.vname fuel (rp :: stack) P ans min g = some r) :
    (rp.total nan < min → r.1 = rp.psf ∧ r.2.1 = rp.total nan) ∧
    (¬ rp.total nan < min → r.1 = ans ∧ r.2.1 = min) := by
  cases fuel with
  | zero => cases h
  | succ fuel =>
    rw [searchLoop] at h
    have hpr : ¬ pget P rp.vname = true := by
      rw [hun]
      exact Bool.false_ne_true
    rw [if_neg hpr] at h
    simp only [if_true] at h
    constructor
    · intro hlt
      rw [if_pos hlt] at h
      exact searchLoop_frozen nan rp.vname fuel stack _ _ _ g r (pget_mset_self P rp.vname) h
    · intro hlt
      rw [if_neg hlt] at h
      exact searchLoop_frozen nan rp.vname fuel stack _ _ _ g r (pget_mset_self P rp.vname) h

/-- C21: on the cycle `A – B – C – A` with the weights `1`, `1`, `5` (connected, symmetric
adjacency, non-negative weights), `getMinimumDistance("A", "C")` returns the route
`A  C` with the total `5`, while `dijkstra("A", "C", false)` is `2` for every conforming
heap. In every run of the stack searches the destination is finalized at most once: the
pass that pops a frame of the destination while it is unmarked decides `ans` and `min`
(the frame is recorded when its total is below `min`), and once the destination is marked
`ans` and `min` are returned as they are. -/
theorem stack_search_first_route :
    (cycleGraph.WF ∧ cycleGraph.Symmetric ∧ cycleGraph.NonNeg ∧ cycleGraph.Connected ∧
      ¬ cycleGraph.Acyclic ∧
      cycleGraph.getMinimumDistance "A" "C" = some ("A  C  5", cycleGraph) ∧
      (cycleGraph.stackSearch false "A" "C").map (fun r => r.2.1) = some 5 ∧
      ∀ H : StlHeap, cycleGraph.dijkstra H "A" "C" false = some 2) ∧
    (∀ (nan : Bool) (dst : String) (fuel : Nat) (stack : List Pair)
      (P : List (String × Bool)) (ans : String) (min : Int) (g : Graph_M)
      (r : String × Int × Graph_M),
      pget P dst = true → searchLoop nan dst fuel stack P ans min g = some r →
      r.1 = ans ∧ r.2.1 = min) ∧
    (∀ (nan : Bool) (fuel : Nat) (rp : Pair) (stack : List Pair)
      (P : List (String × Bool)) (ans : String) (min : Int) (g : Graph_M)
      (r : String × Int × Graph_M),
      pget P rp.vname = false →
      searchLoop nan rp.vname fuel (rp :: stack) P ans min g = some r →
      (rp.total nan < min → r.1 = rp.psf ∧ r.2.1 = rp.total nan) ∧
      (¬ rp.total nan < min → r.1 = ans ∧ r.2.1 = min)) := by
  have hwf : cycleGraph.WF := by decide
  have hsym : cycleGraph.Symmetric := by decide
  have hnn : cycleGraph.NonNeg := by decide
  have hA : Route cycleGraph false "A" "A" ["A"] 0 := Route.start (by decide)
  have hB : Route cycleGraph false "A" "B" (["A"] ++ ["B"]) (0 + edgeCost false 1) :=
    Route.step hA (by decide)
  have hC : Route cycleGraph false "A" "C" (["A"] ++ ["B"] ++ ["C"])
      (0 + edgeCost false 1 + edgeCost false 1) := Route.step hB (by decide)
  refine ⟨⟨hwf, hsym, hnn, ?_, ?_, by decide, by decide, ?_⟩, ?_, ?_⟩
  · apply connected_of_root cycleGraph hsym "A"
    intro v hv
    have hm := mem_keys_of_containsVertex cycleGraph v hv
    have hk : cycleGraph.vtces.map Prod.fst = ["A", "B", "C"] := by decide
    rw [hk] at hm
    simp only [List.mem_cons, List.mem_singleton, List.not_mem_nil, or_false] at hm
    rcases hm with e | e | e
    · subst e
      exact ⟨_, _, hA⟩
    · subst e
      exact ⟨_, _, hB⟩
    · subst e
      exact ⟨_, _, hC⟩
  · intro hac
    have h1 := hac.2 "A" "C" _ _ hC (by decide) (by decide)
    revert h1
    decide
  · intro H
    exact dijkstra_eq_sameMap H cycleGraph cycleGraph false "A" "C" 2 hwf hwf (sameMap_refl _)
      hnn (costsBelowMax_of_total cycleGraph hwf hnn false (by decide)) ⟨_, _, hC⟩
      (by decide) (by decide)
  · intro nan dst fuel stack P ans min g r hd h
    exact searchLoop_frozen nan dst fuel stack P ans min g r hd h
  · intro nan fuel rp stack P ans min g r hun h
    exact searchLoop_first_pop nan fuel rp stack P ans min g r hun h

/-- C21, witness: the state of the search from `A` to `C` on the cycle after the first
pass (the frames of `C` and `B` on the stack, `A` marked): the frame of `C` is popped
first, and its route `A  C` with the total `5` is the result. -/
theorem stack_search_first_route_witness :
    pget [("A", true), ("B", false), ("C", false)] "C" = false ∧
    searchLoop false "C" 7 [⟨"C", "A  C  ", 5, 0⟩, ⟨"B", "A  B  ", 1, 0⟩]
      [("A", true), ("B", false), ("C", false)] "" INT_MAX cycleGraph =
      some ("A  C  ", 5, cycleGraph) ∧
    (((5 : Int) < INT_MAX → "A  C  " = "A  C  " ∧ (5 : Int) = 5) ∧
      (¬ (5 : Int) < INT_MAX → "A  C  " = "" ∧ (5 : Int) = INT_MAX)) ∧
    pget [("C", true)] "C" = true ∧
    searchLoop false "C" 3 [⟨"B", "A  B  ", 1, 0⟩] [("C", true)] "x" 4 cycleGraph =
      some ("x", 4, cycleGraph) ∧
    ("x" = "x" ∧ (4 : Int) = 4) :=
  ⟨by decide, by decide,
    stack_search_first_route.2.2 false 7 ⟨"C", "A  C  ", 5, 0⟩ [⟨"B", "A  B  ", 1, 0⟩]
      [("A", true), ("B", false), ("C", false)] "" INT_MAX cycleGraph
      ("A  C  ", 5, cycleGraph) (by decide) (by decide),
    by decide, by decide,
    stack_search_first_route.2.1 false "C" 3 [⟨"B", "A  B  ", 1, 0⟩] [("C", true)] "x" 4
      cycleGraph ("x", 4, cycleGraph) (by decide) (by decide)⟩

/-! ### A rank certificate for acyclic graphs -/

theorem exists_max_rank (d : String → Nat) (l : List String) (h : l ≠ []) :
    ∃ x ∈ l, ∀ y ∈ l, d y ≤ d x := by
  induction l with
  | nil => exact absurd rfl h
  | cons a l ih =>
    cases l with
    | nil => exact ⟨a, List.mem_singleton.mpr rfl, fun y hy => by
        rw [List.mem_singleton] at hy; rw [hy]⟩
    | cons b l =>
      obtain ⟨x, hx, hmax⟩ := ih (by simp)
      by_cases hle : d a ≤ d x
      · refine ⟨x, List.mem_cons_of_mem _ hx, fun y hy => ?_⟩
        rcases List.mem_cons.mp hy with e | e
        · rw [e]; exact hle
        · exact hmax y e
      · refine ⟨a, List.mem_cons_self _ _, fun y hy => ?_⟩
        rcases List.mem_cons.mp hy with e | e
        · rw [e]
        · have := hmax y e
          omega

theorem getLast_mem_tail {α : Type} (b : α) (r : List α) (hr : r ≠ []) (v : α)
    (h : (b :: r).getLast? = some v) : v ∈ r := by
  cases r with
  | nil => exact absurd rfl hr
  | cons c r =>
    rw [List.getLast?_cons_cons] at h
    exact List.mem_of_getLast?_eq_some h

/-- On a closed chain of three or more distinct nodes every node has two distinct
neighbours among the nodes of the chain. -/
theorem cycle_two_nbrs {α : Type} (E : α → α → Prop) (hE : ∀ a b, E a b → E b a)
    (p : List α) (hnd : p.Nodup) (hch : List.Chain' E p) (hlen : 3 ≤ p.length) (u v : α)
    (hh : p.head? = some u) (hl : p.getLast? = some v) (hc : E v u) (x : α) (hx : x ∈ p) :
    ∃ a b, a ∈ p ∧ b ∈ p ∧ a ≠ b ∧ E x a ∧ E x b := by
  obtain ⟨l, r, rfl⟩ := List.append_of_mem hx
  rw [List.chain'_split] at hch
  obtain ⟨hch1, hch2⟩ := hch
  have hnd1 := List.nodup_append.mp hnd
  have hxr : x ∉ r := (List.nodup_cons.mp hnd1.2.1).1
  have hrnd : r.Nodup := (List.nodup_cons.mp hnd1.2.1).2
  have hxl : x ∉ l := fun h => hnd1.2.2 h (List.mem_cons_self _ _)
  cases l with
  | nil =>
    -- `x` is the first node
    simp only [List.nil_append, List.head?_cons, Option.some.injEq] at hh
    subst hh
    cases r with
    | nil => simp at hlen
    | cons b r =>
      cases r with
      | nil => simp at hlen
      | cons b1 r =>
        simp only [List.nil_append] at hl
        rw [List.getLast?_cons_cons] at hl
        have hv : v ∈ b1 :: r := getLast_mem_tail b (b1 :: r) (by simp) v hl
        have hbv : v ≠ b := by
          intro e
          rw [e] at hv
          exact (List.nodup_cons.mp hrnd).1 hv
        refine ⟨v, b, ?_, ?_, hbv, hE _ _ hc, (List.chain'_cons.mp hch2).1⟩
        · simp only [List.nil_append]
          exact List.mem_cons_of_mem _ (List.mem_cons_of_mem _ hv)
        · simp
  | cons a0 l =>
    have hlne : (a0 :: l) ≠ [] := by simp
    have hlast : (a0 :: l).getLast? = some ((a0 :: l).getLast hlne) :=
      List.getLast?_eq_getLast _ _
    have hpred : E ((a0 :: l).getLast hlne) x := by
      rw [List.chain'_append] at hch1
      exact hch1.2.2 _ (by rw [hlast]; rfl) x (by simp)
    have hpm : (a0 :: l).getLast hlne ∈ a0 :: l := List.getLast_mem _
    cases r with
    | nil =>
      -- `x` is the last node
      have hxv : x = v := by
        simp only [List.getLast?_append, List.getLast?_singleton, Option.or,
          Option.some.injEq] at hl
        exact hl
      subst hxv
      have hu : a0 = u := by
        simp only [List.cons_append, List.head?_cons, Option.some.injEq] at hh
        exact hh
      subst hu
      cases l with
      | nil => simp at hlen
      | cons a1 l =>
        have hm2 : (a0 :: a1 :: l).getLast hlne ∈ a1 :: l := by
          apply getLast_mem_tail a0 (a1 :: l) (by simp)
          exact hlast
        have hne : (a0 :: a1 :: l).getLast hlne ≠ a0 := by
          intro e
          rw [e] at hm2
          exact (List.nodup_cons.mp hnd1.1).1 hm2
        exact ⟨_, a0, List.mem_append_left _ hpm, by simp, hne, hE _ _ hpred, hc⟩
    | cons b r =>
      have hne : (a0 :: l).getLast hlne ≠ b := by
        intro e
        rw [e] at hpm
        exact hnd1.2.2 hpm (List.mem_cons_of_mem _ (List.mem_cons_self _ _))
      refine ⟨_, b, List.mem_append_left _ hpm, ?_, hne, hE _ _ hpred,
        (List.chain'_cons.mp hch2).1⟩
      exact List.mem_append_right _ (List.mem_cons_of_mem _ (List.mem_cons_self _ _))

theorem containsEdge_symm (g : Graph_M) (hsym : g.Symmetric) (a b : String)
    (h : g.containsEdge a b = true) : g.containsEdge b a = true := by
  obtain ⟨w, hw⟩ := find_of_containsEdge g a b h
  exact containsEdge_of_find g (symFind_of_symmetric g hsym) b a w (edge_symm g hsym a b w hw)

/-- A graph with symmetric adjacency that passes the rank test has no cycle. -/
theorem acyclic_of_rank (g : Graph_M) (hsym : g.Symmetric) (hlf : g.LoopFree)
    (d : String → Nat) (hr : g.Ranked d) : g.Acyclic := by
  refine ⟨hlf, ?_⟩
  intro u v p c hroute hnd hlen
  rcases hclose : mfind (g.nbrsOf v) u with _ | w0
  · rfl
  · exfalso
    have hs := symFind_of_symmetric g hsym
    obtain ⟨x, hx, hmax⟩ := exists_max_rank d p (route_ne_nil g false u v p c hroute)
    obtain ⟨a, b, ha, hb, hab, hEa, hEb⟩ :=
      cycle_two_nbrs (fun a b => g.containsEdge a b = true) (containsEdge_symm g hsym) p hnd
        (route_chain g hsym false u v p c hroute) hlen u v
        (route_head g false u v p c hroute) (route_getLast g false u v p c hroute)
        (containsEdge_of_find g hs v u w0 hclose) x hx
    obtain ⟨wa, hwa⟩ := find_of_containsEdge g x a hEa
    obtain ⟨wb, hwb⟩ := find_of_containsEdge g x b hEb
    unfold Graph_M.nbrsOf at hwa hwb
    rcases hf : mfind g.vtces x with _ | vtx
    · rw [hf] at hwa
      cases hwa
    · rw [hf] at hwa hwb
      have h1 := hr (x, vtx) (mem_of_mfind _ _ _ hf) (a, wa) (mem_of_mfind _ _ _ hwa)
      have h2 := hr (x, vtx) (mem_of_mfind _ _ _ hf) (b, wb) (mem_of_mfind _ _ _ hwb)
      have h3 := hmax a ha
      have h4 := hmax b hb
      exact hab (h1.2 (b, wb) (mem_of_mfind _ _ _ hwb)
        (lt_of_le_of_ne h3 h1.1) (lt_of_le_of_ne h4 h2.1))

theorem symmetric_of_symFind (g : Graph_M) (hwf : g.WF) (hs : g.SymFind) : g.Symmetric := by
  intro p hp q hq
  apply hs
  rw [nbrsOf_of_mem g hwf p hp]
  exact mfind_of_mem _ _ _ (hwf.2 p hp) hq

theorem loopFree_of_noLoop (g : Graph_M) (hwf : g.WF) (hn : g.NoLoop) : g.LoopFree := by
  intro p hp q hq e
  have h1 : mfind (g.nbrsOf p.1) q.1 = some q.2 := by
    rw [nbrsOf_of_mem g hwf p hp]
    exact mfind_of_mem _ _ _ (hwf.2 p hp) hq
  rw [e, hn p.1] at h1
  cases h1

/-- Being a tree does not depend on the order in which the containers enumerate their
entries. -/
theorem Graph_M.SameMap.isTree {g g1 : Graph_M} (h : g.SameMap g1) (hwf1 : g1.WF)
    (ht : g.IsTree) : g1.IsTree := by
  refine ⟨?_, ?_, ?_, ?_⟩
  · apply symmetric_of_symFind g1 hwf1
    intro u v w hw
    rw [← h.2] at hw ⊢
    exact symFind_of_symmetric g ht.symmetric u v w hw
  · intro u v hu hv
    rw [← h.1] at hu hv
    obtain ⟨p, c, hr⟩ := ht.connected u v hu hv
    exact ⟨p, c, h.route hr⟩
  · apply loopFree_of_noLoop g1 hwf1
    intro u
    rw [← h.2]
    exact noLoop_of_loopFree g ht.acyclic.1 u
  · intro u v p c hr hnd hlen
    rw [← h.2]
    exact ht.acyclic.2 u v p c (h.symm.route hr) hnd hlen

/-- A route over two or more nodes is a path of one or more edges. -/
theorem reach_of_route (g : Graph_M) (hsym : g.Symmetric) (nan : Bool) (u v : String)
    (p : List String) (c : Int) (h : Route g nan u v p c) (hlen : 2 ≤ p.length) :
    g.Reach u v := by
  induction h with
  | start _ => simp at hlen
  | @step x y q c1 w hr hw ih =>
    have hadj : g.Adj x y := containsEdge_of_find g (symFind_of_symmetric g hsym) x y w hw
    by_cases hq : 2 ≤ q.length
    · exact Relation.TransGen.tail (ih hq) hadj
    · cases hr with
      | start _ => exact Relation.TransGen.single hadj
      | @step x1 _ q1 c2 w1 hr1 hw1 =>
        have := route_ne_nil g nan u x1 q1 c2 hr1
        cases q1 with
        | nil => exact absurd rfl this
        | cons a q1 => simp at hq

/-- On a tree, the distance search returns the one route without repeated node and the
result of `dijkstra`. -/
theorem tree_distance_eq (H : StlHeap) (g : Graph_M) (hwf : g.WF) (ht : g.IsTree)
    (hnn : g.NonNeg) (hb : g.CostsBelowMax false) (src dst : String)
    (hsrc : g.containsVertex src = true) (hdst : g.containsVertex dst = true) :
    ∃ p c, g.getMinimumDistance src dst = some (renderPath p ++ toString c, g) ∧
      Route g false src dst p c ∧ p.Nodup ∧ g.dijkstra H src dst false = some c := by
  have hsym := ht.symmetric
  have hjoin := ht.connected src dst hsrc hdst
  obtain ⟨p, c, hrun, hr, hnd⟩ := stackSearch_spec g false src dst hwf hsym hnn hb hjoin
  obtain ⟨d, hd, ⟨p0, hr0, hnd0⟩, _⟩ :=
    dijkstra_correct H g false src dst hwf hnn (hb src) hjoin hdst
  have huniq := tree_unique g hsym ht.acyclic src dst p c hr hnd
  refine ⟨p, c, ?_, hr, hnd, ?_⟩
  · unfold Graph_M.getMinimumDistance
    rw [hrun]
    rfl
  · rw [hd, route_cost_unique g false src dst p c hr p0 d hr0 (huniq p0 d hr0 hnd0)]

theorem metroMap_isTree : metroMap.IsTree := by
  have hsym : metroMap.Symmetric := by decide
  refine ⟨hsym, ?_, acyclic_of_rank metroMap hsym (by decide) metroRank (by decide)⟩
  apply connected_of_root metroMap hsym "Rajiv Chowk~BY"
  intro v hv
  have hall : ∀ k ∈ metroMap.vtces.map Prod.fst,
      (metroMap.hasPath "Rajiv Chowk~BY" k []).map (fun r => r.1) = some true := by
    decide
  have h1 := hall v (mem_keys_of_containsVertex metroMap v hv)
  obtain ⟨b, g1, P1, hrun, hiff, _⟩ :=
    hasPath_spec metroMap (closed_of_symmetric metroMap hsym) "Rajiv Chowk~BY" v
  rw [hrun] at h1
  simp only [Option.map_some', Option.some.injEq] at h1
  exact route_of_reach metroMap false _ _ (hiff.mp h1)

/-- On a tree in which every vertex has a neighbour, every vertex is reachable from every
vertex by a path of one or more edges. -/
theorem tree_reach (g : Graph_M) (hwf : g.WF) (ht : g.IsTree)
    (hnb : ∀ p ∈ g.vtces, p.2.nbrs ≠ []) (src dst : String)
    (hsrc : g.containsVertex src = true) (hdst : g.containsVertex dst = true) :
    g.Reach src dst := by
  have hsym := ht.symmetric
  by_cases e : src = dst
  · subst e
    unfold Graph_M.containsVertex mcontains at hsrc
    obtain ⟨vtx, hf⟩ := Option.isSome_iff_exists.mp hsrc
    have hmem := mem_of_mfind _ _ _ hf
    have hne := hnb (src, vtx) hmem
    have hn : g.nbrsOf src = vtx.nbrs := nbrsOf_of_mem g hwf (src, vtx) hmem
    rcases hv : vtx.nbrs with _ | ⟨q, rest⟩
    · exact absurd hv hne
    · have hq : mfind (g.nbrsOf src) q.1 = some q.2 := by
        rw [hn]
        apply mfind_of_mem _ _ _ (hwf.2 (src, vtx) hmem)
        rw [hv]
        exact List.mem_cons_self _ _
      have hs := symFind_of_symmetric g hsym
      exact Relation.TransGen.tail
        (Relation.TransGen.single (containsEdge_of_find g hs src q.1 q.2 hq))
        (containsEdge_of_find g hs q.1 src q.2 (hs src q.1 q.2 hq))
  · obtain ⟨p, c, hr⟩ := ht.connected src dst hsrc hdst
    apply reach_of_route g hsym false src dst p c hr
    have hh := route_head g false src dst p c hr
    have hl := route_getLast g false src dst p c hr
    cases p with
    | nil => cases hh
    | cons a p =>
      cases p with
      | nil =>
        simp only [List.head?_cons, List.getLast?_singleton, Option.some.injEq] at hh hl
        exact absurd (hh.symm.trans hl) e
      | cons b p => simp

/-- C22: on every graph that holds the map built by `createMetroMap` (20 vertices, 19
edges), whatever the order in which its containers enumerate their entries and whatever
the heap does with equal costs, for all stations `src` and `dst`:
`hasPath(src, dst, processed)` on an empty `processed` map returns `true`, and
`getMinimumDistance(src, dst)` returns a route followed by the total
`dijkstra(src, dst, false)`. -/
theorem metro_search_eq_dijkstra (H : StlHeap) (g : Graph_M) (hwf : g.WF)
    (hsame : metroMap.SameMap g) (src dst : String)
    (hsrc : g.containsVertex src = true) (hdst : g.containsVertex dst = true) :
    metroMap.numVertex = 20 ∧ metroMap.numEdges = 19 ∧
    (∃ g1 P1, g.hasPath src dst [] = some (true, g1, P1)) ∧
    ∃ p c, g.getMinimumDistance src dst = some (renderPath p ++ toString c, g) ∧
      g.dijkstra H src dst false = some c := by
  have hwf0 : metroMap.WF := by decide
  have hnn0 : metroMap.NonNeg := by decide
  have ht : g.IsTree := hsame.isTree hwf metroMap_isTree
  have hnb0 : ∀ p ∈ metroMap.vtces, p.2.nbrs ≠ [] := by decide
  have hnb : ∀ p ∈ g.vtces, p.2.nbrs ≠ [] := by
    intro p hp hnil
    have hv : metroMap.containsVertex p.1 = true := by
      rw [hsame.1]
      exact (mfind_isSome_iff _ _).mpr (List.mem_map_of_mem Prod.fst hp)
    unfold Graph_M.containsVertex mcontains at hv
    obtain ⟨vtx, hf⟩ := Option.isSome_iff_exists.mp hv
    have hmem := mem_of_mfind _ _ _ hf
    have hne := hnb0 (p.1, vtx) hmem
    rcases hv1 : vtx.nbrs with _ | ⟨q, rest⟩
    · exact hne hv1
    · have hq : mfind (metroMap.nbrsOf p.1) q.1 = some q.2 := by
        rw [nbrsOf_of_mem metroMap hwf0 (p.1, vtx) hmem]
        apply mfind_of_mem _ _ _ (hwf0.2 (p.1, vtx) hmem)
        rw [hv1]
        exact List.mem_cons_self _ _
      rw [hsame.2, nbrsOf_of_mem g hwf p hp, hnil] at hq
      cases hq
  refine ⟨by decide, by decide, ?_, ?_⟩
  · obtain ⟨b, g1, P1, hrun, hiff, _⟩ :=
      hasPath_spec g (closed_of_symmetric g ht.symmetric) src dst
    have hb : b = true := hiff.mpr (tree_reach g hwf ht hnb src dst hsrc hdst)
    subst hb
    exact ⟨g1, P1, hrun⟩
  · obtain ⟨p, c, h1, _, _, h2⟩ :=
      tree_distance_eq H g hwf ht (hsame.nonNeg hwf hnn0)
        (hsame.costsBelowMax (costsBelowMax_of_total metroMap hwf0 hnn0 false (by decide)))
        src dst hsrc hdst
    exact ⟨p, c, h1, h2⟩

/-- C22, witness: the graph built by `createMetroMap` itself, with the reference heap,
from `Noida Sector 62~B` to `IGI Airport~O`. -/
theorem metro_search_eq_dijkstra_witness :
    metroMap.WF ∧ metroMap.SameMap metroMap ∧
    metroMap.containsVertex "Noida Sector 62~B" = true ∧
    metroMap.containsVertex "IGI Airport~O" = true ∧
    (metroMap.getMinimumDistance "Noida Sector 62~B" "IGI Airport~O").map (fun r => r.1) =
      some ("Noida Sector 62~B  Botanical Garden~B  Yamuna Bank~B  Rajiv Chowk~BY  " ++
        "New Delhi~YO  Shivaji Stadium~O  DDS Campus~O  IGI Airport~O  42") ∧
    (metroMap.numVertex = 20 ∧ metroMap.numEdges = 19 ∧
    (∃ g1 P1, metroMap.hasPath "Noida Sector 62~B" "IGI Airport~O" [] =
      some (true, g1, P1)) ∧
    ∃ p c, metroMap.getMinimumDistance "Noida Sector 62~B" "IGI Airport~O" =
        some (renderPath p ++ toString c, metroMap) ∧
      metroMap.dijkstra refHeap "Noida Sector 62~B" "IGI Airport~O" false = some c) :=
  ⟨by decide, sameMap_refl _, by decide, by decide, by decide,
    metro_search_eq_dijkstra refHeap metroMap (by decide) (sameMap_refl _)
      "Noida Sector 62~B" "IGI Airport~O" (by decide) (by decide)⟩

/-! ### Termination, and every node finalized once -/

theorem searchTrace_erase (nan : Bool) (dst : String) :
    ∀ (fuel : Nat) (stack : List Pair) (P : List (String × Bool)) (ans : String) (min : Int)
      (g : Graph_M) (tr : List String) (pops : Nat),
      (searchTrace nan dst fuel stack P ans min g tr pops).map
          (fun r => (r.1, r.2.1, r.2.2.1)) =
        searchLoop nan dst fuel stack P ans min g := by
  intro fuel
  induction fuel with
  | zero => intro stack P ans min g tr pops; rfl
  | succ fuel ih =>
    intro stack P ans min g tr pops
    cases stack with
    | nil => rfl
    | cons rp stack =>
      rw [searchTrace, searchLoop]
      by_cases hpr : pget P rp.vname = true
      · rw [if_pos hpr, if_pos hpr]
        exact ih _ _ _ _ _ _ _
      · rw [if_neg hpr, if_neg hpr]
        by_cases hd : rp.vname = dst
        · simp only [if_pos hd]
          by_cases hlt : rp.total nan < min
          · rw [if_pos hlt, if_pos hlt]
            exact ih _ _ _ _ _ _ _
          · rw [if_neg hlt, if_neg hlt]
            exact ih _ _ _ _ _ _ _
        · simp only [if_neg hd]
          exact ih _ _ _ _ _ _ _

theorem numEntries_touch (g : Graph_M) (u : String) :
    (g.touch u).vtces = g.vtces ∨ (g.touch u).vtces = g.vtces ++ [(u, ⟨[]⟩)] := by
  unfold Graph_M.touch
  rcases h : mcontains g.vtces u with _ | _
  · right
    simp only [Bool.false_eq_true, if_false]
    exact mset_of_not_mem g.vtces u ⟨[]⟩ h
  · left
    simp

theorem undeg_touch (g : Graph_M) (u : String) (P : List (String × Bool)) :
    undeg (g.touch u) P = undeg g P := by
  unfold undeg
  rcases numEntries_touch g u with h | h
  · rw [h]
  · rw [h, List.filter_append, List.map_append, List.sum_append]
    by_cases hp : (!pget P u) = true
    · simp [List.filter_cons, hp]
    · simp [List.filter_cons, hp]

theorem undeg_touch_mark (g : Graph_M) (P : List (String × Bool)) (u : String)
    (hu : pget P u = false) :
    undeg (g.touch u) (mset P u true) + ((g.touch u).nbrsOf u).length ≤ undeg g P := by
  rcases hv : g.containsVertex u with _ | _
  · rw [nbrsOf_touch_new g u hv, undeg_touch]
    have := undeg_mark_le g P u
    simpa using this
  · rw [touch_of_vertex g u hv]
    exact undeg_mark g P u hv hu

/-- The stack searches return on every graph, expand every node at most once and pop at
most as many frames as there were on the stack and remain to be pushed. -/
theorem searchTrace_spec (nan : Bool) (dst : String) :
    ∀ (fuel : Nat) (stack : List Pair) (P : List (String × Bool)) (ans : String) (min : Int)
      (g : Graph_M) (tr : List String) (pops : Nat),
      stack.length + undeg g P < fuel → tr.Nodup → (∀ k ∈ tr, pget P k = true) →
      ∃ (r : String × Int × Graph_M) (tr1 : List String) (pops1 : Nat),
        searchTrace nan dst fuel stack P ans min g tr pops
          = some (r.1, r.2.1, r.2.2, tr1, pops1) ∧
        tr1.Nodup ∧ pops1 ≤ pops + stack.length + undeg g P ∧
        (g.Closed → (∀ f ∈ stack, g.containsVertex f.vname = true) → r.2.2 = g) := by
  intro fuel
  induction fuel with
  | zero =>
    intro stack P ans min g tr pops hlt _ _
    omega
  | succ fuel ih =>
    intro stack P ans min g tr pops hlt hnd hmark
    cases stack with
    | nil => exact ⟨(ans, min, g), tr, pops, rfl, hnd, by omega, fun _ _ => rfl⟩
    | cons rp stack =>
      rw [searchTrace]
      simp only [List.length_cons] at hlt ⊢
      by_cases hpr : pget P rp.vname = true
      · rw [if_pos hpr]
        obtain ⟨r, tr1, pops1, h1, h2, h3, h4⟩ :=
          ih stack P ans min g tr (pops + 1) (by omega) hnd hmark
        exact ⟨r, tr1, pops1, h1, h2, by omega,
          fun hcl hvs => h4 hcl (fun f hf => hvs f (List.mem_cons_of_mem _ hf))⟩
      · rw [if_neg hpr]
        have hfalse : pget P rp.vname = false := by
          rcases h : pget P rp.vname with _ | _
          · rfl
          · exact absurd h hpr
        have hnd1 : (tr ++ [rp.vname]).Nodup := by
          rw [List.nodup_append]
          refine ⟨hnd, List.nodup_singleton _, ?_⟩
          intro a ha hb
          rw [List.mem_singleton] at hb
          rw [hb] at ha
          rw [hmark _ ha] at hfalse
          cases hfalse
        have hmark1 : ∀ k ∈ tr ++ [rp.vname], pget (mset P rp.vname true) k = true := by
          intro k hk
          rcases List.mem_append.mp hk with h | h
          · exact pget_mark_mono P _ k (hmark k h)
          · rw [List.mem_singleton] at h
            rw [h]
            exact pget_mset_self P rp.vname
        have hle := undeg_mark_le g P rp.vname
        by_cases hd : rp.vname = dst
        · simp only [if_pos hd]
          by_cases hlt1 : rp.total nan < min
          · rw [if_pos hlt1]
            obtain ⟨r, tr1, pops1, h1, h2, h3, h4⟩ :=
              ih stack (mset P rp.vname true) rp.psf (rp.total nan) g (tr ++ [rp.vname])
                (pops + 1) (by omega) hnd1 hmark1
            exact ⟨r, tr1, pops1, h1, h2, by omega,
              fun hcl hvs => h4 hcl (fun f hf => hvs f (List.mem_cons_of_mem _ hf))⟩
          · rw [if_neg hlt1]
            obtain ⟨r, tr1, pops1, h1, h2, h3, h4⟩ :=
              ih stack (mset P rp.vname true) ans min g (tr ++ [rp.vname])
                (pops + 1) (by omega) hnd1 hmark1
            exact ⟨r, tr1, pops1, h1, h2, by omega,
              fun hcl hvs => h4 hcl (fun f hf => hvs f (List.mem_cons_of_mem _ hf))⟩
        · simp only [if_neg hd]
          obtain ⟨hP, hmem, hlen⟩ := pushNbrs_spec nan rp ((g.touch rp.vname).nbrsOf rp.vname)
            stack (mset P rp.vname true)
          have hm := undeg_touch_mark g P rp.vname hfalse
          have hu := undeg_congr (g.touch rp.vname) (mset P rp.vname true) _ hP
          obtain ⟨r, tr1, pops1, h1, h2, h3, h4⟩ :=
            ih (pushNbrs nan rp ((g.touch rp.vname).nbrsOf rp.vname) stack
                (mset P rp.vname true)).1
              (pushNbrs nan rp ((g.touch rp.vname).nbrsOf rp.vname) stack
                (mset P rp.vname true)).2
              ans min (g.touch rp.vname) (tr ++ [rp.vname]) (pops + 1) (by omega) hnd1
              (fun k hk => by rw [hP]; exact hmark1 k hk)
          refine ⟨r, tr1, pops1, h1, h2, by omega, ?_⟩
          intro hcl hvs
          have ht := touch_of_vertex g rp.vname (hvs rp (List.mem_cons_self _ _))
          rw [ht] at h4 hmem
          apply h4 hcl
          intro f hf
          rcases (hmem f).mp hf with h | ⟨q, hq, _, rfl⟩
          · exact hvs f (List.mem_cons_of_mem _ h)
          · rw [pushFrame_vname]
            exact hcl rp.vname q hq

/-- The loop of `dijkstra` returns on every heap whose records are named after vertices,
with the graph as it was; the names it extracts are pairwise distinct when the names on
the heap are. -/
theorem dijkstraTrace_spec (H : StlHeap) (des : String) (nan : Bool) :
    ∀ (fuel : Nat) (g : Graph_M) (heap : List DijkstraPair)
      (map : List (String × DijkstraPair)) (tr : List String),
      IsHeap heap → heap.length < fuel → (heap.map (fun d => d.vname)).Nodup → tr.Nodup →
      (∀ k ∈ tr, k ∉ heap.map (fun d => d.vname)) →
      (∀ k ∈ heap.map (fun d => d.vname), g.containsVertex k = true) →
      ∃ c tr1, dijkstraTrace H des nan fuel g heap map tr = some (c, tr1, g) ∧
        dijkstraLoop H g des nan fuel heap map = some c ∧ tr1.Nodup ∧
        ∀ k ∈ tr1, k ∈ tr ∨ k ∈ heap.map (fun d => d.vname) := by
  intro fuel
  induction fuel with
  | zero =>
    intro g heap map tr _ hl _ _ _ _
    omega
  | succ fuel ih =>
    intro g heap map tr hh hl hn hnd hdis hv
    rcases heap with _ | ⟨x, xs⟩
    · exact ⟨0, tr, by simp [dijkstraTrace], by simp [dijkstraLoop], hnd,
        fun k hk => Or.inl hk⟩
    · obtain ⟨r, h1, _, _, _⟩ := pop_heap_cons H x xs hh
      obtain ⟨h3, h4⟩ := pop_heap_rest H x xs hh
      simp only [List.map_cons, List.nodup_cons] at hn
      have hnd1 : (tr ++ [x.vname]).Nodup := by
        rw [List.nodup_append]
        refine ⟨hnd, List.nodup_singleton _, ?_⟩
        intro a ha hb
        rw [List.mem_singleton] at hb
        rw [hb] at ha
        exact hdis _ ha (by simp)
      rw [dijkstraTrace, dijkstraLoop_cons H g des nan fuel x xs map hh]
      simp only [List.isEmpty_cons, Bool.false_eq_true, if_false, h1]
      by_cases hd : x.vname = des
      · rw [if_pos hd, if_pos hd]
        refine ⟨x.cost, tr ++ [x.vname], rfl, rfl, hnd1, ?_⟩
        intro k hk
        rcases List.mem_append.mp hk with h | h
        · exact Or.inl h
        · rw [List.mem_singleton] at h
          right
          rw [h]
          simp
      · rw [if_neg hd, if_neg hd, touch_of_vertex g x.vname (hv x.vname (by simp))]
        obtain ⟨hperm, hheap⟩ :=
          relax_basic H nan x (g.nbrsOf x.vname) (H.pop_heap (x :: xs)).dropLast
            (merase map x.vname) h4
        have hnames : ((relax H nan x (g.nbrsOf x.vname) (H.pop_heap (x :: xs)).dropLast
            (merase map x.vname)).1.map (fun d => d.vname)).Perm
              (xs.map (fun d => d.vname)) :=
          hperm.trans (h3.map _)
        obtain ⟨c, tr1, hrun, hloop, hnd2, hsub⟩ :=
          ih g (relax H nan x (g.nbrsOf x.vname) (H.pop_heap (x :: xs)).dropLast
              (merase map x.vname)).1
            (relax H nan x (g.nbrsOf x.vname) (H.pop_heap (x :: xs)).dropLast
              (merase map x.vname)).2 (tr ++ [x.vname])
            hheap
            (by have := hnames.length_eq
                simp only [List.length_map, List.length_cons] at this hl
                omega)
            (hnames.nodup_iff.mpr hn.2) hnd1
            (by
              intro k hk hk1
              have hk2 := hnames.mem_iff.mp hk1
              rcases List.mem_append.mp hk with h | h
              · exact hdis k h (List.mem_cons_of_mem _ hk2)
              · rw [List.mem_singleton] at h
                rw [h] at hk2
                exact hn.1 hk2)
            (fun k hk => hv k (List.mem_cons_of_mem _ (hnames.mem_iff.mp hk)))
        refine ⟨c, tr1, hrun, hloop, hnd2, ?_⟩
        intro k hk
        rcases hsub k hk with h | h
        · rcases List.mem_append.mp h with h5 | h5
          · exact Or.inl h5
          · rw [List.mem_singleton] at h5
            right
            rw [h5]
            simp
        · right
          exact List.mem_cons_of_mem _ (hnames.mem_iff.mp h)

/-- The method `dijkstra` returns on every graph with unique keys, for every pair of names,
leaves the graph as it was and extracts every vertex from the heap at most once. -/
theorem dijkstraRun_spec (H : StlHeap) (g : Graph_M) (hwf : g.WF) (src des : String)
    (nan : Bool) :
    ∃ c tr, g.dijkstraRun H src des nan = some (c, tr, g) ∧
      g.dijkstra H src des nan = some c ∧ tr.Nodup ∧
      ∀ k ∈ tr, g.containsVertex k = true := by
  have e1 := dijkstraInit_heap src g.vtces [] []
  simp only [List.nil_append] at e1
  have hnames : ((H.make_heap (dijkstraInit src g.vtces [] []).1).map
      (fun d => d.vname)).Perm (g.vtces.map Prod.fst) := by
    refine ((H.make_heap_perm _).map _).trans ?_
    rw [e1]
    simp [List.map_map, Function.comp_def, initPair_vname]
  have hvert : ∀ k ∈ (H.make_heap (dijkstraInit src g.vtces [] []).1).map
      (fun d => d.vname), g.containsVertex k = true :=
    fun k hk => (mfind_isSome_iff _ _).mpr (hnames.mem_iff.mp hk)
  obtain ⟨c, tr, hrun, hloop, hnd, hsub⟩ :=
    dijkstraTrace_spec H des nan ((dijkstraInit src g.vtces [] []).1.length + 1) g
      (H.make_heap (dijkstraInit src g.vtces [] []).1) (dijkstraInit src g.vtces [] []).2 []
      (H.make_heap_isHeap _)
      (by rw [(H.make_heap_perm _).length_eq]; omega)
      (hnames.nodup_iff.mpr hwf.1) List.nodup_nil (fun k hk => by cases hk) hvert
  refine ⟨c, tr, hrun, hloop, hnd, ?_⟩
  intro k hk
  rcases hsub k hk with h | h
  · cases h
  · exact hvert k h

theorem hasPathLoopT_erase
    (callT : Graph_M → String → List (String × Bool) → List String →
      Option (Bool × Graph_M × List (String × Bool) × List String))
    (call : Graph_M → String → List (String × Bool) →
      Option (Bool × Graph_M × List (String × Bool)))
    (hc : ∀ g u P tr, (callT g u P tr).map (fun r => (r.1, r.2.1, r.2.2.1)) = call g u P) :
    ∀ (rest : List (String × Int)) (g : Graph_M) (P : List (String × Bool))
      (tr : List String),
      (hasPathLoopT callT rest g P tr).map (fun r => (r.1, r.2.1, r.2.2.1)) =
        hasPathLoop call rest g P := by
  intro rest
  induction rest with
  | nil => intro g P tr; rfl
  | cons a rest ih =>
    intro g P tr
    obtain ⟨nbr, w⟩ := a
    rw [hasPathLoopT, hasPathLoop]
    by_cases hp : pget P nbr = false
    · rw [if_pos hp, if_pos hp]
      have h1 := hc g nbr (ptouch P nbr) tr
      rcases hrun : callT g nbr (ptouch P nbr) tr with _ | ⟨b, g1, P1, tr1⟩
      · rw [hrun] at h1
        rw [← h1]
        rfl
      · rw [hrun] at h1
        rw [← h1]
        cases b with
        | true => rfl
        | false => exact ih g1 P1 tr1
    · rw [if_neg hp, if_neg hp]
      exact ih _ _ _

theorem hasPathTrace_erase (v : String) :
    ∀ (fuel : Nat) (g : Graph_M) (u : String) (P : List (String × Bool)) (tr : List String),
      (hasPathTrace v fuel g u P tr).map (fun r => (r.1, r.2.1, r.2.2.1)) =
        hasPathAux v fuel g u P := by
  intro fuel
  induction fuel with
  | zero => intro g u P tr; rfl
  | succ fuel ih =>
    intro g u P tr
    rw [hasPathTrace, hasPathAux]
    by_cases he : g.containsEdge u v = true
    · rw [if_pos he, if_pos he]
      rfl
    · rw [if_neg he, if_neg he]
      exact hasPathLoopT_erase _ _ ih _ _ _ _

theorem entries_touch (g : Graph_M) (u : String) : (g.touch u).entries = g.entries := by
  unfold Graph_M.entries
  rcases numEntries_touch g u with h | h
  · rw [h]
  · rw [h]
    simp

theorem unkeys_le (g g1 : Graph_M) (P P1 : List (String × Bool))
    (he : g1.entries = g.entries) (h : ∀ k, pget P k = true → pget P1 k = true) :
    unkeys g1 P1 ≤ unkeys g P := by
  unfold unkeys
  rw [he]
  apply List.countP_mono_left
  intro x _ hx
  rcases hp : pget P x with _ | _
  · rfl
  · rw [h x hp] at hx
    exact hx

theorem unkeys_lt (g : Graph_M) (P : List (String × Bool)) (u : String)
    (hu : u ∈ g.entries.map Prod.snd) (hp : pget P u = false) :
    unkeys g (mset P u true) < unkeys g P := by
  unfold unkeys
  apply countP_lt_of_imp _ _ _ u
  · intro k hk
    by_cases e : k = u
    · subst e
      simp [hp]
    · rw [pget_mset_ne P u k true e] at hk
      exact hk
  · exact hu
  · simp [hp]
  · simp [pget_mset_self]

theorem nbr_mem_entries (g : Graph_M) (u : String) (q : String × Int)
    (hq : q ∈ g.nbrsOf u) : q.1 ∈ g.entries.map Prod.snd := by
  obtain ⟨vtx, h1, h2⟩ := nbrsOf_mem g u q hq
  exact List.mem_map.mpr ⟨(u, q.1), (mem_entries g u q.1).mpr ⟨vtx, h1, q.2, h2⟩, rfl⟩

/-- A call of `hasPath` returns on every graph; the names on which `hasPath` is entered are
pairwise distinct, the adjacency entries stay as they are, marks are only added, and after
the answer `false` every name entered is marked. -/
theorem hasPathTrace_spec (v : String) :
    ∀ (fuel : Nat) (g : Graph_M) (u : String) (P : List (String × Bool)) (tr : List String),
      unkeys g (mset P u true) < fuel → tr.Nodup → (∀ k ∈ tr, pget P k = true) → u ∉ tr →
      ∃ b g1 P1 tr1, hasPathTrace v fuel g u P tr = some (b, g1, P1, tr1) ∧ tr1.Nodup ∧
        g1.entries = g.entries ∧ (∀ k, pget P k = true → pget P1 k = true) ∧
        (b = false → ∀ k ∈ tr1, pget P1 k = true) ∧
        (g.Closed → g.containsVertex u = true → g1 = g) := by
  intro fuel
  induction fuel with
  | zero =>
    intro g u P tr hl _ _ _
    omega
  | succ fuel ih =>
    intro g u P tr hl hnd hmark hu
    have hnd0 : (tr ++ [u]).Nodup := by
      rw [List.nodup_append]
      refine ⟨hnd, List.nodup_singleton _, ?_⟩
      intro a ha hb
      rw [List.mem_singleton] at hb
      rw [hb] at ha
      exact hu ha
    rw [hasPathTrace]
    by_cases he : g.containsEdge u v = true
    · rw [if_pos he]
      exact ⟨true, g, P, tr ++ [u], rfl, hnd0, rfl, fun k hk => hk,
        fun h => Bool.noConfusion h, fun _ _ => rfl⟩
    · rw [if_neg he]
      have hmark0 : ∀ k ∈ tr ++ [u], pget (mset P u true) k = true := by
        intro k hk
        rcases List.mem_append.mp hk with h | h
        · exact pget_mark_mono P u k (hmark k h)
        · rw [List.mem_singleton] at h
          rw [h]
          exact pget_mset_self P u
      -- the loop over the neighbours
      have hloop : ∀ (rest : List (String × Int)) (g0 : Graph_M) (Q : List (String × Bool))
          (t : List String),
          (∀ q ∈ rest, q.1 ∈ g0.entries.map Prod.snd) → unkeys g0 Q < fuel + 1 →
          t.Nodup → (∀ k ∈ t, pget Q k = true) →
          ∃ b g2 Q2 t2, hasPathLoopT (hasPathTrace v fuel) rest g0 Q t
              = some (b, g2, Q2, t2) ∧ t2.Nodup ∧ g2.entries = g0.entries ∧
            (∀ k, pget Q k = true → pget Q2 k = true) ∧
            (b = false → ∀ k ∈ t2, pget Q2 k = true) ∧
            (g0.Closed → (∀ q ∈ rest, g0.containsVertex q.1 = true) → g2 = g0) := by
        intro rest
        induction rest with
        | nil =>
          intro g0 Q t _ _ ht hm
          exact ⟨false, g0, Q, t, rfl, ht, rfl, fun k hk => hk, fun _ => hm, fun _ _ => rfl⟩
        | cons a rest ihr =>
          intro g0 Q t hkeys hlq ht hm
          obtain ⟨nbr, w⟩ := a
          have hrest : ∀ q ∈ rest, q.1 ∈ g0.entries.map Prod.snd :=
            fun q hq => hkeys q (List.mem_cons_of_mem _ hq)
          rw [hasPathLoopT]
          by_cases hp : pget Q nbr = false
          · rw [if_pos hp]
            have hp1 : pget (ptouch Q nbr) nbr = false := by
              rw [pget_ptouch]
              exact hp
            have hlt := unkeys_lt g0 (ptouch Q nbr) nbr (hkeys (nbr, w) (List.mem_cons_self _ _))
              hp1
            have hle := unkeys_le g0 g0 Q (ptouch Q nbr) rfl
              (fun k hk => by rw [pget_ptouch]; exact hk)
            obtain ⟨b, g2, Q2, t2, hrun, hnd2, hent2, hmono2, hfalse2, hsame2⟩ :=
              ih g0 nbr (ptouch Q nbr) t (by omega) ht
                (fun k hk => by rw [pget_ptouch]; exact hm k hk)
                (fun hmem => by rw [hm nbr hmem] at hp; cases hp)
            have hmonoQ : ∀ k, pget Q k = true → pget Q2 k = true := by
              intro k hk
              apply hmono2
              rw [pget_ptouch]
              exact hk
            rw [hrun]
            cases b with
            | true =>
              exact ⟨true, g2, Q2, t2, rfl, hnd2, hent2, hmonoQ, fun h => Bool.noConfusion h,
                fun hcl hvs => hsame2 hcl (hvs (nbr, w) (List.mem_cons_self _ _))⟩
            | false =>
              simp only []
              obtain ⟨b3, g3, Q3, t3, hrun3, hnd3, hent3, hmono3, hfalse3, hsame3⟩ :=
                ihr g2 Q2 t2 (fun q hq => by rw [hent2]; exact hrest q hq)
                  (by have := unkeys_le g0 g2 Q Q2 hent2 hmonoQ; omega)
                  hnd2 (hfalse2 rfl)
              refine ⟨b3, g3, Q3, t3, hrun3, hnd3, hent3.trans hent2,
                fun k hk => hmono3 k (hmonoQ k hk), hfalse3, ?_⟩
              intro hcl hvs
              have e2 := hsame2 hcl (hvs (nbr, w) (List.mem_cons_self _ _))
              rw [e2] at hsame3
              exact hsame3 hcl (fun q hq => hvs q (List.mem_cons_of_mem _ hq))
          · rw [if_neg hp]
            obtain ⟨b3, g3, Q3, t3, hrun3, hnd3, hent3, hmono3, hfalse3, hsame3⟩ :=
              ihr g0 (ptouch Q nbr) t hrest
                (by have := unkeys_le g0 g0 Q (ptouch Q nbr) rfl
                      (fun k hk => by rw [pget_ptouch]; exact hk)
                    omega)
                ht (fun k hk => by rw [pget_ptouch]; exact hm k hk)
            exact ⟨b3, g3, Q3, t3, hrun3, hnd3, hent3,
              fun k hk => hmono3 k (by rw [pget_ptouch]; exact hk), hfalse3,
              fun hcl hvs => hsame3 hcl (fun q hq => hvs q (List.mem_cons_of_mem _ hq))⟩
      obtain ⟨b, g2, Q2, t2, hrun, hnd2, hent2, hmono2, hfalse2, hsame2⟩ :=
        hloop ((g.touch u).nbrsOf u) (g.touch u) (mset P u true) (tr ++ [u])
          (fun q hq => nbr_mem_entries (g.touch u) u q hq)
          (by have := unkeys_le g (g.touch u) (mset P u true) (mset P u true)
                (entries_touch g u) (fun k hk => hk)
              omega)
          hnd0 hmark0
      refine ⟨b, g2, Q2, t2, hrun, hnd2, hent2.trans (entries_touch g u),
        fun k hk => hmono2 k (pget_mark_mono P u k hk), hfalse2, ?_⟩
      intro hcl hv
      have ht := touch_of_vertex g u hv
      rw [ht] at hsame2
      exact hsame2 hcl (fun q hq => hcl u q hq)

/-- The method `hasPath` returns on every graph, for every pair of names and every
`processed` map, and is entered at most once per name. -/
theorem hasPathRun_spec (g : Graph_M) (u v : String) (P : List (String × Bool)) :
    ∃ b g1 P1 tr, g.hasPathRun u v P = some (b, g1, P1, tr) ∧
      g.hasPath u v P = some (b, g1, P1) ∧ tr.Nodup ∧ g1.entries = g.entries ∧
      (g.Closed → g.containsVertex u = true → g1 = g) := by
  have hle : unkeys g (mset P u true) ≤ g.numEntries := by
    rw [numEntries_eq_length]
    unfold unkeys
    have := List.countP_le_length (fun k => !pget (mset P u true) k)
      (l := g.entries.map Prod.snd)
    simpa using this
  obtain ⟨b, g1, P1, tr, hrun, hnd, hent, _, _, hsame⟩ :=
    hasPathTrace_spec v (g.numVertex + g.numEntries + 2) g u P [] (by omega) List.nodup_nil
      (fun k hk => by cases hk) (fun hk => by cases hk)
  refine ⟨b, g1, P1, tr, hrun, ?_, hnd, hent, hsame⟩
  have := hasPathTrace_erase v (g.numVertex + g.numEntries + 2) g u P []
  rw [hrun] at this
  unfold Graph_M.hasPath
  exact this.symm

/-- The stack searches return on every graph, for every pair of names; they expand every
node at most once and pop at most `1 + numEntries` frames; they leave the graph as it was
when the adjacency keys are vertices and `src` is one. -/
theorem stackSearchRun_spec (g : Graph_M) (nan : Bool) (src dst : String) :
    ∃ ans min g1 tr pops, g.stackSearchRun nan src dst = some (ans, min, g1, tr, pops) ∧
      g.stackSearch nan src dst = some (ans, min, g1) ∧ tr.Nodup ∧
      pops ≤ 1 + g.numEntries ∧
      (g.Closed → g.containsVertex src = true → g1 = g) := by
  obtain ⟨r, tr, pops, hrun, hnd, hpops, hsame⟩ :=
    searchTrace_spec nan dst (g.numEntries + 2) [⟨src, src ++ "  ", 0, 0⟩] [] "" INT_MAX g [] 0
      (by rw [undeg_nil, List.length_singleton]; omega) List.nodup_nil
      (fun k hk => by cases hk)
  refine ⟨r.1, r.2.1, r.2.2, tr, pops, hrun, ?_, hnd, ?_, ?_⟩
  · have := searchTrace_erase nan dst (g.numEntries + 2) [⟨src, src ++ "  ", 0, 0⟩] [] ""
      INT_MAX g [] 0
    rw [hrun] at this
    unfold Graph_M.stackSearch
    exact this.symm
  · rw [undeg_nil, List.length_singleton] at hpops
    omega
  · intro hcl hv
    apply hsame hcl
    intro f hf
    rw [List.mem_singleton] at hf
    rw [hf]
    exact hv

/-- C23: for every graph (with unique keys), all names `u`, `v`, every `processed` map and
both modes, `hasPath`, `dijkstra`, `getMinimumDistance` and the loop of `getMinimumTime`
return, and each finalizes each node at most once: the names on which `hasPath` is entered
are pairwise distinct, the names `dijkstra` extracts from the heap are pairwise distinct,
and the nodes the stack search expands are pairwise distinct, with at most
`1 + numEntries` pops. -/
theorem queries_terminate (H : StlHeap) (g : Graph_M) (hwf : g.WF) (u v : String)
    (P : List (String × Bool)) (nan : Bool) :
    (∃ b g1 P1 tr, g.hasPathRun u v P = some (b, g1, P1, tr) ∧
      g.hasPath u v P = some (b, g1, P1) ∧ tr.Nodup) ∧
    (∃ c tr g1, g.dijkstraRun H u v nan = some (c, tr, g1) ∧ g.dijkstra H u v nan = some c ∧
      tr.Nodup) ∧
    (∃ ans min g1 tr pops, g.stackSearchRun nan u v = some (ans, min, g1, tr, pops) ∧
      g.stackSearch nan u v = some (ans, min, g1) ∧ tr.Nodup ∧ pops ≤ 1 + g.numEntries) ∧
    (∃ r, g.getMinimumDistance u v = some r) ∧
    (∃ r, g.getMinimumTimeRecord u v = some r) := by
  refine ⟨?_, ?_, ?_, ?_, ?_⟩
  · obtain ⟨b, g1, P1, tr, h1, h2, h3, _⟩ := hasPathRun_spec g u v P
    exact ⟨b, g1, P1, tr, h1, h2, h3⟩
  · obtain ⟨c, tr, h1, h2, h3, _⟩ := dijkstraRun_spec H g hwf u v nan
    exact ⟨c, tr, g, h1, h2, h3⟩
  · obtain ⟨ans, min, g1, tr, pops, h1, h2, h3, h4, _⟩ := stackSearchRun_spec g nan u v
    exact ⟨ans, min, g1, tr, pops, h1, h2, h3, h4⟩
  · obtain ⟨ans, min, g1, _, _, _, h, _⟩ := stackSearchRun_spec g false u v
    unfold Graph_M.getMinimumDistance
    rw [h]
    exact ⟨_, rfl⟩
  · obtain ⟨ans, min, g1, _, _, _, h, _⟩ := stackSearchRun_spec g true u v
    exact ⟨_, h⟩

/-- C23, witness: the cycle `A – B – C – A`, from `A` to `C`, and to the name `Q` that is
no vertex. -/
theorem queries_terminate_witness :
    cycleGraph.WF ∧
    cycleGraph.hasPathRun "A" "Q" [] =
      some (false, cycleGraph, [("A", true), ("B", true), ("C", true)], ["A", "B", "C"]) ∧
    cycleGraph.dijkstraRun refHeap "A" "C" false = some (2, ["A", "B", "C"], cycleGraph) ∧
    cycleGraph.stackSearchRun false "A" "C" =
      some ("A  C  ", 5, cycleGraph, ["A", "C", "B"], 3) ∧
    ((∃ b g1 P1 tr, cycleGraph.hasPathRun "A" "Q" [] = some (b, g1, P1, tr) ∧
      cycleGraph.hasPath "A" "Q" [] = some (b, g1, P1) ∧ tr.Nodup) ∧
    (∃ c tr g1, cycleGraph.dijkstraRun refHeap "A" "Q" false = some (c, tr, g1) ∧
      cycleGraph.dijkstra refHeap "A" "Q" false = some c ∧ tr.Nodup) ∧
    (∃ ans min g1 tr pops,
      cycleGraph.stackSearchRun false "A" "Q" = some (ans, min, g1, tr, pops) ∧
      cycleGraph.stackSearch false "A" "Q" = some (ans, min, g1) ∧ tr.Nodup ∧
      pops ≤ 1 + cycleGraph.numEntries) ∧
    (∃ r, cycleGraph.getMinimumDistance "A" "Q" = some r) ∧
    (∃ r, cycleGraph.getMinimumTimeRecord "A" "Q" = some r)) :=
  ⟨by decide, by decide, by decide, by decide,
    queries_terminate refHeap cycleGraph (by decide) "A" "Q" [] false⟩

/-- C24, amended: `dijkstra(u, v, mode)` leaves the graph as it is for all names `u`, `v`;
and for every graph whose adjacency keys are all vertices, every vertex `u` and every name
`v`, after `hasPath(u, v, processed)` (whatever the map `processed`),
`getMinimumDistance(u, v)` or the loop of `getMinimumTime(u, v)` returns, the graph (the
vertices and every adjacency map) is identical to what it was before the call. -/
theorem queries_read_only (H : StlHeap) (g : Graph_M) (hwf : g.WF) (u v : String)
    (P : List (String × Bool)) (nan : Bool) :
    (∃ c tr, g.dijkstraRun H u v nan = some (c, tr, g) ∧ g.dijkstra H u v nan = some c) ∧
    (g.Closed → g.containsVertex u = true →
      (∃ b P1, g.hasPath u v P = some (b, g, P1)) ∧
      (∃ s, g.getMinimumDistance u v = some (s, g)) ∧
      (∃ ans min, g.getMinimumTimeRecord u v = some (ans, min, g))) := by
  constructor
  · obtain ⟨c, tr, h1, h2, _⟩ := dijkstraRun_spec H g hwf u v nan
    exact ⟨c, tr, h1, h2⟩
  · intro hcl hu
    refine ⟨?_, ?_, ?_⟩
    · obtain ⟨b, g1, P1, tr, _, h2, _, _, hsame⟩ := hasPathRun_spec g u v P
      rw [hsame hcl hu] at h2
      exact ⟨b, P1, h2⟩
    · obtain ⟨ans, min, g1, _, _, _, h, _, _, hsame⟩ := stackSearchRun_spec g false u v
      rw [hsame hcl hu] at h
      unfold Graph_M.getMinimumDistance
      rw [h]
      exact ⟨_, rfl⟩
    · obtain ⟨ans, min, g1, _, _, _, h, _, _, hsame⟩ := stackSearchRun_spec g true u v
      rw [hsame hcl hu] at h
      exact ⟨ans, min, h⟩

/-- C24, witness of the amended claim: the cycle `A – B – C – A`, the vertex `A` and the
name `Q` that is no vertex. -/
theorem queries_read_only_witness :
    cycleGraph.WF ∧ cycleGraph.Closed ∧ cycleGraph.containsVertex "A" = true ∧
    cycleGraph.containsVertex "Q" = false ∧
    (∃ c tr, cycleGraph.dijkstraRun refHeap "Q" "A" true = some (c, tr, cycleGraph) ∧
      cycleGraph.dijkstra refHeap "Q" "A" true = some c) ∧
    (∃ b P1, cycleGraph.hasPath "A" "Q" [("B", true)] = some (b, cycleGraph, P1)) ∧
    (∃ s, cycleGraph.getMinimumDistance "A" "Q" = some (s, cycleGraph)) ∧
    (∃ ans min, cycleGraph.getMinimumTimeRecord "A" "Q" = some (ans, min, cycleGraph)) :=
  have hcl : cycleGraph.Closed := closed_of_symmetric cycleGraph (by decide)
  ⟨by decide, hcl, by decide, by decide,
    (queries_read_only refHeap cycleGraph (by decide) "Q" "A" [] true).1,
    (queries_read_only refHeap cycleGraph (by decide) "A" "Q" [("B", true)] false).2 hcl
      (by decide)⟩

end MetroMap
